import Mathlib

/-!
# A first-fit free-list allocator (`smalloc.c`)

Shallow embedding of `my_init`, `smalloc` and `sfree`.

* Addresses are byte offsets from the region base `heap`, as `Int`; a C pointer
  is an `Option Int` with `none` for `NULL`.
* Memory is read and written one `Block` header at a time, so it is a map from
  the offset of a header to the header stored there. This is exact as long as
  the headers that are accessed do not overlap, which holds in every state
  satisfying `Inv` below: block starts are at least 24 bytes apart.
* C `int` is 32 bits wide: every `int` operation of the source is followed by
  `wrap32`, and C's `%` is the truncating `Int.tmod`.
* The two `while` loops take a fuel argument (one unit per loop test); running
  out of fuel is `none`.
* `smalloc` returns the report `Malloc_Status` as a value. `smallocAt` is the
  same function with the report stored through the pointer `status` into
  `data`, the bytes of memory outside the block headers; it is the one to use
  when the place of the status record matters.
-/

namespace Smalloc

/-! ## Machine integers and constants -/

def INT_MAX : Int := 2147483647

def INT_MIN : Int := -2147483648

/-- Reduce an integer to the 32-bit two's complement range. -/
def wrap32 (x : Int) : Int := (x + 2147483648) % 4294967296 - 2147483648

def PAGE_SIZE : Int := 4096

def WORD_SIZE : Int := 8

def HEADER_SIZE : Int := 24

/-! ## Data model -/

/-- The block header `struct Block`. -/
structure Block where
  size : Int
  allocated : Int
  next : Option Int
  prev : Option Int
deriving DecidableEq

/-- The report `struct Malloc_Status`. -/
structure Malloc_Status where
  success : Int
  payload_offset : Int
  hops : Int
deriving DecidableEq

/-- The globals: the mapped region (as its headers) and `head`. -/
structure State where
  mem : Int → Block
  head : Option Int

/-- Store to `b->size`. -/
def setSize (m : Int → Block) (b : Int) (v : Int) : Int → Block :=
  fun x => if x = b then { m x with size := v } else m x

/-- Store to `b->allocated`. -/
def setAllocated (m : Int → Block) (b : Int) (v : Int) : Int → Block :=
  fun x => if x = b then { m x with allocated := v } else m x

/-- Store to `b->next`. -/
def setNext (m : Int → Block) (b : Int) (v : Option Int) : Int → Block :=
  fun x => if x = b then { m x with next := v } else m x

/-- Store to `b->prev`. -/
def setPrev (m : Int → Block) (b : Int) (v : Option Int) : Int → Block :=
  fun x => if x = b then { m x with prev := v } else m x

/-- The guarded store `if (p) p->next = v;`. -/
def setNextIf (m : Int → Block) (p : Option Int) (v : Option Int) : Int → Block :=
  match p with
  | none => m
  | some b => setNext m b v

/-- The guarded store `if (p) p->prev = v;`. -/
def setPrevIf (m : Int → Block) (p : Option Int) (v : Option Int) : Int → Block :=
  match p with
  | none => m
  | some b => setPrev m b v

/-! ## `my_init` -/

/-- The page rounding at the top of `my_init`. -/
def roundRegion (size_of_region : Int) : Int :=
  if Int.tmod size_of_region PAGE_SIZE ≠ 0 then
    wrap32 (size_of_region + wrap32 (PAGE_SIZE - Int.tmod size_of_region PAGE_SIZE))
  else size_of_region

/-- The call `mmap(NULL, len, ...)`: `osGrants` is the answer of the operating
system, and a length that is not positive never maps (length 0 is `EINVAL`; a
negative `int` converts to a `size_t` larger than any address space). -/
def mmapOk (len : Int) (osGrants : Bool) : Bool :=
  osGrants && decide (0 < len)

/-- A freshly mapped region is zero filled. -/
def zeroMem : Int → Block := fun _ => ⟨0, 0, none, none⟩

/-- The function `my_init`: the return code and the globals afterwards. -/
def my_init (size_of_region : Int) (osGrants : Bool) (st : State) : Int × State :=
  let size_of_region := roundRegion size_of_region
  if mmapOk size_of_region osGrants = false then
    (-1, st)
  else
    let m := zeroMem
    let m := setSize m 0 size_of_region
    let m := setAllocated m 0 0
    let m := setNext m 0 none
    let m := setPrev m 0 none
    (0, { mem := m, head := some 0 })

/-! ## `smalloc` -/

/-- The first-fit loop `while (curr && (curr->size < block_size))`: the final
`curr` and `status->hops`. -/
def firstFit (m : Int → Block) (block_size : Int) : Nat → Option Int → Int → Option (Option Int × Int)
  | 0, _, _ => none
  | _ + 1, none, hops => some (none, hops)
  | fuel + 1, some curr, hops =>
    if (m curr).size < block_size then
      firstFit m block_size fuel (m curr).next (wrap32 (hops + 1))
    else some (some curr, hops)

/-- The word-alignment padding computed at the top of `smalloc`. -/
def padOf (size_of_payload : Int) : Int :=
  if Int.tmod size_of_payload WORD_SIZE ≠ 0 then
    wrap32 (WORD_SIZE - Int.tmod size_of_payload WORD_SIZE)
  else 0

/-- The required block size `size_of_payload + padding + HEADER_SIZE`. -/
def blockSize (size_of_payload padding : Int) : Int :=
  wrap32 (wrap32 (size_of_payload + padding) + HEADER_SIZE)

/-- The body of `if (leftover >= HEADER_SIZE)`: carve the remainder out as a
new free block linked in place of `curr`. -/
def splitBlock (m : Int → Block) (curr block_size leftover : Int) : Int → Block :=
  let new_block := curr + block_size
  let m := setSize m new_block leftover
  let m := setAllocated m new_block 0
  let m := setNext m new_block (m curr).next
  let m := setPrev m new_block (m curr).prev
  let m := setNextIf m (m curr).prev (some new_block)
  let m := setPrevIf m (m curr).next (some new_block)
  setNext m curr (some new_block)

/-- The part of `smalloc` after a fitting block `curr` was found. -/
def takeBlock (st : State) (size_of_payload padding block_size curr hops : Int) :
    Option Int × Malloc_Status × State :=
  let leftover := wrap32 ((st.mem curr).size - block_size)
  let m1 := if leftover ≥ HEADER_SIZE then splitBlock st.mem curr block_size leftover else st.mem
  let block_size :=
    if leftover ≥ HEADER_SIZE then block_size
    else blockSize size_of_payload (wrap32 (padding + leftover))
  let m2 := setSize m1 curr block_size
  let m3 := setAllocated m2 curr 1
  -- realign free list: `head = curr->next` when `curr->prev` is `NULL`,
  -- else the store `curr->prev->next = curr->next`
  let head := if (m3 curr).prev = none then (m3 curr).next else st.head
  let m4 := setNextIf m3 (m3 curr).prev (m3 curr).next
  let m5 := setPrevIf m4 (m4 curr).next (m4 curr).prev
  let payload_start := curr + HEADER_SIZE
  (some payload_start, ⟨1, wrap32 payload_start, hops⟩, { mem := m5, head := head })

/-- The function `smalloc`: the returned pointer, the status record as the
call leaves it (all three fields are assigned on every path) and the globals
afterwards. -/
def smalloc (fuel : Nat) (size_of_payload : Int) (st : State) :
    Option (Option Int × Malloc_Status × State) :=
  let padding := padOf size_of_payload
  let block_size := blockSize size_of_payload padding
  match firstFit st.mem block_size fuel st.head 0 with
  | none => none
  | some (none, _) => some (none, ⟨0, -1, -1⟩, st)
  | some (some curr, hops) => some (takeBlock st size_of_payload padding block_size curr hops)

/-! ## `sfree` -/

/-- The insertion-point loop `while (curr->next && (new > curr))`. -/
def findSpot (m : Int → Block) (new : Int) : Nat → Int → Option Int
  | 0, _ => none
  | fuel + 1, curr =>
    match (m curr).next with
    | some n => if new > curr then findSpot m new fuel n else some curr
    | none => some curr

/-- The three-way insertion of `new` next to `curr`. The last branch
dereferences `curr->prev` unguarded: when that pointer is `NULL` the run does
not continue, which is `none`. -/
def linkIn (st : State) (new curr : Int) : Option State :=
  let m := st.mem
  if (m curr).next = none ∧ new > curr then
    -- insert at end
    let m := setNext m curr (some new)
    let m := setNext m new none
    let m := setPrev m new (some curr)
    some { mem := m, head := st.head }
  else if (m curr).prev = none ∧ new < curr then
    -- insert at front
    let m := setPrev m new none
    let m := setNext m new (some curr)
    let m := setPrev m curr (some new)
    some { mem := m, head := some new }
  else
    let m := setNext m new (some curr)
    match (m curr).prev with
    | none => none
    | some p =>
      let m := setNext m p (some new)
      let m := setPrev m new (m curr).prev
      let m := setPrev m curr (some new)
      some { mem := m, head := st.head }

/-- The block `// coalesce next`. -/
def coalesceNext (m : Int → Block) (new : Int) : Int → Block :=
  match (m new).next with
  | none => m
  | some n =>
    if n = new + (m new).size then
      let m := setSize m new (wrap32 ((m new).size + (m n).size))
      let m := setPrevIf m (m n).next (some new)
      setNext m new (m n).next
    else m

/-- The block `// coalesce prev`. -/
def coalescePrev (m : Int → Block) (new : Int) : Int → Block :=
  match (m new).prev with
  | none => m
  | some p =>
    if new = p + (m p).size then
      let m := setSize m p (wrap32 ((m p).size + (m new).size))
      let m := setNext m p (m new).next
      setPrevIf m (m new).next (m new).prev
    else m

/-- The function `sfree`; `ptr` is the payload pointer. The result is `none`
when a loop runs out of fuel or the insertion dereferences `NULL`. -/
def sfree (fuel : Nat) (ptr : Option Int) (st : State) : Option State :=
  match ptr with
  | none => some st
  | some ptr =>
    let new := ptr - HEADER_SIZE
    let m := setAllocated st.mem new 0
    match st.head with
    | none =>
      -- start new list
      let m := setPrev m new none
      let m := setNext m new none
      some { mem := m, head := some new }
    | some curr =>
      match findSpot m new fuel curr with
      | none => none
      | some curr =>
        match linkIn { mem := m, head := st.head } new curr with
        | none => none
        | some st1 =>
          let m := coalesceNext st1.mem new
          let m := coalescePrev m new
          some { mem := m, head := st1.head }

/-! ## Specification vocabulary -/

/-- Round a payload size up to a multiple of the word size (specification side). -/
def roundUp8 (p : Int) : Int := (p + 7) / 8 * 8

/-- Round a region size up to a multiple of the page size (specification side). -/
def roundUpPage (n : Int) : Int := (n + 4095) / 4096 * 4096

/-- First node of a list of nodes, `d` when there is none. -/
def hdOr : List Int → Option Int → Option Int
  | [], d => d
  | a :: _, _ => some a

/-- Last node of a list of nodes, `d` when there is none. -/
def lastOr : List Int → Option Int → Option Int
  | [], d => d
  | a :: t, _ => lastOr t (some a)

/-- The nodes `l` form a doubly linked segment: the first node's `prev` is `p`,
the last node's `next` is `n`, and neighbours point at each other. -/
def Linked (m : Int → Block) : Option Int → List Int → Option Int → Prop
  | _, [], _ => True
  | p, a :: t, n => (m a).prev = p ∧ (m a).next = hdOr t n ∧ Linked m (some a) t n

instance Linked.dec (m : Int → Block) : (p : Option Int) → (l : List Int) → (n : Option Int) →
    Decidable (Linked m p l n)
  | _, [], _ => isTrue trivial
  | p, a :: t, n =>
    have := Linked.dec m (some a) t n
    inferInstanceAs (Decidable ((m a).prev = p ∧ (m a).next = hdOr t n ∧ Linked m (some a) t n))

/-- The free list read off by following `next` from `cur`, one unit of fuel per node visited. -/
def walkNext (m : Int → Block) : Nat → Option Int → Option (List Int)
  | 0, _ => none
  | _ + 1, none => some []
  | fuel + 1, some a => (walkNext m fuel (m a).next).map (fun t => a :: t)

/-- The free list of `st` is well formed, with entries `F` given as (address, size)
in list order: `head` and the `next`/`prev` fields link exactly `F`, every entry
is marked free and carries its size, entries lie inside the region `[0, R)` and
each entry ends at or before the start of every later one. -/
structure FreeListOK (R : Int) (st : State) (F : List (Int × Int)) : Prop where
  head_eq : st.head = hdOr (F.map Prod.fst) none
  linked : Linked st.mem none (F.map Prod.fst) none
  size_eq : ∀ x ∈ F, (st.mem x.1).size = x.2
  free : ∀ x ∈ F, (st.mem x.1).allocated = 0
  inside : ∀ x ∈ F, 0 ≤ x.1 ∧ 0 < x.2 ∧ x.1 + x.2 ≤ R
  ordered : F.Pairwise (fun x y => x.1 + x.2 ≤ y.1)
  bound : R ≤ INT_MAX

/-- The entry `e` after forward coalescing with the entries `l2` above it, and
the entries that remain above it (specification side). -/
def mergeNext (e : Int × Int) : List (Int × Int) → (Int × Int) × List (Int × Int)
  | [] => (e, [])
  | y :: t => if y.1 = e.1 + e.2 then ((e.1, e.2 + y.2), t) else (e, y :: t)

/-- The entries `l1` followed by `e`, after backward coalescing of `e` with the
last of them (specification side). -/
def snocMerge : List (Int × Int) → Int × Int → List (Int × Int)
  | [], e => [e]
  | [x], e => if e.1 = x.1 + x.2 then [(x.1, x.2 + e.2)] else [x, e]
  | x :: y :: t, e => x :: snocMerge (y :: t) e

/-- The free list after the block `e` is freed between the entries `l1` below
it and `l2` above it (specification side): forward coalescing, then backward. -/
def freeInto (l1 : List (Int × Int)) (e : Int × Int) (l2 : List (Int × Int)) : List (Int × Int) :=
  snocMerge l1 (mergeNext e l2).1 ++ (mergeNext e l2).2


/-! ## The region as a sequence of blocks -/

/-- A block of the region: where it starts, its size and whether it is free. -/
structure Blk where
  addr : Int
  size : Int
  free : Bool
deriving DecidableEq

/-- The blocks `T` lie end to end from `a` to `e`; each is at least a header
long and a whole number of words. -/
def Tiled : Int → Int → List Blk → Prop
  | a, e, [] => a = e
  | a, e, b :: t => b.addr = a ∧ 24 ≤ b.size ∧ b.size % 8 = 0 ∧ Tiled (a + b.size) e t

/-- The free blocks of `T` as (address, size), in address order. -/
def freeOf (T : List Blk) : List (Int × Int) :=
  (T.filter (fun b => b.free)).map (fun b => (b.addr, b.size))

/-- The allocator invariant: the blocks `T` tile the region `[0, R)`, the headers
of the allocated ones carry their size and the flag 1, the free list is well
formed and holds exactly the free blocks of `T`, no two neighbouring blocks are
both free, and `outs` lists the payload pointers of the allocated blocks. -/
structure Inv (R : Int) (st : State) (T : List Blk) (outs : List Int) : Prop where
  tiled : Tiled 0 R T
  hdr : ∀ b ∈ T, b.free = false → (st.mem b.addr).size = b.size ∧ (st.mem b.addr).allocated = 1
  fl : FreeListOK R st (freeOf T)
  coalesced : T.Chain' (fun x y => ¬ (x.free = true ∧ y.free = true))
  outs_nodup : outs.Nodup
  outs_iff : ∀ q, q ∈ outs ↔ ∃ b ∈ T, b.free = false ∧ q = b.addr + 24

/-- The states reachable from a successful `my_init n` with `n ≥ 1`, together
with the payload pointers that `smalloc` has returned and `sfree` has not yet
received. Payload sizes are non-negative and small enough that the block size
does not overflow; `sfree` is called on `NULL` or on an outstanding pointer. -/
inductive Reach (n : Int) : State → List Int → Prop
  | init {st0 st : State} {osGrants : Bool} :
      1 ≤ n → n ≤ INT_MAX → my_init n osGrants st0 = (0, st) → Reach n st []
  | alloc {st st' : State} {outs : List Int} {fuel : Nat} {p q : Int} {status : Malloc_Status} :
      Reach n st outs → 0 ≤ p → p ≤ INT_MAX - 31 →
      smalloc fuel p st = some (some q, status, st') → Reach n st' (q :: outs)
  | alloc_fail {st st' : State} {outs : List Int} {fuel : Nat} {p : Int} {status : Malloc_Status} :
      Reach n st outs → 0 ≤ p → p ≤ INT_MAX - 31 →
      smalloc fuel p st = some (none, status, st') → Reach n st' outs
  | free_null {st st' : State} {outs : List Int} {fuel : Nat} :
      Reach n st outs → sfree fuel none st = some st' → Reach n st' outs
  | free {st st' : State} {outs : List Int} {fuel : Nat} {q : Int} :
      Reach n st outs → q ∈ outs → sfree fuel (some q) st = some st' →
      Reach n st' (outs.erase q)

/-- The blocks met by starting at `a` and stepping forward by each block's
size field until `R` is reached, one unit of fuel per step. -/
def blocksFrom (m : Int → Block) (R : Int) : Nat → Int → Option (List Int)
  | 0, _ => none
  | fuel + 1, a =>
    if a = R then some []
    else (blocksFrom m R fuel (a + (m a).size)).map (fun t => a :: t)


/-- The free list read backwards by following `prev` from `cur`, one unit of
fuel per node visited. -/
def walkPrev (m : Int → Block) : Nat → Option Int → Option (List Int)
  | 0, _ => none
  | _ + 1, none => some []
  | fuel + 1, some a => (walkPrev m fuel (m a).prev).map (fun t => a :: t)

/-! ## The header stores of each call

Every store of `sfree`, and every store of `smalloc` that does not go through
`status`, writes one field of a block header. The definitions below list, for
each part of the code, the offsets of the headers stored to, one entry per
store in program order; they follow the code of the corresponding function
statement by statement. The stores of `smalloc` through `status` come after
them, with `smallocAtStores` listing every store of the call. -/

/-- The headers `splitBlock` stores to. -/
def splitBlockStores (m : Int → Block) (curr block_size leftover : Int) : List Int :=
  let new_block := curr + block_size
  let m := setSize m new_block leftover
  let m := setAllocated m new_block 0
  let m := setNext m new_block (m curr).next
  let m := setPrev m new_block (m curr).prev
  let toPrev := (m curr).prev.toList
  let m := setNextIf m (m curr).prev (some new_block)
  let toNext := (m curr).next.toList
  [new_block, new_block, new_block, new_block] ++ toPrev ++ toNext ++ [curr]

/-- The headers the part of `smalloc` after the search stores to. -/
def takeBlockStores (st : State) (size_of_payload padding block_size curr : Int) : List Int :=
  let leftover := wrap32 ((st.mem curr).size - block_size)
  let split :=
    if leftover ≥ HEADER_SIZE then splitBlockStores st.mem curr block_size leftover else []
  let m1 := if leftover ≥ HEADER_SIZE then splitBlock st.mem curr block_size leftover else st.mem
  let block_size :=
    if leftover ≥ HEADER_SIZE then block_size
    else blockSize size_of_payload (wrap32 (padding + leftover))
  let m2 := setSize m1 curr block_size
  let m3 := setAllocated m2 curr 1
  let toPrev := (m3 curr).prev.toList
  let m4 := setNextIf m3 (m3 curr).prev (m3 curr).next
  let toNext := (m4 curr).next.toList
  split ++ [curr, curr] ++ toPrev ++ toNext

/-- The header stores of `smalloc`, without its stores through `status`; every
store of the call is in `smallocAtStores`. -/
def smallocStores (fuel : Nat) (size_of_payload : Int) (st : State) : Option (List Int) :=
  let padding := padOf size_of_payload
  let block_size := blockSize size_of_payload padding
  match firstFit st.mem block_size fuel st.head 0 with
  | none => none
  | some (none, _) => some []
  | some (some curr, _) => some (takeBlockStores st size_of_payload padding block_size curr)

/-- The headers `linkIn` stores to. -/
def linkInStores (st : State) (new curr : Int) : List Int :=
  let m := st.mem
  if (m curr).next = none ∧ new > curr then [curr, new, new]
  else if (m curr).prev = none ∧ new < curr then [new, new, curr]
  else
    let m := setNext m new (some curr)
    match (m curr).prev with
    | none => [new]
    | some p => [new, p, new, curr]

/-- The headers `coalesceNext` stores to. -/
def coalesceNextStores (m : Int → Block) (new : Int) : List Int :=
  match (m new).next with
  | none => []
  | some n =>
    if n = new + (m new).size then
      let m := setSize m new (wrap32 ((m new).size + (m n).size))
      [new] ++ (m n).next.toList ++ [new]
    else []

/-- The headers `coalescePrev` stores to. -/
def coalescePrevStores (m : Int → Block) (new : Int) : List Int :=
  match (m new).prev with
  | none => []
  | some p =>
    if new = p + (m p).size then
      let m := setSize m p (wrap32 ((m p).size + (m new).size))
      let m := setNext m p (m new).next
      [p, p] ++ (m new).next.toList
    else []

/-- The headers `sfree` stores to. -/
def sfreeStores (fuel : Nat) (ptr : Option Int) (st : State) : Option (List Int) :=
  match ptr with
  | none => some []
  | some ptr =>
    let new := ptr - HEADER_SIZE
    let m := setAllocated st.mem new 0
    match st.head with
    | none => some [new, new, new]
    | some curr =>
      match findSpot m new fuel curr with
      | none => none
      | some curr =>
        match linkIn { mem := m, head := st.head } new curr with
        | none => none
        | some st1 =>
          some ([new] ++ linkInStores { mem := m, head := st.head } new curr ++
            coalesceNextStores st1.mem new ++ coalescePrevStores (coalesceNext st1.mem new) new)

/-! ## The stores through `status`

`smalloc` reports through the pointer `status`, which the caller supplies: it
stores to `status->hops`, `status->success` and `status->payload_offset`. These
are stores into memory that the code does not treat as a block header, and the
record may lie anywhere, also inside the region.

`data` holds the bytes of memory as they are seen outside the block headers:
the payload bytes of the region and the memory of the caller, by byte offset
from `heap` (negative, or beyond the region, for memory outside it). A byte
that a block header occupies is kept in the header map instead. A `struct
Malloc_Status` is three `int`s of four bytes at the offsets 0, 4 and 8; an
`int` is stored least significant byte first. -/

/-- Byte `i` (0 to 3) of the 32-bit pattern `v`. -/
def byteOf (v i : Int) : Int :=
  if i = 0 then v % 256
  else if i = 1 then v / 256 % 256
  else if i = 2 then v / 65536 % 256
  else v / 16777216 % 256

/-- Store of the `int` `v` in the four bytes at `a`. -/
def storeInt (d : Int → Int) (a v : Int) : Int → Int :=
  fun x => if a ≤ x ∧ x < a + 4 then byteOf (v % 4294967296) (x - a) else d x

/-- Load of the `int` in the four bytes at `a`. -/
def loadInt (d : Int → Int) (a : Int) : Int :=
  wrap32 (d a + 256 * d (a + 1) + 65536 * d (a + 2) + 16777216 * d (a + 3))

/-- The first-fit loop with its store: `(status->hops)++` loads and stores the
`int` at `status + 8` once for every block it passes. -/
def firstFitAt (m : Int → Block) (block_size status : Int) :
    Nat → Option Int → (Int → Int) → Option (Option Int × (Int → Int))
  | 0, _, _ => none
  | _ + 1, none, d => some (none, d)
  | fuel + 1, some curr, d =>
    if (m curr).size < block_size then
      firstFitAt m block_size status fuel (m curr).next
        (storeInt d (status + 8) (wrap32 (loadInt d (status + 8) + 1)))
    else some (some curr, d)

/-- The function `smalloc` with the report stored through `status`, the offset
of the caller's record from `heap`: the returned pointer, the globals and the
bytes outside the headers afterwards. The header fields are read and written in
`st.mem` and the status record in `data`, which is exact when the record
overlaps no block header that the call reads or writes; that is so when the
record lies in memory the caller owns, outside the region or inside the payload
of an outstanding block. -/
def smallocAt (status : Int) (fuel : Nat) (size_of_payload : Int) (st : State)
    (data : Int → Int) : Option (Option Int × State × (Int → Int)) :=
  let padding := padOf size_of_payload
  let block_size := blockSize size_of_payload padding
  -- status->hops = 0
  let d := storeInt data (status + 8) 0
  match firstFitAt st.mem block_size status fuel st.head d with
  | none => none
  | some (none, d) =>
    -- no free block fits
    let d := storeInt d status 0
    let d := storeInt d (status + 4) (-1)
    let d := storeInt d (status + 8) (-1)
    some (none, st, d)
  | some (some curr, d) =>
    let r := takeBlock st size_of_payload padding block_size curr (loadInt d (status + 8))
    let d := storeInt d status 1
    let d := storeInt d (status + 4) r.2.1.payload_offset
    some (r.1, r.2.2, d)

/-- One store of a call: to a field of the block header at `hdr`, or of an
`int` through `status` to the four bytes at `addr`. -/
inductive Store where
  | field (hdr : Int)
  | word (addr : Int)
deriving DecidableEq

/-- The bytes a store can write: the 24 bytes of the header, or the four bytes
of the `int`. -/
def Store.covers : Store → Int → Prop
  | Store.field hdr, x => hdr ≤ x ∧ x < hdr + 24
  | Store.word addr, x => addr ≤ x ∧ x < addr + 4

/-- The block the first-fit loop stops at and the stores of the loop, one to
`status->hops` for every block passed. -/
def firstFitStores (m : Int → Block) (block_size status : Int) :
    Nat → Option Int → Option (Option Int × List Store)
  | 0, _ => none
  | _ + 1, none => some (none, [])
  | fuel + 1, some curr =>
    if (m curr).size < block_size then
      (firstFitStores m block_size status fuel (m curr).next).map
        (fun r => (r.1, Store.word (status + 8) :: r.2))
    else some (some curr, [])

/-- Every store of `smalloc`, in program order. -/
def smallocAtStores (status : Int) (fuel : Nat) (size_of_payload : Int) (st : State) :
    Option (List Store) :=
  let padding := padOf size_of_payload
  let block_size := blockSize size_of_payload padding
  match firstFitStores st.mem block_size status fuel st.head with
  | none => none
  | some (none, loop) =>
    some ([Store.word (status + 8)] ++ loop ++
      [Store.word status, Store.word (status + 4), Store.word (status + 8)])
  | some (some curr, loop) =>
    some ([Store.word (status + 8)] ++ loop ++
      (takeBlockStores st size_of_payload padding block_size curr).map Store.field ++
      [Store.word status, Store.word (status + 4)])

/-! ## Example states -/

/-- A freshly initialised region of one page. -/
def freshPage : State := (my_init 4096 true ⟨zeroMem, none⟩).2

/-- The state after `smalloc(p)`, left as it is when the call does not finish
within 16 loop tests. -/
def afterAlloc (p : Int) (st : State) : State :=
  match smalloc 16 p st with
  | some r => r.2.2
  | none => st

/-- The state after `sfree(q)`, left as it is when the call does not finish
within 16 loop tests. -/
def afterFree (q : Int) (st : State) : State :=
  match sfree 16 (some q) st with
  | some st' => st'
  | none => st

/-- A region with three free blocks of sizes 16, 64 and 32 at the ascending
addresses 0, 40 and 128. -/
def threeFree : State where
  mem := fun a =>
    if a = 0 then ⟨16, 0, some 40, none⟩
    else if a = 40 then ⟨64, 0, some 128, some 0⟩
    else if a = 128 then ⟨32, 0, none, some 40⟩
    else ⟨0, 0, none, none⟩
  head := some 0

/-- A page with a free block at 0, an allocated block at 40 and a free block
from 80 to the end. -/
def hemmedIn : State where
  mem := fun a =>
    if a = 0 then ⟨40, 0, some 80, none⟩
    else if a = 40 then ⟨40, 1, none, none⟩
    else if a = 80 then ⟨4016, 0, none, some 0⟩
    else ⟨0, 0, none, none⟩
  head := some 0

/-- A page with a free block at 0, allocated blocks at 40, 80 and 120, and a
free block from 160 to the end. -/
def standsApart : State where
  mem := fun a =>
    if a = 0 then ⟨40, 0, some 160, none⟩
    else if a = 40 then ⟨40, 1, none, none⟩
    else if a = 80 then ⟨40, 1, none, none⟩
    else if a = 120 then ⟨40, 1, none, none⟩
    else if a = 160 then ⟨3936, 0, none, some 0⟩
    else ⟨0, 0, none, none⟩
  head := some 0

/-- Memory filled with zero bytes, as a fresh mapping is. -/
def zeroData : Int → Int := fun _ => 0

/-- The state and the bytes after `smalloc(p, status)`, left as they are when
the call does not finish within 16 loop tests. -/
def afterAllocAt (status p : Int) (h : State × (Int → Int)) : State × (Int → Int) :=
  match smallocAt status 16 p h.1 h.2 with
  | some r => r.2
  | none => h

/-- A fresh page after `smalloc(12, &t)`, the record `t` of the caller lying 64
bytes below the region: the block at 0, of size 40, is outstanding, its payload
is the bytes 24 to 39, all zero, and the rest of the page is one free block. -/
def onePayload : State × (Int → Int) := afterAllocAt (-64) 12 (freshPage, zeroData)

/-- A fresh page after two calls `smalloc(16)`: the blocks at 0 and 40, of size
40 each, are outstanding and the rest of the page is one free block. -/
def twoOut : State := afterAlloc 16 (afterAlloc 16 freshPage)

/-! ## Machine arithmetic -/

theorem wrap32_of_range {x : Int} (h1 : -2147483648 ≤ x) (h2 : x ≤ 2147483647) :
    wrap32 x = x := by
  unfold wrap32; omega

theorem padOf_eq {p : Int} (h0 : 0 ≤ p) : p + padOf p = roundUp8 p ∧ 0 ≤ padOf p ∧ padOf p < 8 := by
  unfold padOf roundUp8 WORD_SIZE
  rw [Int.tmod_eq_emod h0 (by decide)]
  split
  · rw [wrap32_of_range (by omega) (by omega)]; omega
  · omega

theorem blockSize_eq {p : Int} (h0 : 0 ≤ p) (h1 : p ≤ INT_MAX - 31) :
    blockSize p (padOf p) = roundUp8 p + 24 := by
  obtain ⟨h, h2, h3⟩ := padOf_eq h0
  unfold INT_MAX at h1
  unfold blockSize HEADER_SIZE
  rw [h]
  have : roundUp8 p ≤ p + 7 := by unfold roundUp8; omega
  have : p ≤ roundUp8 p := by unfold roundUp8; omega
  have e1 : wrap32 (roundUp8 p) = roundUp8 p := wrap32_of_range (by omega) (by omega)
  rw [e1, wrap32_of_range (by omega) (by omega)]

theorem roundUp8_ge {p : Int} (h0 : 0 ≤ p) : p ≤ roundUp8 p ∧ 0 ≤ roundUp8 p ∧ roundUp8 p % 8 = 0 := by
  unfold roundUp8; omega

/-! ## Reading a header after a store -/

@[simp] theorem setSize_size (m : Int → Block) (b v x : Int) :
    (setSize m b v x).size = if x = b then v else (m x).size := by
  unfold setSize; split <;> rfl

@[simp] theorem setSize_allocated (m : Int → Block) (b v x : Int) :
    (setSize m b v x).allocated = (m x).allocated := by
  unfold setSize; split <;> rfl

@[simp] theorem setSize_next (m : Int → Block) (b v x : Int) :
    (setSize m b v x).next = (m x).next := by
  unfold setSize; split <;> rfl

@[simp] theorem setSize_prev (m : Int → Block) (b v x : Int) :
    (setSize m b v x).prev = (m x).prev := by
  unfold setSize; split <;> rfl

@[simp] theorem setAllocated_size (m : Int → Block) (b v x : Int) :
    (setAllocated m b v x).size = (m x).size := by
  unfold setAllocated; split <;> rfl

@[simp] theorem setAllocated_allocated (m : Int → Block) (b v x : Int) :
    (setAllocated m b v x).allocated = if x = b then v else (m x).allocated := by
  unfold setAllocated; split <;> rfl

@[simp] theorem setAllocated_next (m : Int → Block) (b v x : Int) :
    (setAllocated m b v x).next = (m x).next := by
  unfold setAllocated; split <;> rfl

@[simp] theorem setAllocated_prev (m : Int → Block) (b v x : Int) :
    (setAllocated m b v x).prev = (m x).prev := by
  unfold setAllocated; split <;> rfl

@[simp] theorem setNext_size (m : Int → Block) (b : Int) (v : Option Int) (x : Int) :
    (setNext m b v x).size = (m x).size := by
  unfold setNext; split <;> rfl

@[simp] theorem setNext_allocated (m : Int → Block) (b : Int) (v : Option Int) (x : Int) :
    (setNext m b v x).allocated = (m x).allocated := by
  unfold setNext; split <;> rfl

@[simp] theorem setNext_next (m : Int → Block) (b : Int) (v : Option Int) (x : Int) :
    (setNext m b v x).next = if x = b then v else (m x).next := by
  unfold setNext; split <;> rfl

@[simp] theorem setNext_prev (m : Int → Block) (b : Int) (v : Option Int) (x : Int) :
    (setNext m b v x).prev = (m x).prev := by
  unfold setNext; split <;> rfl

@[simp] theorem setPrev_size (m : Int → Block) (b : Int) (v : Option Int) (x : Int) :
    (setPrev m b v x).size = (m x).size := by
  unfold setPrev; split <;> rfl

@[simp] theorem setPrev_allocated (m : Int → Block) (b : Int) (v : Option Int) (x : Int) :
    (setPrev m b v x).allocated = (m x).allocated := by
  unfold setPrev; split <;> rfl

@[simp] theorem setPrev_next (m : Int → Block) (b : Int) (v : Option Int) (x : Int) :
    (setPrev m b v x).next = (m x).next := by
  unfold setPrev; split <;> rfl

@[simp] theorem setPrev_prev (m : Int → Block) (b : Int) (v : Option Int) (x : Int) :
    (setPrev m b v x).prev = if x = b then v else (m x).prev := by
  unfold setPrev; split <;> rfl

@[simp] theorem setNextIf_size (m : Int → Block) (p v : Option Int) (x : Int) :
    (setNextIf m p v x).size = (m x).size := by
  cases p <;> simp [setNextIf]

@[simp] theorem setNextIf_allocated (m : Int → Block) (p v : Option Int) (x : Int) :
    (setNextIf m p v x).allocated = (m x).allocated := by
  cases p <;> simp [setNextIf]

@[simp] theorem setNextIf_next (m : Int → Block) (p v : Option Int) (x : Int) :
    (setNextIf m p v x).next = if p = some x then v else (m x).next := by
  cases p with
  | none => simp [setNextIf]
  | some b => simp [setNextIf, eq_comm]

@[simp] theorem setNextIf_prev (m : Int → Block) (p v : Option Int) (x : Int) :
    (setNextIf m p v x).prev = (m x).prev := by
  cases p <;> simp [setNextIf]

@[simp] theorem setPrevIf_size (m : Int → Block) (p v : Option Int) (x : Int) :
    (setPrevIf m p v x).size = (m x).size := by
  cases p <;> simp [setPrevIf]

@[simp] theorem setPrevIf_allocated (m : Int → Block) (p v : Option Int) (x : Int) :
    (setPrevIf m p v x).allocated = (m x).allocated := by
  cases p <;> simp [setPrevIf]

@[simp] theorem setPrevIf_next (m : Int → Block) (p v : Option Int) (x : Int) :
    (setPrevIf m p v x).next = (m x).next := by
  cases p <;> simp [setPrevIf]

@[simp] theorem setPrevIf_prev (m : Int → Block) (p v : Option Int) (x : Int) :
    (setPrevIf m p v x).prev = if p = some x then v else (m x).prev := by
  cases p with
  | none => simp [setPrevIf]
  | some b => simp [setPrevIf, eq_comm]

/-! ## Doubly linked segments -/

theorem hdOr_append (l1 l2 : List Int) (d : Option Int) :
    hdOr (l1 ++ l2) d = hdOr l1 (hdOr l2 d) := by
  cases l1 <;> rfl

theorem lastOr_append (l1 l2 : List Int) (d : Option Int) :
    lastOr (l1 ++ l2) d = lastOr l2 (lastOr l1 d) := by
  induction l1 generalizing d with
  | nil => rfl
  | cons a t ih => simp [lastOr, ih]

theorem lastOr_mem : ∀ (l : List Int) (d : Option Int), l ≠ [] → ∃ a ∈ l, ∀ d', lastOr l d' = some a ∧ lastOr l d = some a
  | [], _, h => absurd rfl h
  | [a], _, _ => ⟨a, by simp, fun _ => ⟨rfl, rfl⟩⟩
  | a :: b :: t, _, _ => by
    obtain ⟨x, hx, h⟩ := lastOr_mem (b :: t) (some a) (by simp)
    refine ⟨x, List.mem_cons_of_mem _ hx, fun d' => ?_⟩
    have := h (some a)
    simp only [lastOr] at this ⊢
    exact ⟨this.1, this.1⟩

theorem lastOr_eq_some {l : List Int} {d : Option Int} {a : Int} (h : lastOr l d = some a) :
    (l = [] ∧ d = some a) ∨ a ∈ l := by
  by_cases hl : l = []
  · subst hl; exact Or.inl ⟨rfl, h⟩
  · obtain ⟨x, hx, hh⟩ := lastOr_mem l d hl
    rw [(hh d).2] at h
    cases h
    exact Or.inr hx

theorem lastOr_cons_ne {a : Int} {t : List Int} (h : a ∉ t) (hne : t ≠ []) (d : Option Int) :
    lastOr (a :: t) d ≠ some a := by
  intro e
  obtain ⟨x, hx, hh⟩ := lastOr_mem t (some a) hne
  simp only [lastOr] at e
  rw [(hh (some a)).1] at e
  cases e
  exact h hx

theorem Linked_append (m : Int → Block) (l1 l2 : List Int) (p n : Option Int) :
    Linked m p (l1 ++ l2) n ↔ Linked m p l1 (hdOr l2 n) ∧ Linked m (lastOr l1 p) l2 n := by
  induction l1 generalizing p with
  | nil => simp [Linked, lastOr]
  | cons a t ih =>
    show ((m a).prev = p ∧ (m a).next = hdOr (t ++ l2) n ∧ Linked m (some a) (t ++ l2) n) ↔
      ((m a).prev = p ∧ (m a).next = hdOr t (hdOr l2 n) ∧ Linked m (some a) t (hdOr l2 n)) ∧
        Linked m (lastOr t (some a)) l2 n
    rw [ih, hdOr_append]
    tauto

/-- Re-linking a segment: if the new memory agrees with the old one on the
`prev`/`next` fields of the nodes, except that the first node's `prev` is now
`p'` and the last node's `next` is now `n'`, the nodes are still linked. -/
theorem Linked.relink {m m' : Int → Block} {l : List Int} {p n p' n' : Option Int}
    (h : Linked m p l n) (nd : l.Nodup)
    (hp : ∀ a ∈ l, (m' a).prev = if hdOr l none = some a then p' else (m a).prev)
    (hn : ∀ a ∈ l, (m' a).next = if lastOr l none = some a then n' else (m a).next) :
    Linked m' p' l n' := by
  induction l generalizing p p' with
  | nil => trivial
  | cons a t ih =>
    obtain ⟨h1, h2, h3⟩ := h
    have hat : a ∉ t := (List.nodup_cons.mp nd).1
    have ndt : t.Nodup := (List.nodup_cons.mp nd).2
    refine ⟨?_, ?_, ?_⟩
    · simpa [hdOr] using hp a (by simp)
    · have := hn a (by simp)
      cases t with
      | nil => simpa [lastOr, hdOr] using this
      | cons b t' =>
        rw [if_neg (lastOr_cons_ne hat (by simp) none)] at this
        rw [this, h2]; rfl
    · apply ih h3 ndt
      · intro x hx
        have hxa : x ≠ a := fun e => hat (e ▸ hx)
        have := hp x (List.mem_cons_of_mem _ hx)
        simp only [hdOr, Option.some.injEq] at this
        rw [if_neg (fun e => hxa e.symm)] at this
        rw [this]
        split
        · rename_i e
          cases t with
          | nil => cases hx
          | cons b t' =>
            simp only [hdOr, Option.some.injEq] at e
            subst e
            exact h3.1
        · rfl
      · intro x hx
        have := hn x (List.mem_cons_of_mem _ hx)
        have e : lastOr (a :: t) none = lastOr t none := by
          cases t with
          | nil => cases hx
          | cons b t' => rfl
        rw [e] at this
        exact this

/-- A segment is untouched by stores outside its `prev`/`next` fields. -/
theorem Linked.frame {m m' : Int → Block} {l : List Int} {p n : Option Int}
    (h : Linked m p l n)
    (hp : ∀ a ∈ l, (m' a).prev = (m a).prev)
    (hn : ∀ a ∈ l, (m' a).next = (m a).next) :
    Linked m' p l n := by
  induction l generalizing p with
  | nil => trivial
  | cons a t ih =>
    obtain ⟨h1, h2, h3⟩ := h
    refine ⟨by rw [hp a (by simp), h1], by rw [hn a (by simp), h2], ?_⟩
    exact ih h3 (fun x hx => hp x (List.mem_cons_of_mem _ hx))
      (fun x hx => hn x (List.mem_cons_of_mem _ hx))

theorem Linked.walkNext {m : Int → Block} {l : List Int} {p : Option Int}
    (h : Linked m p l none) (fuel : Nat) (hf : l.length < fuel) :
    walkNext m fuel (hdOr l none) = some l := by
  induction l generalizing p fuel with
  | nil =>
    cases fuel with
    | zero => simp at hf
    | succ k => rfl
  | cons a t ih =>
    cases fuel with
    | zero => simp at hf
    | succ k =>
      obtain ⟨_, h2, h3⟩ := h
      show (Smalloc.walkNext m k (m a).next).map (fun t => a :: t) = some (a :: t)
      rw [h2, ih h3 k (by simpa using hf)]
      rfl

/-! ## Consequences of a well-formed free list -/

theorem ordered_length_le {R : Int} : ∀ (F : List (Int × Int)) (lo : Int), lo ≤ R →
    (∀ x ∈ F, lo ≤ x.1 ∧ 0 < x.2 ∧ x.1 + x.2 ≤ R) →
    F.Pairwise (fun x y => x.1 + x.2 ≤ y.1) → lo + F.length ≤ R
  | [], lo, h, _, _ => by simpa using h
  | x :: t, lo, _, hin, ho => by
    have hx := hin x (by simp)
    have ho' := List.pairwise_cons.mp ho
    have := @ordered_length_le R t (lo + 1) (by omega)
      (fun y hy => by
        have h1 := hin y (List.mem_cons_of_mem _ hy)
        have h2 := ho'.1 y hy
        omega) ho'.2
    simp only [List.length_cons, Nat.cast_add, Nat.cast_one]
    omega

theorem FreeListOK.length_le {R : Int} {st : State} {F : List (Int × Int)}
    (ok : FreeListOK R st F) : (F.length : Int) ≤ INT_MAX := by
  by_cases h : 0 ≤ R
  · have := ordered_length_le F 0 h ok.inside ok.ordered
    have := ok.bound
    omega
  · cases F with
    | nil => simp [INT_MAX]
    | cons x t =>
      have := ok.inside x (by simp)
      omega

theorem FreeListOK.nodup {R : Int} {st : State} {F : List (Int × Int)}
    (ok : FreeListOK R st F) : (F.map Prod.fst).Nodup := by
  have h : F.Pairwise (fun x y => x.1 ≠ y.1) := by
    have := ok.inside
    refine (List.Pairwise.and_mem.mp ok.ordered).imp ?_
    intro x y h
    have := this x h.1
    have := h.2.2
    omega
  exact List.Pairwise.map Prod.fst (fun _ _ h => h) h

/-- Facts about the entry `c` of a well-formed free list and its neighbours. -/
theorem FreeListOK.at_entry {R : Int} {st : State} {l1 l2 : List (Int × Int)} {c : Int × Int}
    (ok : FreeListOK R st (l1 ++ c :: l2)) :
    (st.mem c.1).prev = lastOr (l1.map Prod.fst) none ∧
    (st.mem c.1).next = hdOr (l2.map Prod.fst) none ∧
    Linked st.mem none (l1.map Prod.fst) (some c.1) ∧
    Linked st.mem (some c.1) (l2.map Prod.fst) none ∧
    (∀ x ∈ l1, x.1 + x.2 ≤ c.1) ∧ (∀ y ∈ l2, c.1 + c.2 ≤ y.1) ∧
    (∀ x ∈ l1, ∀ y ∈ l2, x.1 + x.2 ≤ y.1) := by
  have hl := ok.linked
  rw [List.map_append, Linked_append] at hl
  obtain ⟨h1, h2⟩ := hl
  have ho := ok.ordered
  rw [List.pairwise_append] at ho
  obtain ⟨_, ho2, ho3⟩ := ho
  have ho2' := List.pairwise_cons.mp ho2
  refine ⟨h2.1, h2.2.1, h1, h2.2.2, fun x hx => ho3 x hx c (by simp), ho2'.1,
    fun x hx y hy => ho3 x hx y (List.mem_cons_of_mem _ hy)⟩

/-! ## The first-fit search -/

theorem firstFit_skip {m : Int → Block} {r : Int} {l : List Int} {p n : Option Int}
    (h : Linked m p l n) (hs : ∀ a ∈ l, (m a).size < r) (k : Nat) (hops : Int)
    (h0 : 0 ≤ hops) (h1 : hops + l.length ≤ INT_MAX) :
    firstFit m r (l.length + k) (hdOr l n) hops = firstFit m r k n (hops + l.length) := by
  induction l generalizing p hops with
  | nil => simp [hdOr]
  | cons a t ih =>
    obtain ⟨_, h2, h3⟩ := h
    have e : (a :: t).length + k = (t.length + k) + 1 := by simp; omega
    simp only [List.length_cons, Nat.cast_add, Nat.cast_one] at h1
    unfold INT_MAX at h1
    rw [e]
    show (if (m a).size < r then
      firstFit m r (t.length + k) (m a).next (wrap32 (hops + 1)) else some (some a, hops)) = _
    rw [if_pos (hs a (by simp)), h2, wrap32_of_range (by omega) (by omega),
      ih h3 (fun x hx => hs x (List.mem_cons_of_mem _ hx)) (hops + 1) (by omega)
        (by unfold INT_MAX; omega)]
    congr 1
    simp only [List.length_cons, Nat.cast_add, Nat.cast_one]
    omega

/-- The search stops at the first entry that is large enough. -/
theorem firstFit_found {R : Int} {st : State} {l1 l2 : List (Int × Int)} {c : Int × Int}
    (ok : FreeListOK R st (l1 ++ c :: l2)) {r : Int}
    (hs : ∀ x ∈ l1, x.2 < r) (hc : r ≤ c.2) {fuel : Nat} (hf : l1.length < fuel) :
    firstFit st.mem r fuel st.head 0 = some (some c.1, (l1.length : Int)) := by
  obtain ⟨_, _, hl1, _, _, _, _⟩ := ok.at_entry
  have hlen := ok.length_le
  simp only [List.length_append, List.length_cons, Nat.cast_add, Nat.cast_one] at hlen
  obtain ⟨k, rfl⟩ : ∃ k, fuel = (l1.map Prod.fst).length + (k + 1) :=
    ⟨fuel - l1.length - 1, by simp; omega⟩
  have hh : st.head = hdOr (l1.map Prod.fst) (some c.1) := by
    rw [ok.head_eq, List.map_append, hdOr_append]; rfl
  rw [hh, firstFit_skip hl1 (by
      intro a ha
      obtain ⟨x, hx, rfl⟩ := List.mem_map.mp ha
      rw [ok.size_eq x (by simp [hx])]
      exact hs x hx) (k + 1) 0 (le_refl 0) (by simp; omega)]
  show (if (st.mem c.1).size < r then _ else some (some c.1, 0 + ((l1.map Prod.fst).length : Int))) = _
  rw [if_neg (by rw [ok.size_eq c (by simp)]; omega)]
  simp

/-- The search runs off the end of the list when every entry is too small. -/
theorem firstFit_none {R : Int} {st : State} {F : List (Int × Int)}
    (ok : FreeListOK R st F) {r : Int}
    (hs : ∀ x ∈ F, x.2 < r) {fuel : Nat} (hf : F.length < fuel) :
    firstFit st.mem r fuel st.head 0 = some (none, (F.length : Int)) := by
  have hlen := ok.length_le
  obtain ⟨k, rfl⟩ : ∃ k, fuel = (F.map Prod.fst).length + (k + 1) :=
    ⟨fuel - F.length - 1, by simp; omega⟩
  rw [ok.head_eq, firstFit_skip ok.linked (by
      intro a ha
      obtain ⟨x, hx, rfl⟩ := List.mem_map.mp ha
      rw [ok.size_eq x hx]
      exact hs x hx) (k + 1) 0 (le_refl 0) (by simp; omega)]
  simp [firstFit]

/-- Where the first fitting entry sits in a list that has one. -/
theorem exists_first_fit (r : Int) : ∀ (F : List (Int × Int)), (∃ x ∈ F, r ≤ x.2) →
    ∃ l1 c l2, F = l1 ++ c :: l2 ∧ (∀ x ∈ l1, x.2 < r) ∧ r ≤ c.2
  | [], h => by simp at h
  | a :: t, h => by
    by_cases ha : r ≤ a.2
    · exact ⟨[], a, t, rfl, by simp, ha⟩
    · have : ∃ x ∈ t, r ≤ x.2 := by
        obtain ⟨x, hx, hr⟩ := h
        rcases List.mem_cons.mp hx with e | e
        · subst e; exact absurd hr ha
        · exact ⟨x, e, hr⟩
      obtain ⟨l1, c, l2, e, h1, h2⟩ := exists_first_fit r t this
      refine ⟨a :: l1, c, l2, by rw [e]; rfl, ?_, h2⟩
      intro x hx
      rcases List.mem_cons.mp hx with e | e
      · subst e; omega
      · exact h1 x e

theorem Linked.first_prev {m : Int → Block} {l : List Int} {p n : Option Int} {a : Int}
    (h : Linked m p l n) (ha : hdOr l none = some a) : (m a).prev = p := by
  cases l with
  | nil => cases ha
  | cons b t =>
    simp only [hdOr, Option.some.injEq] at ha
    subst ha
    exact h.1

theorem Linked.last_next {m : Int → Block} {l : List Int} {p n : Option Int} {a : Int}
    (h : Linked m p l n) (ha : lastOr l none = some a) : (m a).next = n := by
  induction l generalizing p with
  | nil => cases ha
  | cons b t ih =>
    cases t with
    | nil =>
      simp only [lastOr, Option.some.injEq] at ha
      subst ha
      exact h.2.1
    | cons c t' => exact ih h.2.2 ha

/-- Only the last node's `next` changes. -/
theorem Linked.relink_next {m m' : Int → Block} {l : List Int} {p n n' : Option Int}
    (h : Linked m p l n) (nd : l.Nodup)
    (hp : ∀ a ∈ l, (m' a).prev = (m a).prev)
    (hn : ∀ a ∈ l, (m' a).next = if lastOr l none = some a then n' else (m a).next) :
    Linked m' p l n' := by
  refine h.relink nd (fun a ha => ?_) hn
  rw [hp a ha]
  split
  · rename_i e; exact h.first_prev e
  · rfl

/-- Only the first node's `prev` changes. -/
theorem Linked.relink_prev {m m' : Int → Block} {l : List Int} {p p' n : Option Int}
    (h : Linked m p l n) (nd : l.Nodup)
    (hp : ∀ a ∈ l, (m' a).prev = if hdOr l none = some a then p' else (m a).prev)
    (hn : ∀ a ∈ l, (m' a).next = (m a).next) :
    Linked m' p' l n := by
  refine h.relink nd hp (fun a ha => ?_)
  rw [hn a ha]
  split
  · rename_i e; exact h.last_next e
  · rfl

theorem hdOr_eq_some {l : List Int} {d : Option Int} {a : Int} (h : hdOr l d = some a) :
    (l = [] ∧ d = some a) ∨ a ∈ l := by
  cases l with
  | nil => exact Or.inl ⟨rfl, h⟩
  | cons b t =>
    simp only [hdOr, Option.some.injEq] at h
    subst h
    exact Or.inr (by simp)

theorem lastOr_none_or (l : List Int) (d : Option Int) :
    lastOr l d = if l = [] then d else lastOr l none := by
  cases l with
  | nil => rfl
  | cons a t => rfl

theorem hdOr_none_or (l : List Int) (d : Option Int) :
    hdOr l d = if l = [] then d else hdOr l none := by
  cases l with
  | nil => rfl
  | cons a t => rfl

theorem takeBlock_split_fields (st : State) (p pad r c hops lf : Int) (P N : Option Int)
    (hprev : (st.mem c).prev = P) (hnext : (st.mem c).next = N)
    (hlf : wrap32 ((st.mem c).size - r) = lf) (h24 : 24 ≤ lf) (hr : 0 < r)
    (hPc : P ≠ some c) (hPn : P ≠ some (c + r)) (hNc : N ≠ some c) (hNn : N ≠ some (c + r)) :
    (takeBlock st p pad r c hops).2.2.head = (if P = none then some (c + r) else st.head) ∧
    (∀ a, ((takeBlock st p pad r c hops).2.2.mem a).next =
      if a = c then some (c + r) else if a = c + r then N else
        if P = some a then some (c + r) else (st.mem a).next) ∧
    (∀ a, ((takeBlock st p pad r c hops).2.2.mem a).prev =
      if a = c + r then P else if N = some a then some (c + r) else (st.mem a).prev) ∧
    (∀ a, ((takeBlock st p pad r c hops).2.2.mem a).size =
      if a = c then r else if a = c + r then lf else (st.mem a).size) ∧
    (∀ a, ((takeBlock st p pad r c hops).2.2.mem a).allocated =
      if a = c then 1 else if a = c + r then 0 else (st.mem a).allocated) := by
  have hcn : c ≠ c + r := by omega
  have hcn' : c + r ≠ c := by omega
  simp only [takeBlock, splitBlock, hlf, HEADER_SIZE, ge_iff_le, h24, if_true]
  simp [hprev, hnext, hcn, hcn', hPc, hPn, hNc, hNn]
  refine ⟨fun a => ?_, fun a => ?_⟩ <;> split_ifs <;>
    first | rfl | (subst_vars; contradiction)

/-- The state after a split allocation. -/
theorem takeBlock_split {R : Int} {st : State} {l1 l2 : List (Int × Int)} {c : Int × Int}
    (ok : FreeListOK R st (l1 ++ c :: l2)) {r : Int} (hr : 24 ≤ r) (hfit : r + 24 ≤ c.2)
    (p pad hops : Int) :
    FreeListOK R (takeBlock st p pad r c.1 hops).2.2 (l1 ++ (c.1 + r, c.2 - r) :: l2) ∧
    ((takeBlock st p pad r c.1 hops).2.2.mem c.1).size = r ∧
    ((takeBlock st p pad r c.1 hops).2.2.mem c.1).allocated = 1 ∧
    (∀ a, a ≠ c.1 → a ≠ c.1 + r →
      ((takeBlock st p pad r c.1 hops).2.2.mem a).size = (st.mem a).size ∧
      ((takeBlock st p pad r c.1 hops).2.2.mem a).allocated = (st.mem a).allocated) := by
  obtain ⟨hprev, hnext, hl1, hl2, hlt1, hlt2, hlt12⟩ := ok.at_entry
  have hin := ok.inside
  have hinc := hin c (by simp)
  have hb := ok.bound
  unfold INT_MAX at hb
  have hsz := ok.size_eq c (by simp)
  have hleft : wrap32 ((st.mem c.1).size - r) = c.2 - r := by
    rw [hsz]; exact wrap32_of_range (by omega) (by omega)
  have hnd := ok.nodup
  have hP : ∀ a, lastOr (l1.map Prod.fst) none = some a → a < c.1 := by
    intro a ha
    rcases lastOr_eq_some ha with h | h
    · cases h.2
    · obtain ⟨x, hx, rfl⟩ := List.mem_map.mp h
      have := hlt1 x hx; have := hin x (by simp [hx]); omega
  have hN : ∀ a, hdOr (l2.map Prod.fst) none = some a → c.1 + c.2 ≤ a := by
    intro a ha
    rcases hdOr_eq_some ha with h | h
    · cases h.2
    · obtain ⟨x, hx, rfl⟩ := List.mem_map.mp h
      exact hlt2 x hx
  have hNc : ∀ a, hdOr (l2.map Prod.fst) none = some a → c.1 + r < a := by
    intro a ha; have := hN a ha; omega
  obtain ⟨fh, fn, fp, fs, fa⟩ := takeBlock_split_fields st p pad r c.1 hops (c.2 - r)
    _ _ hprev hnext hleft (by omega) (by omega)
    (fun e => by have := hP _ e; omega) (fun e => by have := hP _ e; omega)
    (fun e => by have := hN _ e; omega) (fun e => by have := hN _ e; omega)
  have m1 : ∀ a ∈ l1.map Prod.fst, a < c.1 := by
    intro a ha
    obtain ⟨x, hx, rfl⟩ := List.mem_map.mp ha
    have := hlt1 x hx; have := hin x (by simp [hx]); omega
  have m2 : ∀ a ∈ l2.map Prod.fst, c.1 + c.2 ≤ a := by
    intro a ha
    obtain ⟨x, hx, rfl⟩ := List.mem_map.mp ha
    exact hlt2 x hx
  rw [List.map_append, List.map_cons] at hnd
  have hnd1 := (List.nodup_append.mp hnd).1
  have hnd2 := (List.nodup_cons.mp (List.nodup_append.mp hnd).2.1).2
  refine ⟨⟨?_, ?_, ?_, ?_, ?_, ?_, ok.bound⟩, ?_, ?_, ?_⟩
  · rw [fh, List.map_append, hdOr_append, ok.head_eq, List.map_append, hdOr_append]
    cases l1 with
    | nil => simp [hdOr, lastOr]
    | cons x t =>
      have : lastOr (List.map Prod.fst (x :: t)) none ≠ none := by
        obtain ⟨a, _, h⟩ := lastOr_mem (List.map Prod.fst (x :: t)) none (by simp)
        rw [(h none).1]; simp
      rw [if_neg this]; rfl
  · rw [List.map_append, Linked_append]
    refine ⟨?_, ?_, ?_, ?_⟩
    · refine hl1.relink_next hnd1 (fun a ha => ?_) (fun a ha => ?_)
      · have := m1 a ha
        rw [fp, if_neg (by omega), if_neg (fun e => by have := hN a e; omega)]
      · have := m1 a ha
        rw [fn, if_neg (by omega), if_neg (by omega)]
        rfl
    · rw [fp]; simp
    · rw [fn, if_neg (by omega)]; simp
    · refine hl2.relink_prev hnd2 (fun a ha => ?_) (fun a ha => ?_)
      · have := m2 a ha
        rw [fp, if_neg (by omega)]
      · have := m2 a ha
        rw [fn, if_neg (by omega), if_neg (by omega), if_neg (fun e => by have := hP a e; omega)]
  · intro x hx
    rw [fs]
    rcases List.mem_append.mp hx with h | h
    · have := m1 x.1 (List.mem_map_of_mem _ h)
      rw [if_neg (by omega), if_neg (by omega)]
      exact ok.size_eq x (by simp [h])
    · rcases List.mem_cons.mp h with h | h
      · subst h; simp; omega
      · have := m2 x.1 (List.mem_map_of_mem _ h)
        rw [if_neg (by omega), if_neg (by omega)]
        exact ok.size_eq x (by simp [h])
  · intro x hx
    rw [fa]
    rcases List.mem_append.mp hx with h | h
    · have := m1 x.1 (List.mem_map_of_mem _ h)
      rw [if_neg (by omega), if_neg (by omega)]
      exact ok.free x (by simp [h])
    · rcases List.mem_cons.mp h with h | h
      · subst h; simp; omega
      · have := m2 x.1 (List.mem_map_of_mem _ h)
        rw [if_neg (by omega), if_neg (by omega)]
        exact ok.free x (by simp [h])
  · intro x hx
    rcases List.mem_append.mp hx with h | h
    · exact hin x (by simp [h])
    · rcases List.mem_cons.mp h with h | h
      · subst h; simp; omega
      · exact hin x (by simp [h])
  · have ho := ok.ordered
    rw [List.pairwise_append] at ho ⊢
    obtain ⟨ho1, ho2, ho3⟩ := ho
    have ho2' := List.pairwise_cons.mp ho2
    refine ⟨ho1, List.pairwise_cons.mpr ⟨fun y hy => ?_, ho2'.2⟩, fun x hx y hy => ?_⟩
    · have := hlt2 y hy; simp; omega
    · rcases List.mem_cons.mp hy with h | h
      · subst h; have := hlt1 x hx; simp; omega
      · exact hlt12 x hx y h
  · rw [fs]; simp
  · rw [fa]; simp
  · intro a h1 h2
    rw [fs, fa]
    simp [h1, h2]

theorem takeBlock_whole_fields (st : State) (p pad r c hops lf s : Int) (P N : Option Int)
    (hprev : (st.mem c).prev = P) (hnext : (st.mem c).next = N)
    (hlf : wrap32 ((st.mem c).size - r) = lf) (h24 : lf < 24)
    (hs : blockSize p (wrap32 (pad + lf)) = s)
    (hPc : P ≠ some c) :
    (takeBlock st p pad r c hops).2.2.head = (if P = none then N else st.head) ∧
    (∀ a, ((takeBlock st p pad r c hops).2.2.mem a).next =
      if P = some a then N else (st.mem a).next) ∧
    (∀ a, ((takeBlock st p pad r c hops).2.2.mem a).prev =
      if N = some a then P else (st.mem a).prev) ∧
    (∀ a, ((takeBlock st p pad r c hops).2.2.mem a).size =
      if a = c then s else (st.mem a).size) ∧
    (∀ a, ((takeBlock st p pad r c hops).2.2.mem a).allocated =
      if a = c then 1 else (st.mem a).allocated) := by
  have h24' : ¬ (24 ≤ lf) := by omega
  simp only [takeBlock, hlf, HEADER_SIZE, ge_iff_le, h24', if_false, hs]
  simp [hprev, hnext, hPc]

/-- The state after an allocation that takes the whole block. -/
theorem takeBlock_whole {R : Int} {st : State} {l1 l2 : List (Int × Int)} {c : Int × Int}
    (ok : FreeListOK R st (l1 ++ c :: l2)) {r : Int} (hfit : r ≤ c.2)
    (hno : c.2 < r + 24) (p pad hops : Int)
    (hs : blockSize p (wrap32 (pad + (c.2 - r))) = c.2) :
    FreeListOK R (takeBlock st p pad r c.1 hops).2.2 (l1 ++ l2) ∧
    ((takeBlock st p pad r c.1 hops).2.2.mem c.1).size = c.2 ∧
    ((takeBlock st p pad r c.1 hops).2.2.mem c.1).allocated = 1 ∧
    (∀ a, a ≠ c.1 →
      ((takeBlock st p pad r c.1 hops).2.2.mem a).size = (st.mem a).size ∧
      ((takeBlock st p pad r c.1 hops).2.2.mem a).allocated = (st.mem a).allocated) := by
  obtain ⟨hprev, hnext, hl1, hl2, hlt1, hlt2, hlt12⟩ := ok.at_entry
  have hin := ok.inside
  have hinc := hin c (by simp)
  have hb := ok.bound
  unfold INT_MAX at hb
  have hsz := ok.size_eq c (by simp)
  have hleft : wrap32 ((st.mem c.1).size - r) = c.2 - r := by
    rw [hsz]; exact wrap32_of_range (by omega) (by omega)
  have hnd := ok.nodup
  have hP : ∀ a, lastOr (l1.map Prod.fst) none = some a → a < c.1 := by
    intro a ha
    rcases lastOr_eq_some ha with h | h
    · cases h.2
    · obtain ⟨x, hx, rfl⟩ := List.mem_map.mp h
      have := hlt1 x hx; have := hin x (by simp [hx]); omega
  have hN : ∀ a, hdOr (l2.map Prod.fst) none = some a → c.1 + c.2 ≤ a := by
    intro a ha
    rcases hdOr_eq_some ha with h | h
    · cases h.2
    · obtain ⟨x, hx, rfl⟩ := List.mem_map.mp h
      exact hlt2 x hx
  obtain ⟨fh, fn, fp, fs, fa⟩ := takeBlock_whole_fields st p pad r c.1 hops (c.2 - r) c.2
    _ _ hprev hnext hleft (by omega) hs
    (fun e => by have := hP _ e; omega)
  have m1 : ∀ a ∈ l1.map Prod.fst, a < c.1 := by
    intro a ha
    obtain ⟨x, hx, rfl⟩ := List.mem_map.mp ha
    have := hlt1 x hx; have := hin x (by simp [hx]); omega
  have m2 : ∀ a ∈ l2.map Prod.fst, c.1 + c.2 ≤ a := by
    intro a ha
    obtain ⟨x, hx, rfl⟩ := List.mem_map.mp ha
    exact hlt2 x hx
  rw [List.map_append, List.map_cons] at hnd
  have hnd1 := (List.nodup_append.mp hnd).1
  have hnd2 := (List.nodup_cons.mp (List.nodup_append.mp hnd).2.1).2
  refine ⟨⟨?_, ?_, ?_, ?_, ?_, ?_, ok.bound⟩, ?_, ?_, ?_⟩
  · rw [fh, List.map_append, hdOr_append, ok.head_eq, List.map_append, hdOr_append]
    cases l1 with
    | nil => simp [hdOr, lastOr]
    | cons x t =>
      have : lastOr (List.map Prod.fst (x :: t)) none ≠ none := by
        obtain ⟨a, _, h⟩ := lastOr_mem (List.map Prod.fst (x :: t)) none (by simp)
        rw [(h none).1]; simp
      rw [if_neg this]; rfl
  · rw [List.map_append, Linked_append]
    refine ⟨?_, ?_⟩
    · refine hl1.relink_next hnd1 (fun a ha => ?_) (fun a ha => ?_)
      · have := m1 a ha
        rw [fp, if_neg (fun e => by have := hN a e; omega)]
      · rw [fn]
    · refine hl2.relink_prev hnd2 (fun a ha => ?_) (fun a ha => ?_)
      · rw [fp]
      · have := m2 a ha
        rw [fn, if_neg (fun e => by have := hP a e; omega)]
  · intro x hx
    rw [fs]
    have : x.1 ≠ c.1 := by
      rcases List.mem_append.mp hx with h | h
      · have := m1 x.1 (List.mem_map_of_mem _ h); omega
      · have := m2 x.1 (List.mem_map_of_mem _ h); omega
    rw [if_neg this]
    exact ok.size_eq x (by
      rcases List.mem_append.mp hx with h | h <;> simp [h])
  · intro x hx
    rw [fa]
    have : x.1 ≠ c.1 := by
      rcases List.mem_append.mp hx with h | h
      · have := m1 x.1 (List.mem_map_of_mem _ h); omega
      · have := m2 x.1 (List.mem_map_of_mem _ h); omega
    rw [if_neg this]
    exact ok.free x (by
      rcases List.mem_append.mp hx with h | h <;> simp [h])
  · intro x hx
    exact hin x (by
      rcases List.mem_append.mp hx with h | h <;> simp [h])
  · have ho := ok.ordered
    rw [List.pairwise_append] at ho ⊢
    obtain ⟨ho1, ho2, ho3⟩ := ho
    exact ⟨ho1, (List.pairwise_cons.mp ho2).2, hlt12⟩
  · rw [fs]; simp
  · rw [fa]; simp
  · intro a h1
    rw [fs, fa]
    simp [h1]

/-! ## Inserting a block into the free list and absorbing a neighbour -/

theorem lastOr_ne_none {l : List Int} (h : l ≠ []) : lastOr l none ≠ none := by
  obtain ⟨a, _, h⟩ := lastOr_mem l none h
  rw [(h none).1]; simp

theorem lastOr_lt {l : List (Int × Int)} {b a : Int} (h : ∀ x ∈ l, x.1 < b)
    (ha : lastOr (l.map Prod.fst) none = some a) : a < b := by
  rcases lastOr_eq_some ha with h' | h'
  · cases h'.2
  · obtain ⟨x, hx, rfl⟩ := List.mem_map.mp h'
    exact h x hx

theorem hdOr_gt {l : List (Int × Int)} {b a : Int} (h : ∀ x ∈ l, b < x.1)
    (ha : hdOr (l.map Prod.fst) none = some a) : b < a := by
  rcases hdOr_eq_some ha with h' | h'
  · cases h'.2
  · obtain ⟨x, hx, rfl⟩ := List.mem_map.mp h'
    exact h x hx

/-- Linking the block `(b, s)` between the entries `l1` below it and `l2` above it. -/
theorem insert_ok {R : Int} {st st' : State} {l1 l2 : List (Int × Int)} {b s : Int}
    (ok : FreeListOK R st (l1 ++ l2))
    (hb : 0 ≤ b ∧ 0 < s ∧ b + s ≤ R)
    (h1 : ∀ x ∈ l1, x.1 + x.2 ≤ b) (h2 : ∀ y ∈ l2, b + s ≤ y.1)
    (fh : st'.head = if lastOr (l1.map Prod.fst) none = none then some b else st.head)
    (fn : ∀ a, (st'.mem a).next = if a = b then hdOr (l2.map Prod.fst) none else
      if lastOr (l1.map Prod.fst) none = some a then some b else (st.mem a).next)
    (fp : ∀ a, (st'.mem a).prev = if a = b then lastOr (l1.map Prod.fst) none else
      if hdOr (l2.map Prod.fst) none = some a then some b else (st.mem a).prev)
    (fs : ∀ a, (st'.mem a).size = if a = b then s else (st.mem a).size)
    (fa : ∀ a, (st'.mem a).allocated = if a = b then 0 else (st.mem a).allocated) :
    FreeListOK R st' (l1 ++ (b, s) :: l2) := by
  have hin := ok.inside
  have hl := ok.linked
  rw [List.map_append, Linked_append] at hl
  obtain ⟨hl1, hl2⟩ := hl
  have hnd := ok.nodup
  rw [List.map_append] at hnd
  have hnd1 := (List.nodup_append.mp hnd).1
  have hnd2 := (List.nodup_append.mp hnd).2.1
  have m1 : ∀ x ∈ l1, x.1 < b := fun x hx => by
    have := h1 x hx; have := hin x (by simp [hx]); omega
  have m2 : ∀ x ∈ l2, b < x.1 := fun x hx => by
    have := h2 x hx; omega
  have m1' : ∀ a ∈ l1.map Prod.fst, a < b := by
    intro a ha
    obtain ⟨x, hx, rfl⟩ := List.mem_map.mp ha
    exact m1 x hx
  have m2' : ∀ a ∈ l2.map Prod.fst, b < a := by
    intro a ha
    obtain ⟨x, hx, rfl⟩ := List.mem_map.mp ha
    exact m2 x hx
  have ho := ok.ordered
  rw [List.pairwise_append] at ho
  obtain ⟨ho1, ho2, ho3⟩ := ho
  refine ⟨?_, ?_, ?_, ?_, ?_, ?_, ok.bound⟩
  · rw [fh, List.map_append, hdOr_append, ok.head_eq, List.map_append, hdOr_append]
    cases l1 with
    | nil => simp [hdOr, lastOr]
    | cons x t => rw [if_neg (lastOr_ne_none (by simp))]; rfl
  · rw [List.map_append, Linked_append]
    refine ⟨?_, ?_, ?_, ?_⟩
    · refine hl1.relink_next hnd1 (fun a ha => ?_) (fun a ha => ?_)
      · have := m1' a ha
        rw [fp, if_neg (by omega), if_neg (fun e => by have := hdOr_gt m2 e; omega)]
      · have := m1' a ha
        rw [fn, if_neg (by omega)]
        rfl
    · rw [fp]; simp
    · rw [fn]; simp
    · refine hl2.relink_prev hnd2 (fun a ha => ?_) (fun a ha => ?_)
      · have := m2' a ha
        rw [fp, if_neg (by omega)]
      · have := m2' a ha
        rw [fn, if_neg (by omega), if_neg (fun e => by have := lastOr_lt m1 e; omega)]
  · intro x hx
    rw [fs]
    rcases List.mem_append.mp hx with h | h
    · have := m1 x h
      rw [if_neg (by omega)]
      exact ok.size_eq x (by simp [h])
    · rcases List.mem_cons.mp h with h | h
      · subst h; simp
      · have := m2 x h
        rw [if_neg (by omega)]
        exact ok.size_eq x (by simp [h])
  · intro x hx
    rw [fa]
    rcases List.mem_append.mp hx with h | h
    · have := m1 x h
      rw [if_neg (by omega)]
      exact ok.free x (by simp [h])
    · rcases List.mem_cons.mp h with h | h
      · subst h; simp
      · have := m2 x h
        rw [if_neg (by omega)]
        exact ok.free x (by simp [h])
  · intro x hx
    rcases List.mem_append.mp hx with h | h
    · exact hin x (by simp [h])
    · rcases List.mem_cons.mp h with h | h
      · subst h; exact hb
      · exact hin x (by simp [h])
  · rw [List.pairwise_append]
    refine ⟨ho1, List.pairwise_cons.mpr ⟨fun y hy => h2 y hy, ho2⟩, fun x hx y hy => ?_⟩
    rcases List.mem_cons.mp hy with h | h
    · subst h; exact h1 x hx
    · exact ho3 x hx y h

/-- The entry `(a, sa)` absorbs its successor `(b, sb)`, which starts where it ends. -/
theorem absorb_ok {R : Int} {st st' : State} {l1 l2 : List (Int × Int)} {a sa b sb : Int}
    (ok : FreeListOK R st (l1 ++ (a, sa) :: (b, sb) :: l2))
    (hadj : a + sa = b)
    (fh : st'.head = st.head)
    (fn : ∀ x, x ≠ b → (st'.mem x).next = if x = a then (st.mem b).next else (st.mem x).next)
    (fp : ∀ x, x ≠ b → (st'.mem x).prev =
      if (st.mem b).next = some x then some a else (st.mem x).prev)
    (fs : ∀ x, x ≠ b → (st'.mem x).size = if x = a then sa + sb else (st.mem x).size)
    (fa : ∀ x, x ≠ b → (st'.mem x).allocated = (st.mem x).allocated) :
    FreeListOK R st' (l1 ++ (a, sa + sb) :: l2) := by
  have hin := ok.inside
  have hina := hin (a, sa) (by simp)
  have hinb := hin (b, sb) (by simp)
  simp only at hina hinb
  obtain ⟨hpa, hna, hl1, hl2a, hlt1, hlt2a, _⟩ := ok.at_entry
  have ok' : FreeListOK R st ((l1 ++ [(a, sa)]) ++ (b, sb) :: l2) := by
    simpa using ok
  obtain ⟨hpb, hnb, _, hl2, hlt1b, hlt2, _⟩ := ok'.at_entry
  simp only at hpa hna hlt1 hlt2a hpb hnb hlt1b hlt2
  have hnd := ok.nodup
  rw [List.map_append, List.map_cons, List.map_cons] at hnd
  have hnd1 := (List.nodup_append.mp hnd).1
  have hnd2 := (List.nodup_cons.mp (List.nodup_cons.mp (List.nodup_append.mp hnd).2.1).2).2
  have m1 : ∀ x ∈ l1, x.1 < a := fun x hx => by
    have := hlt1 x hx; have := hin x (by simp [hx]); omega
  have m2 : ∀ x ∈ l2, b + sb ≤ x.1 := fun x hx => hlt2 x hx
  have m1' : ∀ x ∈ l1.map Prod.fst, x < a := by
    intro x hx
    obtain ⟨y, hy, rfl⟩ := List.mem_map.mp hx
    exact m1 y hy
  have m2' : ∀ x ∈ l2.map Prod.fst, b + sb ≤ x := by
    intro x hx
    obtain ⟨y, hy, rfl⟩ := List.mem_map.mp hx
    exact m2 y hy
  have hN : ∀ x, hdOr (l2.map Prod.fst) none = some x → b + sb ≤ x := by
    intro x hx
    rcases hdOr_eq_some hx with h | h
    · cases h.2
    · exact m2' x h
  have ho := ok.ordered
  rw [List.pairwise_append] at ho
  obtain ⟨ho1, ho2, ho3⟩ := ho
  have ho2' := List.pairwise_cons.mp ho2
  have ho2'' := List.pairwise_cons.mp ho2'.2
  refine ⟨?_, ?_, ?_, ?_, ?_, ?_, ok.bound⟩
  · rw [fh, ok.head_eq, List.map_append, List.map_append, hdOr_append, hdOr_append]
    rfl
  · rw [List.map_append, Linked_append]
    refine ⟨?_, ?_, ?_, ?_⟩
    · refine hl1.frame (fun x hx => ?_) (fun x hx => ?_)
      · have := m1' x hx
        rw [fp x (by omega), hnb, if_neg (fun e => by have := hN x e; omega)]
      · have := m1' x hx
        rw [fn x (by omega), if_neg (by omega)]
    · rw [fp a (by omega), hnb, if_neg (fun e => by have := hN a e; omega)]
      exact hpa
    · rw [fn a (by omega), if_pos rfl, hnb]
    · refine hl2.relink_prev hnd2 (fun x hx => ?_) (fun x hx => ?_)
      · have := m2' x hx
        rw [fp x (by omega), hnb]
      · have := m2' x hx
        rw [fn x (by omega), if_neg (by omega)]
  · intro x hx
    rcases List.mem_append.mp hx with h | h
    · have := m1 x h
      rw [fs _ (by omega), if_neg (by omega)]
      exact ok.size_eq x (by simp [h])
    · rcases List.mem_cons.mp h with h | h
      · subst h; rw [fs _ (by simp only; omega)]; simp
      · have := m2 x h
        rw [fs _ (by omega), if_neg (by omega)]
        exact ok.size_eq x (by simp [h])
  · intro x hx
    rcases List.mem_append.mp hx with h | h
    · have := m1 x h
      rw [fa _ (by omega)]
      exact ok.free x (by simp [h])
    · rcases List.mem_cons.mp h with h | h
      · subst h; rw [fa _ (by simp only; omega)]; exact ok.free (a, sa) (by simp)
      · have := m2 x h
        rw [fa _ (by omega)]
        exact ok.free x (by simp [h])
  · intro x hx
    rcases List.mem_append.mp hx with h | h
    · exact hin x (by simp [h])
    · rcases List.mem_cons.mp h with h | h
      · subst h; simp only; omega
      · exact hin x (by simp [h])
  · rw [List.pairwise_append]
    refine ⟨ho1, List.pairwise_cons.mpr ⟨fun y hy => ?_, ho2''.2⟩, fun x hx y hy => ?_⟩
    · have := m2 y hy; simp only; omega
    · rcases List.mem_cons.mp hy with h | h
      · subst h; exact hlt1 x hx
      · exact ho3 x hx y (by simp [h])

/-! ## The insertion-point search and the three-way insertion -/

theorem findSpot_skip {m : Int → Block} {b : Int} {l : List Int} {z : Int} {p n : Option Int}
    (h : Linked m p (l ++ [z]) n) (hs : ∀ a ∈ l, a < b) (k : Nat) :
    ∀ h0, hdOr (l ++ [z]) none = some h0 →
      findSpot m b (l.length + k) h0 = findSpot m b k z := by
  induction l generalizing p with
  | nil =>
    intro h0 e
    simp only [List.nil_append, hdOr, Option.some.injEq] at e
    subst e; simp
  | cons a t ih =>
    intro h0 e
    simp only [List.cons_append, hdOr, Option.some.injEq] at e
    subst e
    have h2 : (m a).next = hdOr (t ++ [z]) n := h.2.1
    have h3 : Linked m (some a) (t ++ [z]) n := h.2.2
    have e : (a :: t).length + k = (t.length + k) + 1 := by simp; omega
    rw [e]
    obtain ⟨a', ha'⟩ : ∃ a', hdOr (t ++ [z]) none = some a' := by
      cases t <;> simp [hdOr]
    have h2' : (m a).next = some a' := by
      rw [h2, hdOr_none_or, if_neg (by simp), ha']
    have hlt : b > a := hs a (by simp)
    show (match (m a).next with
      | some n => if b > a then findSpot m b (t.length + k) n else some a
      | none => some a) = _
    rw [h2']
    simp only [hlt, if_true]
    exact ih h3 (fun x hx => hs x (List.mem_cons_of_mem _ hx)) a' ha'

theorem findSpot_stop {m : Int → Block} {b z : Int} (h : (m z).next = none ∨ ¬ b > z) (k : Nat) :
    findSpot m b (k + 1) z = some z := by
  show (match (m z).next with
      | some n => if b > z then findSpot m b k n else some z
      | none => some z) = _
  rcases h with h | h
  · rw [h]
  · cases (m z).next with
    | none => rfl
    | some n => simp only [h, if_false]

theorem exists_snoc {α : Type} (l : List α) (h : l ≠ []) : ∃ t x, l = t ++ [x] := by
  rcases List.eq_nil_or_concat l with e | ⟨t, x, e⟩
  · exact absurd e h
  · exact ⟨t, x, by rw [e, List.concat_eq_append]⟩

theorem lastOr_concat (l : List Int) (z : Int) (d : Option Int) : lastOr (l ++ [z]) d = some z := by
  rw [lastOr_append]; rfl

/-- The free list after the search and the insertion in `sfree`, on a non-empty list. -/
theorem link_fields {R : Int} {st : State} {l1 l2 : List (Int × Int)} {b : Int}
    (ok : FreeListOK R st (l1 ++ l2)) (hne : l1 ++ l2 ≠ [])
    (m1 : ∀ x ∈ l1, x.1 < b) (m2 : ∀ y ∈ l2, b < y.1)
    {fuel : Nat} (hf : (l1 ++ l2).length < fuel) :
    ∃ h0 curr, st.head = some h0 ∧
      findSpot (setAllocated st.mem b 0) b fuel h0 = some curr ∧
      ∃ stA, linkIn { mem := setAllocated st.mem b 0, head := st.head } b curr = some stA ∧
      (stA.head = if lastOr (l1.map Prod.fst) none = none then some b else st.head) ∧
      (∀ a, (stA.mem a).next = if a = b then hdOr (l2.map Prod.fst) none else
        if lastOr (l1.map Prod.fst) none = some a then some b else (st.mem a).next) ∧
      (∀ a, (stA.mem a).prev = if a = b then lastOr (l1.map Prod.fst) none else
        if hdOr (l2.map Prod.fst) none = some a then some b else (st.mem a).prev) ∧
      (∀ a, (stA.mem a).size = (st.mem a).size) ∧
      (∀ a, (stA.mem a).allocated = if a = b then 0 else (st.mem a).allocated) := by
  have hl0 : Linked (setAllocated st.mem b 0) none ((l1 ++ l2).map Prod.fst) none :=
    ok.linked.frame (fun a _ => by simp) (fun a _ => by simp)
  have hhead := ok.head_eq
  cases l2 with
  | cons y l2' =>
    -- the search stops at the first entry above `b`
    have hby : ¬ b > y.1 := by have := m2 y (by simp); omega
    have hyb : y.1 ≠ b := by have := m2 y (by simp); omega
    have e1 : (l1 ++ y :: l2').map Prod.fst = (l1.map Prod.fst ++ [y.1]) ++ l2'.map Prod.fst := by
      simp
    rw [e1, Linked_append] at hl0
    rw [e1, hdOr_append] at hhead
    obtain ⟨h0, hh0⟩ : ∃ h0, hdOr (l1.map Prod.fst ++ [y.1]) none = some h0 := by
      cases l1 <;> simp [hdOr]
    have hhead' : st.head = some h0 := by
      rw [hhead, hdOr_none_or, if_neg (by simp), hh0]
    obtain ⟨k, rfl⟩ : ∃ k, fuel = (l1.map Prod.fst).length + (k + 1) :=
      ⟨fuel - l1.length - 1, by simp at hf ⊢; omega⟩
    have hfind := findSpot_skip hl0.1 (by
      intro a ha
      obtain ⟨x, hx, rfl⟩ := List.mem_map.mp ha
      exact m1 x hx) (k + 1) h0 hh0
    rw [findSpot_stop (Or.inr hby)] at hfind
    obtain ⟨hpy, hny, _, _, _, _, _⟩ := ok.at_entry
    refine ⟨h0, y.1, hhead', hfind, ?_⟩
    by_cases hl1 : l1 = []
    · -- insert at front
      subst hl1
      have hpy' : (st.mem y.1).prev = none := by simpa [lastOr] using hpy
      have hlt : b < y.1 := m2 y (by simp)
      unfold linkIn
      simp only [setAllocated_next, setAllocated_prev, hpy', hby, and_false, if_false,
        hlt, and_self, if_true]
      refine ⟨_, rfl, ?_, fun a => ?_, fun a => ?_, fun a => ?_, fun a => ?_⟩
      · simp [lastOr]
      · simp [lastOr, hdOr]
      · simp only [setPrev_prev, setNext_prev, setAllocated_prev, List.map_nil, lastOr,
          List.map_cons, hdOr, Option.some.injEq]
        split_ifs <;> first | rfl | (subst_vars; omega)
      · simp
      · simp
    · -- insert in the middle
      obtain ⟨l1a, x, rfl⟩ := exists_snoc l1 hl1
      have hxb : x.1 ≠ b := by have := m1 x (by simp); omega
      have hpy' : (st.mem y.1).prev = some x.1 := by
        rw [hpy, List.map_append, lastOr_append]; rfl
      have hlast : lastOr (List.map Prod.fst (l1a ++ [x])) none = some x.1 := by
        rw [List.map_append, lastOr_append]; rfl
      unfold linkIn
      simp only [setAllocated_next, setAllocated_prev, hpy', hby, and_false, if_false,
        false_and, setNext_prev]
      refine ⟨_, rfl, ?_, fun a => ?_, fun a => ?_, fun a => ?_, fun a => ?_⟩
      · rw [hlast]; rfl
      · simp only [setPrev_next, setNext_next, setAllocated_next, hlast, List.map_cons, hdOr,
          Option.some.injEq]
        split_ifs <;> first | rfl | (subst_vars; omega)
      · simp only [setPrev_prev, setNext_prev, setAllocated_prev, hlast, List.map_cons, hdOr,
          Option.some.injEq]
        split_ifs <;> first | rfl | (subst_vars; omega)
      · simp
      · simp
  | nil =>
    -- the search stops at the last entry
    rw [List.append_nil] at hne ok hl0 hhead hf
    obtain ⟨l1a, z, rfl⟩ := exists_snoc l1 hne
    have hzb : b > z.1 := m1 z (by simp)
    have e1 : (l1a ++ [z]).map Prod.fst = l1a.map Prod.fst ++ [z.1] := by simp
    rw [e1] at hl0 hhead
    obtain ⟨h0, hh0⟩ : ∃ h0, hdOr (l1a.map Prod.fst ++ [z.1]) none = some h0 := by
      cases l1a <;> simp [hdOr]
    have hhead' : st.head = some h0 := by rw [hhead, hh0]
    obtain ⟨k, rfl⟩ : ∃ k, fuel = (l1a.map Prod.fst).length + (k + 1) :=
      ⟨fuel - l1a.length - 1, by simp at hf ⊢; omega⟩
    have ok' : FreeListOK R st (l1a ++ z :: []) := by simpa using ok
    obtain ⟨_, hnz, _, _, _, _, _⟩ := ok'.at_entry
    have hnz' : (st.mem z.1).next = none := by simpa [hdOr] using hnz
    have hfind := findSpot_skip hl0 (by
      intro a ha
      obtain ⟨x, hx, rfl⟩ := List.mem_map.mp ha
      exact m1 x (by simp [hx])) (k + 1) h0 hh0
    rw [findSpot_stop (Or.inl (by simpa using hnz'))] at hfind
    have hlast : lastOr (List.map Prod.fst (l1a ++ [z])) none = some z.1 := by
      rw [List.map_append, lastOr_append]; rfl
    refine ⟨h0, z.1, hhead', hfind, ?_⟩
    unfold linkIn
    simp only [setAllocated_next, hnz', hzb, and_self, if_true]
    refine ⟨_, rfl, ?_, fun a => ?_, fun a => ?_, fun a => ?_, fun a => ?_⟩
    · rw [hlast]; rfl
    · simp only [setPrev_next, setNext_next, setAllocated_next, hlast, List.map_nil, hdOr,
        Option.some.injEq]
      split_ifs <;> first | rfl | (subst_vars; omega)
    · simp only [setPrev_prev, setNext_prev, setAllocated_prev, hlast, List.map_nil, hdOr]
      split_ifs <;> first | rfl | omega | contradiction
    · simp
    · simp

/-! ## Coalescing -/

theorem snocMerge_snoc (l : List (Int × Int)) (x e : Int × Int) :
    snocMerge (l ++ [x]) e =
      if e.1 = x.1 + x.2 then l ++ [(x.1, x.2 + e.2)] else l ++ [x, e] := by
  induction l with
  | nil => simp [snocMerge]
  | cons a t ih =>
    have : snocMerge (a :: t ++ [x]) e = a :: snocMerge (t ++ [x]) e := by
      cases t <;> rfl
    rw [this, ih]
    split <;> rfl

/-- Forward coalescing of the entry `(b, s)`. -/
theorem coalesceNext_ok {R : Int} {st : State} {l1 l2 : List (Int × Int)} {b s : Int}
    (ok : FreeListOK R st (l1 ++ (b, s) :: l2)) :
    FreeListOK R { mem := coalesceNext st.mem b, head := st.head }
      (l1 ++ (mergeNext (b, s) l2).1 :: (mergeNext (b, s) l2).2) ∧
    (∀ x, (coalesceNext st.mem b x).allocated = (st.mem x).allocated) ∧
    (∀ x, x ≠ b → (coalesceNext st.mem b x).size = (st.mem x).size) := by
  obtain ⟨_, hnb, _, _, _, hlt2, _⟩ := ok.at_entry
  have hsb := ok.size_eq (b, s) (by simp)
  have hinb := ok.inside (b, s) (by simp)
  simp only at hnb hsb hlt2 hinb
  cases l2 with
  | nil =>
    have e : coalesceNext st.mem b = st.mem := by
      unfold coalesceNext; rw [hnb]; rfl
    rw [e]
    exact ⟨ok, fun _ => rfl, fun _ _ => rfl⟩
  | cons y t =>
    obtain ⟨n, sn⟩ := y
    have hnb' : (st.mem b).next = some n := hnb
    have hsy := ok.size_eq (n, sn) (by simp)
    have hiny := ok.inside (n, sn) (by simp)
    simp only at hsy hiny
    by_cases hadj : n = b + s
    · have hbd := ok.bound
      unfold INT_MAX at hbd
      have hw : wrap32 (s + sn) = s + sn := wrap32_of_range (by omega) (by omega)
      have hm : mergeNext (b, s) ((n, sn) :: t) = ((b, s + sn), t) := by
        simp [mergeNext, hadj]
      rw [hm]
      subst hadj
      have e : coalesceNext st.mem b =
          setNext (setPrevIf (setSize st.mem b (s + sn)) (st.mem (b + s)).next (some b)) b
            (st.mem (b + s)).next := by
        unfold coalesceNext
        simp only [hnb', hsb, if_true, setSize_next, setPrevIf_next, hsy, hw]
      rw [e]
      refine ⟨?_, fun x => by simp, fun x hx => by simp [hx]⟩
      refine absorb_ok ok rfl rfl (fun x hx => ?_) (fun x hx => ?_) (fun x hx => ?_)
        (fun x hx => ?_)
      · simp
      · simp only [setNext_prev, setPrevIf_prev, setSize_prev]
      · simp
      · simp
    · have e : coalesceNext st.mem b = st.mem := by
        unfold coalesceNext
        simp only [hnb', hsb, hadj, if_false]
      rw [e]
      have hm : mergeNext (b, s) ((n, sn) :: t) = ((b, s), (n, sn) :: t) := by
        simp [mergeNext, hadj]
      rw [hm]
      exact ⟨ok, fun _ => rfl, fun _ _ => rfl⟩

/-- Backward coalescing of the entry `(b, s)`. -/
theorem coalescePrev_ok {R : Int} {st : State} {l1 l2 : List (Int × Int)} {b s : Int}
    (ok : FreeListOK R st (l1 ++ (b, s) :: l2)) :
    FreeListOK R { mem := coalescePrev st.mem b, head := st.head }
      (snocMerge l1 (b, s) ++ l2) ∧
    (∀ x, (coalescePrev st.mem b x).allocated = (st.mem x).allocated) ∧
    (∀ x, (∀ y ∈ l1, x ≠ y.1) → (coalescePrev st.mem b x).size = (st.mem x).size) := by
  obtain ⟨hpb, hnb, _, _, hlt1, hlt2, _⟩ := ok.at_entry
  have hsb := ok.size_eq (b, s) (by simp)
  have hinb := ok.inside (b, s) (by simp)
  simp only at hpb hnb hsb hlt1 hlt2 hinb
  by_cases hl1 : l1 = []
  · subst hl1
    have e : coalescePrev st.mem b = st.mem := by
      unfold coalescePrev; rw [hpb]; rfl
    rw [e]
    exact ⟨ok, fun _ => rfl, fun _ _ => rfl⟩
  · obtain ⟨l1a, ⟨p, sp⟩, rfl⟩ := exists_snoc l1 hl1
    have hpb' : (st.mem b).prev = some p := by
      rw [hpb, List.map_append, lastOr_append]; rfl
    have hsx := ok.size_eq (p, sp) (by simp)
    have hinx := ok.inside (p, sp) (by simp)
    simp only at hsx hinx
    rw [snocMerge_snoc]
    dsimp only
    by_cases hadj : b = p + sp
    · have hbd := ok.bound
      unfold INT_MAX at hbd
      have hw : wrap32 (sp + s) = sp + s := wrap32_of_range (by omega) (by omega)
      have hpne : p + sp ≠ p := by omega
      rw [if_pos hadj]
      subst hadj
      have e : coalescePrev st.mem (p + sp) =
          setPrevIf (setNext (setSize st.mem p (sp + s)) p (st.mem (p + sp)).next)
            (st.mem (p + sp)).next (some p) := by
        unfold coalescePrev
        simp only [hpb', hsx, if_true, hsb, hw, setNext_next, setSize_next, hpne,
          if_false, setNext_prev, setSize_prev]
      rw [e]
      refine ⟨?_, fun y => by simp, fun y hy => ?_⟩
      · have ok' : FreeListOK R st (l1a ++ (p, sp) :: (p + sp, s) :: l2) := by
          simpa using ok
        rw [List.append_assoc]
        exact absorb_ok ok' rfl rfl
          (fun y hy => by simp) (fun y hy => by simp) (fun y hy => by simp) (fun y hy => by simp)
      · have := hy (p, sp) (by simp)
        simp only at this
        simp [this]
    · have e : coalescePrev st.mem b = st.mem := by
        unfold coalescePrev
        simp only [hpb', hsx, hadj, if_false]
      rw [e, if_neg hadj]
      refine ⟨?_, fun _ => rfl, fun _ _ => rfl⟩
      simpa using ok


/-! ## The effect of `sfree` on a well-formed free list -/

theorem mergeNext_fst (b s : Int) (l2 : List (Int × Int)) :
    (mergeNext (b, s) l2).1 = (b, (mergeNext (b, s) l2).1.2) := by
  cases l2 with
  | nil => rfl
  | cons y t =>
    simp only [mergeNext]
    split <;> rfl

/-- Freeing the block at `b`, which lies between the entries `l1` and `l2` of a
well-formed free list: `sfree` returns, and the free list afterwards is
`freeInto l1 (b, size) l2`. -/
theorem sfree_ok {R : Int} {st : State} {l1 l2 : List (Int × Int)} {b : Int}
    (ok : FreeListOK R st (l1 ++ l2))
    (hb : 0 ≤ b ∧ 0 < (st.mem b).size ∧ b + (st.mem b).size ≤ R)
    (h1 : ∀ x ∈ l1, x.1 + x.2 ≤ b) (h2 : ∀ y ∈ l2, b + (st.mem b).size ≤ y.1)
    {fuel : Nat} (hf : (l1 ++ l2).length < fuel) :
    ∃ st', sfree fuel (some (b + 24)) st = some st' ∧
      FreeListOK R st' (freeInto l1 (b, (st.mem b).size) l2) ∧
      (∀ x, (st'.mem x).allocated = if x = b then 0 else (st.mem x).allocated) ∧
      (∀ x, x ≠ b → (∀ y ∈ l1, x ≠ y.1) → (st'.mem x).size = (st.mem x).size) := by
  have hbb : b + 24 - HEADER_SIZE = b := by unfold HEADER_SIZE; omega
  have m1 : ∀ x ∈ l1, x.1 < b := fun x hx => by
    have := h1 x hx; have := ok.inside x (by simp [hx]); omega
  have m2 : ∀ y ∈ l2, b < y.1 := fun y hy => by
    have := h2 y hy; omega
  by_cases hne : l1 ++ l2 = []
  · -- start new list
    have e1 : l1 = [] := (List.append_eq_nil.mp hne).1
    have e2 : l2 = [] := (List.append_eq_nil.mp hne).2
    subst e1 e2
    have hh : st.head = none := ok.head_eq
    refine ⟨{ mem := setNext (setPrev (setAllocated st.mem b 0) b none) b none, head := some b },
      ?_, ?_, fun x => by simp, fun x _ _ => by simp⟩
    · unfold sfree
      simp only [hbb, hh]
    · show FreeListOK R _ ([] ++ (b, (st.mem b).size) :: [])
      refine insert_ok ok hb h1 h2 ?_ (fun a => ?_) (fun a => ?_) (fun a => ?_) (fun a => ?_)
      · simp [lastOr]
      · simp only [setNext_next, setPrev_next, setAllocated_next, List.map_nil, hdOr, lastOr]
        split_ifs <;> first | rfl | contradiction
      · simp only [setNext_prev, setPrev_prev, setAllocated_prev, List.map_nil, hdOr, lastOr]
        split_ifs <;> first | rfl | contradiction
      · simp only [setNext_size, setPrev_size, setAllocated_size]
        split_ifs <;> first | rfl | (subst_vars; rfl)
      · simp
  · obtain ⟨h0, curr, hh0, hfind, stA, hlink, fh, fn, fp, fs, fa⟩ := link_fields ok hne m1 m2 hf
    have okA : FreeListOK R stA (l1 ++ (b, (st.mem b).size) :: l2) :=
      insert_ok ok hb h1 h2 fh fn fp (fun a => by
        rw [fs]; split_ifs <;> first | rfl | (subst_vars; rfl)) fa
    obtain ⟨okB, faB, fsB⟩ := coalesceNext_ok okA
    rw [mergeNext_fst] at okB
    obtain ⟨okC, faC, fsC⟩ := coalescePrev_ok okB
    refine ⟨{ mem := coalescePrev (coalesceNext stA.mem b) b, head := stA.head }, ?_, ?_,
      fun x => ?_, fun x hx hx1 => ?_⟩
    · have hlink' := hlink
      rw [hh0] at hlink'
      unfold sfree
      simp only [hbb, hh0, hfind, hlink']
    · have : freeInto l1 (b, (st.mem b).size) l2 =
          snocMerge l1 (b, (mergeNext (b, (st.mem b).size) l2).1.2) ++
            (mergeNext (b, (st.mem b).size) l2).2 := by
        unfold freeInto
        rw [← mergeNext_fst]
      rw [this]
      exact okC
    · rw [faC, faB, fa]
    · rw [fsC x hx1, fsB x hx, fs]


/-! ## The effect of `smalloc` on a well-formed free list -/

/-- The call reaches `takeBlock` on the first entry that fits. -/
theorem smalloc_takes {R : Int} {st : State} {l1 l2 : List (Int × Int)} {c : Int × Int}
    (ok : FreeListOK R st (l1 ++ c :: l2)) {p : Int} (hp : 0 ≤ p) (hp2 : p ≤ INT_MAX - 31)
    (hs : ∀ x ∈ l1, x.2 < roundUp8 p + 24) (hc : roundUp8 p + 24 ≤ c.2)
    {fuel : Nat} (hf : l1.length < fuel) :
    smalloc fuel p st =
      some (some (c.1 + 24), ⟨1, c.1 + 24, l1.length⟩,
        (takeBlock st p (padOf p) (roundUp8 p + 24) c.1 l1.length).2.2) := by
  have hin := ok.inside c (by simp)
  have hb := ok.bound
  have := roundUp8_ge hp
  unfold INT_MAX at hb
  unfold smalloc
  simp only [blockSize_eq hp hp2, firstFit_found ok hs hc hf]
  have : wrap32 (c.1 + HEADER_SIZE) = c.1 + 24 := by
    unfold HEADER_SIZE
    exact wrap32_of_range (by omega) (by omega)
  simp only [takeBlock, this]
  rfl

/-- A split allocation. -/
theorem smalloc_split_ok {R : Int} {st : State} {l1 l2 : List (Int × Int)} {c : Int × Int}
    (ok : FreeListOK R st (l1 ++ c :: l2)) {p : Int} (hp : 0 ≤ p) (hp2 : p ≤ INT_MAX - 31)
    (hs : ∀ x ∈ l1, x.2 < roundUp8 p + 24) (hc : roundUp8 p + 24 + 24 ≤ c.2)
    {fuel : Nat} (hf : l1.length < fuel) :
    ∃ st', smalloc fuel p st = some (some (c.1 + 24), ⟨1, c.1 + 24, l1.length⟩, st') ∧
      FreeListOK R st' (l1 ++ (c.1 + (roundUp8 p + 24), c.2 - (roundUp8 p + 24)) :: l2) ∧
      (st'.mem c.1).size = roundUp8 p + 24 ∧ (st'.mem c.1).allocated = 1 ∧
      (∀ a, a ≠ c.1 → a ≠ c.1 + (roundUp8 p + 24) →
        (st'.mem a).size = (st.mem a).size ∧ (st'.mem a).allocated = (st.mem a).allocated) := by
  have := roundUp8_ge hp
  exact ⟨_, smalloc_takes ok hp hp2 hs (by omega) hf,
    takeBlock_split ok (by omega) hc p (padOf p) l1.length⟩

/-- An allocation that takes the whole block. -/
theorem smalloc_whole_ok {R : Int} {st : State} {l1 l2 : List (Int × Int)} {c : Int × Int}
    (ok : FreeListOK R st (l1 ++ c :: l2)) {p : Int} (hp : 0 ≤ p) (hp2 : p ≤ INT_MAX - 31)
    (hs : ∀ x ∈ l1, x.2 < roundUp8 p + 24) (hc : roundUp8 p + 24 ≤ c.2)
    (hno : c.2 < roundUp8 p + 24 + 24)
    {fuel : Nat} (hf : l1.length < fuel) :
    ∃ st', smalloc fuel p st = some (some (c.1 + 24), ⟨1, c.1 + 24, l1.length⟩, st') ∧
      FreeListOK R st' (l1 ++ l2) ∧
      (st'.mem c.1).size = c.2 ∧ (st'.mem c.1).allocated = 1 ∧
      (∀ a, a ≠ c.1 →
        (st'.mem a).size = (st.mem a).size ∧ (st'.mem a).allocated = (st.mem a).allocated) := by
  have hr := roundUp8_ge hp
  obtain ⟨hpad, hpad0, hpad8⟩ := padOf_eq hp
  have hin := ok.inside c (by simp)
  have hb := ok.bound
  unfold INT_MAX at hb hp2
  have hsz : blockSize p (wrap32 (padOf p + (c.2 - (roundUp8 p + 24)))) = c.2 := by
    have e1 : wrap32 (padOf p + (c.2 - (roundUp8 p + 24))) = padOf p + (c.2 - (roundUp8 p + 24)) :=
      wrap32_of_range (by omega) (by omega)
    unfold blockSize HEADER_SIZE
    rw [e1]
    have e2 : wrap32 (p + (padOf p + (c.2 - (roundUp8 p + 24)))) = c.2 - 24 := by
      rw [wrap32_of_range (by omega) (by omega)]; omega
    rw [e2, wrap32_of_range (by omega) (by omega)]
    omega
  exact ⟨_, smalloc_takes ok hp hp2 hs hc hf,
    takeBlock_whole ok hc hno p (padOf p) l1.length hsz⟩

/-- An allocation that no entry can satisfy. -/
theorem smalloc_none_ok {R : Int} {st : State} {F : List (Int × Int)}
    (ok : FreeListOK R st F) {p : Int} (hp : 0 ≤ p) (hp2 : p ≤ INT_MAX - 31)
    (hs : ∀ x ∈ F, x.2 < roundUp8 p + 24)
    {fuel : Nat} (hf : F.length < fuel) :
    smalloc fuel p st = some (none, ⟨0, -1, -1⟩, st) := by
  unfold smalloc
  simp only [blockSize_eq hp hp2, firstFit_none ok hs hf]


/-! ## Tilings -/

theorem Tiled_append (a e : Int) (T1 T2 : List Blk) :
    Tiled a e (T1 ++ T2) ↔ ∃ mid, Tiled a mid T1 ∧ Tiled mid e T2 := by
  induction T1 generalizing a with
  | nil => simp [Tiled]
  | cons b t ih =>
    show (b.addr = a ∧ 24 ≤ b.size ∧ b.size % 8 = 0 ∧ Tiled (a + b.size) e (t ++ T2)) ↔
      ∃ mid, (b.addr = a ∧ 24 ≤ b.size ∧ b.size % 8 = 0 ∧ Tiled (a + b.size) mid t) ∧
        Tiled mid e T2
    rw [ih]
    constructor
    · rintro ⟨h1, h2, h3, mid, h4, h5⟩
      exact ⟨mid, ⟨h1, h2, h3, h4⟩, h5⟩
    · rintro ⟨mid, ⟨h1, h2, h3, h4⟩, h5⟩
      exact ⟨h1, h2, h3, mid, h4, h5⟩

theorem Tiled_split {a e : Int} {T1 T2 : List Blk} {b : Blk} :
    Tiled a e (T1 ++ b :: T2) ↔
      Tiled a b.addr T1 ∧ 24 ≤ b.size ∧ b.size % 8 = 0 ∧ Tiled (b.addr + b.size) e T2 := by
  rw [Tiled_append]
  constructor
  · rintro ⟨mid, h1, h2, h3, h4, h5⟩
    subst h2
    exact ⟨h1, h3, h4, h5⟩
  · rintro ⟨h1, h3, h4, h5⟩
    exact ⟨b.addr, h1, rfl, h3, h4, h5⟩

theorem Tiled.bounds {a e : Int} {T : List Blk} (h : Tiled a e T) :
    a ≤ e ∧ a % 8 = e % 8 ∧ ∀ b ∈ T, a ≤ b.addr ∧ b.addr + b.size ≤ e ∧ b.addr % 8 = a % 8 := by
  induction T generalizing a with
  | nil =>
    have : a = e := h
    subst this
    simp
  | cons b t ih =>
    obtain ⟨h1, h2, h3, h4⟩ := h
    obtain ⟨i1, i2, i3⟩ := ih h4
    refine ⟨by omega, by omega, ?_⟩
    intro x hx
    rcases List.mem_cons.mp hx with rfl | hx
    · refine ⟨by omega, by omega, by omega⟩
    · have := i3 x hx
      refine ⟨by omega, by omega, by omega⟩

theorem freeOf_append (T1 T2 : List Blk) : freeOf (T1 ++ T2) = freeOf T1 ++ freeOf T2 := by
  simp [freeOf]

theorem freeOf_cons_free {b : Blk} (h : b.free = true) (T : List Blk) :
    freeOf (b :: T) = (b.addr, b.size) :: freeOf T := by
  simp [freeOf, h]

theorem freeOf_cons_used {b : Blk} (h : b.free = false) (T : List Blk) :
    freeOf (b :: T) = freeOf T := by
  simp [freeOf, h]

theorem mem_freeOf {T : List Blk} {x : Int × Int} (h : x ∈ freeOf T) :
    ∃ b ∈ T, b.free = true ∧ x = (b.addr, b.size) := by
  simp only [freeOf, List.mem_map, List.mem_filter] at h
  obtain ⟨b, ⟨hb, hf⟩, rfl⟩ := h
  exact ⟨b, hb, hf, rfl⟩

/-- An entry of the free list of a tiling sits at a free block of the tiling. -/
theorem freeOf_split : ∀ (T : List Blk) (l1 l2 : List (Int × Int)) (c : Int × Int),
    freeOf T = l1 ++ c :: l2 →
    ∃ T1 T2, T = T1 ++ ⟨c.1, c.2, true⟩ :: T2 ∧ freeOf T1 = l1 ∧ freeOf T2 = l2
  | [], l1, l2, c, h => by simp [freeOf] at h
  | b :: t, l1, l2, c, h => by
    by_cases hb : b.free = true
    · rw [freeOf_cons_free hb] at h
      cases l1 with
      | nil =>
        simp only [List.nil_append, List.cons.injEq] at h
        obtain ⟨h1, h2⟩ := h
        refine ⟨[], t, ?_, rfl, h2⟩
        obtain ⟨ba, bs, bf⟩ := b
        simp only at hb h1
        subst hb
        simp [← h1]
      | cons x l1' =>
        simp only [List.cons_append, List.cons.injEq] at h
        obtain ⟨h1, h2⟩ := h
        obtain ⟨T1, T2, e, e1, e2⟩ := freeOf_split t l1' l2 c h2
        refine ⟨b :: T1, T2, by rw [e]; rfl, ?_, e2⟩
        rw [freeOf_cons_free hb, e1, h1]
    · have hb' : b.free = false := by simpa using hb
      rw [freeOf_cons_used hb'] at h
      obtain ⟨T1, T2, e, e1, e2⟩ := freeOf_split t l1 l2 c h
      refine ⟨b :: T1, T2, by rw [e]; rfl, ?_, e2⟩
      rw [freeOf_cons_used hb', e1]


theorem Tiled.size_ok {a e : Int} {T : List Blk} (h : Tiled a e T) :
    ∀ b ∈ T, 24 ≤ b.size ∧ b.size % 8 = 0 := by
  induction T generalizing a with
  | nil => simp
  | cons b t ih =>
    obtain ⟨_, h2, h3, h4⟩ := h
    intro x hx
    rcases List.mem_cons.mp hx with rfl | hx
    · exact ⟨h2, h3⟩
    · exact ih h4 x hx

/-- Around a free block of a coalesced tiling both neighbours are allocated. -/
theorem chain_free_mid (T1 T2 : List Blk) {b : Blk} (hb : b.free = true) :
    (T1 ++ b :: T2).Chain' (fun x y => ¬ (x.free = true ∧ y.free = true)) ↔
      T1.Chain' (fun x y => ¬ (x.free = true ∧ y.free = true)) ∧
      T2.Chain' (fun x y => ¬ (x.free = true ∧ y.free = true)) ∧
      (∀ x ∈ T1.getLast?, x.free = false) ∧ (∀ y ∈ T2.head?, y.free = false) := by
  rw [List.chain'_append, List.chain'_cons']
  simp only [List.head?_cons, Option.mem_def, Option.some.injEq, hb, and_true, true_and,
    forall_eq', Bool.not_eq_true]
  tauto

theorem chain_used_mid (T1 T2 : List Blk) {b : Blk} (hb : b.free = false) :
    (T1 ++ b :: T2).Chain' (fun x y => ¬ (x.free = true ∧ y.free = true)) ↔
      T1.Chain' (fun x y => ¬ (x.free = true ∧ y.free = true)) ∧
      T2.Chain' (fun x y => ¬ (x.free = true ∧ y.free = true)) := by
  rw [List.chain'_append, List.chain'_cons']
  simp [hb]

/-! ## Fuel -/

theorem firstFit_mono {m : Int → Block} {r : Int} {f : Nat} {cur : Option Int} {h : Int}
    {res : Option Int × Int} (hr : firstFit m r f cur h = some res) {f' : Nat} (hf : f ≤ f') :
    firstFit m r f' cur h = some res := by
  induction f generalizing cur h f' with
  | zero => cases hr
  | succ k ih =>
    obtain ⟨k', rfl⟩ : ∃ k', f' = k' + 1 := ⟨f' - 1, by omega⟩
    cases cur with
    | none => exact hr
    | some c =>
      simp only [firstFit] at hr ⊢
      split
      · rename_i hlt
        rw [if_pos hlt] at hr
        exact ih hr (by omega)
      · rename_i hlt
        rw [if_neg hlt] at hr
        exact hr

theorem smalloc_mono {f : Nat} {p : Int} {st : State} {res : Option Int × Malloc_Status × State}
    (hr : smalloc f p st = some res) {f' : Nat} (hf : f ≤ f') : smalloc f' p st = some res := by
  unfold smalloc at hr ⊢
  cases hff : firstFit st.mem (blockSize p (padOf p)) f st.head 0 with
  | none => simp [hff] at hr
  | some v => simpa [firstFit_mono hff hf, hff] using hr

theorem findSpot_mono {m : Int → Block} {b : Int} {f : Nat} {cur res : Int}
    (hr : findSpot m b f cur = some res) {f' : Nat} (hf : f ≤ f') :
    findSpot m b f' cur = some res := by
  induction f generalizing cur f' with
  | zero => cases hr
  | succ k ih =>
    obtain ⟨k', rfl⟩ : ∃ k', f' = k' + 1 := ⟨f' - 1, by omega⟩
    simp only [findSpot] at hr ⊢
    cases hn : (m cur).next with
    | none => simpa [hn] using hr
    | some n =>
      simp only [hn] at hr ⊢
      split
      · rename_i hlt
        rw [if_pos hlt] at hr
        exact ih hr (by omega)
      · rename_i hlt
        rw [if_neg hlt] at hr
        exact hr

theorem sfree_mono {f : Nat} {ptr : Option Int} {st res : State}
    (hr : sfree f ptr st = some res) {f' : Nat} (hf : f ≤ f') : sfree f' ptr st = some res := by
  unfold sfree at hr ⊢
  cases ptr with
  | none => exact hr
  | some q =>
    cases hh : st.head with
    | none => simpa [hh] using hr
    | some c =>
      simp only [hh] at hr ⊢
      cases hfs : findSpot (setAllocated st.mem (q - HEADER_SIZE) 0) (q - HEADER_SIZE) f c with
      | none => simp [hfs] at hr
      | some v => simpa [findSpot_mono hfs hf, hfs] using hr


/-! ## The invariant holds initially -/

theorem roundRegion_ok {n : Int} (h1 : 1 ≤ n) (h2 : n ≤ INT_MAX) (h : 0 < roundRegion n) :
    roundRegion n = roundUpPage n ∧ roundRegion n ≤ INT_MAX ∧ roundRegion n % 4096 = 0 ∧
      n ≤ INT_MAX - 4095 := by
  unfold INT_MAX at *
  unfold roundRegion PAGE_SIZE at *
  rw [Int.tmod_eq_emod (by omega) (by decide)] at *
  unfold roundUpPage
  split at h
  · rename_i hne
    rw [if_pos hne]
    have e1 : wrap32 (4096 - n % 4096) = 4096 - n % 4096 := wrap32_of_range (by omega) (by omega)
    rw [e1] at h ⊢
    unfold wrap32 at h ⊢
    omega
  · rename_i hne
    rw [if_neg hne]
    omega

theorem my_init_state {n : Int} {g : Bool} {st0 st : State} (h : my_init n g st0 = (0, st)) :
    g = true ∧ 0 < roundRegion n ∧ st.head = some 0 ∧
      st.mem = setPrev (setNext (setAllocated (setSize zeroMem 0 (roundRegion n)) 0 0) 0 none) 0 none := by
  unfold my_init at h
  simp only at h
  split at h
  · simp at h
  · rename_i hm
    simp only [mmapOk, Bool.and_eq_false_imp, decide_eq_false_iff_not, not_forall,
      Classical.not_imp, Decidable.not_not] at hm
    simp only [Prod.mk.injEq, true_and] at h
    subst h
    exact ⟨hm.1, hm.2, rfl, rfl⟩

theorem tmod_page (n : Int) :
    Int.tmod n 4096 = if 0 ≤ n then n % 4096 else -((-n) % 4096) := by
  split
  · rename_i h
    exact Int.tmod_eq_emod h (by decide)
  · rename_i h
    have e : n = -(-n) := by omega
    rw [Int.tmod_def]
    conv_lhs => rw [e, Int.neg_tdiv, Int.tdiv_eq_ediv (by omega) (by decide)]
    omega

/-- The rounded size of a region that was mapped, for any `int` request. -/
theorem roundRegion_int {n : Int} (h1 : INT_MIN ≤ n) (h2 : n ≤ INT_MAX) (h : 0 < roundRegion n) :
    roundRegion n ≤ INT_MAX ∧ roundRegion n % 4096 = 0 := by
  unfold INT_MAX INT_MIN at *
  unfold roundRegion PAGE_SIZE at *
  obtain ⟨t, ht, hfact⟩ : ∃ t, Int.tmod n 4096 = t ∧
      ((0 ≤ n ∧ t = n % 4096) ∨ (n < 0 ∧ t = -((-n) % 4096))) := by
    refine ⟨_, rfl, ?_⟩
    rw [tmod_page]
    by_cases h0 : 0 ≤ n
    · exact Or.inl ⟨h0, by rw [if_pos h0]⟩
    · exact Or.inr ⟨by omega, by rw [if_neg h0]⟩
  rw [ht] at h ⊢
  have e1 : wrap32 (4096 - t) = 4096 - t := wrap32_of_range (by omega) (by omega)
  by_cases hne : t ≠ 0
  · rw [if_pos hne] at h ⊢
    rw [e1] at h ⊢
    unfold wrap32 at h ⊢
    omega
  · rw [if_neg hne] at h ⊢
    omega

theorem my_init_inv {n : Int} {g : Bool} {st0 st : State} (h1 : INT_MIN ≤ n) (h2 : n ≤ INT_MAX)
    (h : my_init n g st0 = (0, st)) : Inv (roundRegion n) st [⟨0, roundRegion n, true⟩] [] := by
  obtain ⟨_, hpos, hh, hm⟩ := my_init_state h
  obtain ⟨hle, hmod⟩ := roundRegion_int h1 h2 hpos
  refine ⟨?_, ?_, ⟨?_, ?_, ?_, ?_, ?_, ?_, hle⟩, ?_, List.nodup_nil, ?_⟩
  · exact ⟨rfl, by show 24 ≤ roundRegion n; omega, by show roundRegion n % 8 = 0; omega,
      by simp [Tiled]⟩
  · simp
  · rw [hh]; rfl
  · simp [freeOf, Linked, hm, hdOr]
  · simp [freeOf, hm]
  · simp [freeOf, hm]
  · simp [freeOf]; omega
  · simp [freeOf]
  · simp
  · simp

/-! ## The invariant is preserved by `smalloc` -/

theorem Inv.alloc_fail {R : Int} {st : State} {T : List Blk} {outs : List Int}
    (inv : Inv R st T outs) {p : Int} (hp : 0 ≤ p) (hp2 : p ≤ INT_MAX - 31)
    {fuel : Nat} {status : Malloc_Status} {st' : State}
    (h : smalloc fuel p st = some (none, status, st')) :
    st' = st ∧ status = ⟨0, -1, -1⟩ ∧ ∀ x ∈ freeOf T, x.2 < roundUp8 p + 24 := by
  have h' := smalloc_mono h (Nat.le_add_right fuel ((freeOf T).length + 1))
  by_cases hfit : ∃ x ∈ freeOf T, roundUp8 p + 24 ≤ x.2
  · obtain ⟨l1, c, l2, hF, hs, hc⟩ := exists_first_fit _ _ hfit
    have ok : FreeListOK R st (l1 ++ c :: l2) := hF ▸ inv.fl
    rw [smalloc_takes ok hp hp2 hs hc (by rw [hF]; simp; omega)] at h'
    simp at h'
  · have hs : ∀ x ∈ freeOf T, x.2 < roundUp8 p + 24 := by
      intro x hx
      by_contra hcon
      exact hfit ⟨x, hx, by omega⟩
    rw [smalloc_none_ok inv.fl hp hp2 hs (by omega)] at h'
    simp only [Option.some.injEq, Prod.mk.injEq, true_and] at h'
    exact ⟨h'.2.symm, h'.1.symm, hs⟩

theorem Inv.alloc {R : Int} {st : State} {T : List Blk} {outs : List Int}
    (inv : Inv R st T outs) {p : Int} (hp : 0 ≤ p) (hp2 : p ≤ INT_MAX - 31)
    {fuel : Nat} {q : Int} {status : Malloc_Status} {st' : State}
    (h : smalloc fuel p st = some (some q, status, st')) :
    ∃ T', Inv R st' T' (q :: outs) := by
  have h' := smalloc_mono h (Nat.le_add_right fuel ((freeOf T).length + 1))
  have hr := roundUp8_ge hp
  by_cases hfit : ∃ x ∈ freeOf T, roundUp8 p + 24 ≤ x.2
  swap
  · have hs : ∀ x ∈ freeOf T, x.2 < roundUp8 p + 24 := by
      intro x hx
      by_contra hcon
      exact hfit ⟨x, hx, by omega⟩
    rw [smalloc_none_ok inv.fl hp hp2 hs (by omega)] at h'
    simp at h'
  obtain ⟨l1, c, l2, hF, hs, hc⟩ := exists_first_fit _ _ hfit
  obtain ⟨T1, T2, hT, e1, e2⟩ := freeOf_split T l1 l2 c hF
  subst hT e1 e2
  have ok : FreeListOK R st (freeOf T1 ++ c :: freeOf T2) := hF ▸ inv.fl
  have hlen : (freeOf T1).length < fuel + ((freeOf (T1 ++ ⟨c.1, c.2, true⟩ :: T2)).length + 1) := by
    rw [hF]; simp; omega
  obtain ⟨t1, t2, t3, t4⟩ := Tiled_split.mp inv.tiled
  simp only at t1 t2 t3 t4
  have b1 := t1.bounds.2.2
  have s1 := t1.size_ok
  have b2 := t4.bounds.2.2
  have s2 := t4.size_ok
  obtain ⟨ch1, ch2, cl, chd⟩ := (chain_free_mid T1 T2 rfl).mp inv.coalesced
  have hout : ∀ q', q' ∈ outs ↔ ∃ b, (b ∈ T1 ∨ b ∈ T2) ∧ b.free = false ∧ q' = b.addr + 24 := by
    intro q'
    rw [inv.outs_iff]
    constructor
    · rintro ⟨b, hb, hf, rfl⟩
      rcases List.mem_append.mp hb with hb | hb
      · exact ⟨b, Or.inl hb, hf, rfl⟩
      · rcases List.mem_cons.mp hb with hb | hb
        · subst hb; cases hf
        · exact ⟨b, Or.inr hb, hf, rfl⟩
    · rintro ⟨b, hb | hb, hf, rfl⟩
      · exact ⟨b, by simp [hb], hf, rfl⟩
      · exact ⟨b, by simp [hb], hf, rfl⟩
  have hnew : c.1 + 24 ∉ outs := by
    intro hmem
    obtain ⟨b, hb | hb, _, e⟩ := (hout _).mp hmem
    · have := b1 b hb; have := s1 b hb; omega
    · have := b2 b hb; omega
  have hdr1 : ∀ b ∈ T1, b.free = false →
      (st.mem b.addr).size = b.size ∧ (st.mem b.addr).allocated = 1 :=
    fun b hb => inv.hdr b (by simp [hb])
  have hdr2 : ∀ b ∈ T2, b.free = false →
      (st.mem b.addr).size = b.size ∧ (st.mem b.addr).allocated = 1 :=
    fun b hb => inv.hdr b (by simp [hb])
  by_cases hsplit : roundUp8 p + 24 + 24 ≤ c.2
  · obtain ⟨st2, hsm, ok', hsz, hal, hfr⟩ := smalloc_split_ok ok hp hp2 hs hsplit hlen
    rw [hsm] at h'
    simp only [Option.some.injEq, Prod.mk.injEq] at h'
    obtain ⟨hq, -, hst⟩ := h'
    subst hq hst
    refine ⟨T1 ++ ⟨c.1, roundUp8 p + 24, false⟩ ::
      ⟨c.1 + (roundUp8 p + 24), c.2 - (roundUp8 p + 24), true⟩ :: T2, ?_, ?_, ?_, ?_, ?_, ?_⟩
    · refine Tiled_split.mpr ⟨t1, by simp only; omega, by simp only; omega, ?_⟩
      refine ⟨rfl, by simp only; omega, by simp only; omega, ?_⟩
      have e : c.1 + (roundUp8 p + 24) + (c.2 - (roundUp8 p + 24)) = c.1 + c.2 := by omega
      simp only [e]
      exact t4
    · intro b hb hf
      simp only [List.mem_append, List.mem_cons] at hb
      rcases hb with hb | rfl | rfl | hb
      · have := b1 b hb; have := s1 b hb
        have := hfr b.addr (by omega) (by omega)
        rw [this.1, this.2]; exact hdr1 b hb hf
      · exact ⟨hsz, hal⟩
      · cases hf
      · have := b2 b hb
        have := hfr b.addr (by omega) (by omega)
        rw [this.1, this.2]; exact hdr2 b hb hf
    · have e : freeOf (T1 ++ ⟨c.1, roundUp8 p + 24, false⟩ ::
          ⟨c.1 + (roundUp8 p + 24), c.2 - (roundUp8 p + 24), true⟩ :: T2) =
          freeOf T1 ++ (c.1 + (roundUp8 p + 24), c.2 - (roundUp8 p + 24)) :: freeOf T2 := by
        rw [freeOf_append, freeOf_cons_used rfl, freeOf_cons_free rfl]
      rw [e]; exact ok'
    · refine (chain_used_mid T1 _ rfl).mpr ⟨ch1, ?_⟩
      exact (chain_free_mid [] T2 rfl).mpr ⟨List.chain'_nil, ch2, by simp, chd⟩
    · exact List.nodup_cons.mpr ⟨hnew, inv.outs_nodup⟩
    · intro q'
      simp only [List.mem_cons, List.mem_append, hout]
      constructor
      · rintro (rfl | ⟨b, hb | hb, hf, rfl⟩)
        · exact ⟨_, Or.inr (Or.inl rfl), rfl, rfl⟩
        · exact ⟨b, Or.inl hb, hf, rfl⟩
        · exact ⟨b, Or.inr (Or.inr (Or.inr hb)), hf, rfl⟩
      · rintro ⟨b, hb | rfl | rfl | hb, hf, rfl⟩
        · exact Or.inr ⟨b, Or.inl hb, hf, rfl⟩
        · exact Or.inl rfl
        · cases hf
        · exact Or.inr ⟨b, Or.inr hb, hf, rfl⟩
  · obtain ⟨st2, hsm, ok', hsz, hal, hfr⟩ :=
      smalloc_whole_ok ok hp hp2 hs hc (by omega) hlen
    rw [hsm] at h'
    simp only [Option.some.injEq, Prod.mk.injEq] at h'
    obtain ⟨hq, -, hst⟩ := h'
    subst hq hst
    refine ⟨T1 ++ ⟨c.1, c.2, false⟩ :: T2, ?_, ?_, ?_, ?_, ?_, ?_⟩
    · exact Tiled_split.mpr ⟨t1, t2, t3, t4⟩
    · intro b hb hf
      simp only [List.mem_append, List.mem_cons] at hb
      rcases hb with hb | rfl | hb
      · have := b1 b hb; have := s1 b hb
        have := hfr b.addr (by omega)
        rw [this.1, this.2]; exact hdr1 b hb hf
      · exact ⟨hsz, hal⟩
      · have := b2 b hb
        have := hfr b.addr (by omega)
        rw [this.1, this.2]; exact hdr2 b hb hf
    · have e : freeOf (T1 ++ ⟨c.1, c.2, false⟩ :: T2) = freeOf T1 ++ freeOf T2 := by
        rw [freeOf_append, freeOf_cons_used rfl]
      rw [e]; exact ok'
    · exact (chain_used_mid T1 _ rfl).mpr ⟨ch1, ch2⟩
    · exact List.nodup_cons.mpr ⟨hnew, inv.outs_nodup⟩
    · intro q'
      simp only [List.mem_cons, List.mem_append, hout]
      constructor
      · rintro (rfl | ⟨b, hb | hb, hf, rfl⟩)
        · exact ⟨_, Or.inr (Or.inl rfl), rfl, rfl⟩
        · exact ⟨b, Or.inl hb, hf, rfl⟩
        · exact ⟨b, Or.inr (Or.inr hb), hf, rfl⟩
      · rintro ⟨b, hb | rfl | hb, hf, rfl⟩
        · exact Or.inr ⟨b, Or.inl hb, hf, rfl⟩
        · exact Or.inl rfl
        · exact Or.inr ⟨b, Or.inr hb, hf, rfl⟩


/-! ## Coalescing on the tiling -/

theorem Tiled.addr_inj {a e : Int} {T : List Blk} (h : Tiled a e T) :
    ∀ x ∈ T, ∀ y ∈ T, x.addr = y.addr → x = y := by
  induction T generalizing a with
  | nil => simp
  | cons b t ih =>
    obtain ⟨h1, h2, h3, h4⟩ := h
    have bd := h4.bounds.2.2
    intro x hx y hy hxy
    rcases List.mem_cons.mp hx with ex | hx' <;> rcases List.mem_cons.mp hy with ey | hy'
    · rw [ex, ey]
    · have := bd y hy'; rw [ex] at hxy; omega
    · have := bd x hx'; rw [ey] at hxy; omega
    · exact ih h4 x hx' y hy' hxy

theorem snocMerge_of_ne {l : List (Int × Int)} {e : Int × Int}
    (h : ∀ x ∈ l, e.1 ≠ x.1 + x.2) : snocMerge l e = l ++ [e] := by
  by_cases hl : l = []
  · subst hl; rfl
  · obtain ⟨t, x, rfl⟩ := exists_snoc l hl
    rw [snocMerge_snoc, if_neg (h x (by simp))]
    simp

theorem mergeNext_of_ne {l : List (Int × Int)} {e : Int × Int}
    (h : ∀ x ∈ l, x.1 ≠ e.1 + e.2) : mergeNext e l = (e, l) := by
  cases l with
  | nil => rfl
  | cons y t =>
    simp only [mergeNext]
    rw [if_neg (h y (by simp))]

/-- Forward coalescing seen on the tiling: the free block `e` followed by the blocks `T2`. -/
theorem tiling_mergeNext {R : Int} {e : Blk} {T2 : List Blk}
    (h24 : 24 ≤ e.size) (h8 : e.size % 8 = 0)
    (t : Tiled (e.addr + e.size) R T2)
    (ch : T2.Chain' (fun x y => ¬ (x.free = true ∧ y.free = true))) :
    ∃ s' T2', 24 ≤ s' ∧ s' % 8 = 0 ∧ Tiled (e.addr + s') R T2' ∧
      T2'.Chain' (fun x y => ¬ (x.free = true ∧ y.free = true)) ∧
      (∀ y ∈ T2'.head?, y.free = false) ∧
      mergeNext (e.addr, e.size) (freeOf T2) = ((e.addr, s'), freeOf T2') ∧
      (∀ x, x.free = false → (x ∈ T2' ↔ x ∈ T2)) := by
  cases T2 with
  | nil => exact ⟨e.size, [], h24, h8, t, ch, by simp, rfl, fun _ _ => Iff.rfl⟩
  | cons y T2b =>
    obtain ⟨t1, t2, t3, t4⟩ := t
    by_cases hy : y.free = true
    · have chh := (chain_free_mid [] T2b hy).mp ch
      refine ⟨e.size + y.size, T2b, by omega, by omega, ?_, chh.2.1, chh.2.2.2, ?_, ?_⟩
      · have e1 : e.addr + (e.size + y.size) = e.addr + e.size + y.size := by omega
        rw [e1]; exact t4
      · rw [freeOf_cons_free hy]
        simp [mergeNext, t1]
      · intro x hx
        constructor
        · intro h; exact List.mem_cons_of_mem _ h
        · intro h
          rcases List.mem_cons.mp h with rfl | h
          · rw [hy] at hx; cases hx
          · exact h
    · have hy' : y.free = false := by simpa using hy
      refine ⟨e.size, y :: T2b, h24, h8, ⟨t1, t2, t3, t4⟩, ch, by simp [hy'], ?_,
        fun _ _ => Iff.rfl⟩
      rw [freeOf_cons_used hy']
      apply mergeNext_of_ne
      intro x hx
      obtain ⟨b, hb, _, rfl⟩ := mem_freeOf hx
      have := t4.bounds.2.2 b hb
      simp only
      omega

/-- Backward coalescing seen on the tiling: the blocks `T1` followed by the free block `e`. -/
theorem tiling_snocMerge {a : Int} {e : Blk} {T1 : List Blk}
    (h24 : 24 ≤ e.size) (h8 : e.size % 8 = 0) (hf : e.free = true)
    (t : Tiled a e.addr T1)
    (ch : T1.Chain' (fun x y => ¬ (x.free = true ∧ y.free = true))) :
    ∃ T1', Tiled a (e.addr + e.size) T1' ∧
      T1'.Chain' (fun x y => ¬ (x.free = true ∧ y.free = true)) ∧
      freeOf T1' = snocMerge (freeOf T1) (e.addr, e.size) ∧
      (∀ x, x.free = false → (x ∈ T1' ↔ x ∈ T1)) := by
  by_cases hl : T1 = []
  · subst hl
    have : a = e.addr := t
    subst this
    refine ⟨[e], ⟨rfl, h24, h8, rfl⟩, List.chain'_singleton _, ?_, ?_⟩
    · rw [freeOf_cons_free hf]; rfl
    · intro x hx
      simp only [List.mem_singleton, List.not_mem_nil, iff_false]
      rintro rfl
      rw [hf] at hx; cases hx
  · obtain ⟨T1a, L, rfl⟩ := exists_snoc T1 hl
    obtain ⟨t1, t2, t3, t4⟩ := Tiled_split.mp t
    have t4' : L.addr + L.size = e.addr := t4
    by_cases hL : L.free = true
    · have chh := (chain_free_mid T1a [] hL).mp ch
      refine ⟨T1a ++ [⟨L.addr, L.size + e.size, true⟩], ?_, ?_, ?_, ?_⟩
      · refine Tiled_split.mpr ⟨t1, by simp only; omega, by simp only; omega, ?_⟩
        show L.addr + (L.size + e.size) = e.addr + e.size
        omega
      · exact (chain_free_mid T1a [] rfl).mpr ⟨chh.1, List.chain'_nil, chh.2.2.1, by simp⟩
      · rw [freeOf_append, freeOf_append, freeOf_cons_free hL, freeOf_cons_free rfl,
          show freeOf [] = [] from rfl, snocMerge_snoc]
        simp only [t4', if_true]
      · intro x hx
        simp only [List.mem_append, List.mem_singleton]
        constructor
        · rintro (h | rfl)
          · exact Or.inl h
          · cases hx
        · rintro (h | rfl)
          · exact Or.inl h
          · rw [hL] at hx; cases hx
    · have hL' : L.free = false := by simpa using hL
      have chh := (chain_used_mid T1a [] hL').mp ch
      refine ⟨T1a ++ L :: [e], ?_, ?_, ?_, ?_⟩
      · refine Tiled_split.mpr ⟨t1, t2, t3, ⟨t4'.symm, h24, h8, ?_⟩⟩
        show L.addr + L.size + e.size = e.addr + e.size
        omega
      · exact (chain_used_mid T1a [e] hL').mpr ⟨chh.1, List.chain'_singleton _⟩
      · rw [freeOf_append, freeOf_append, freeOf_cons_used hL', freeOf_cons_used hL',
          freeOf_cons_free hf, show freeOf [] = [] from rfl, List.append_nil]
        symm
        apply snocMerge_of_ne
        intro x hx
        obtain ⟨b, hb, _, rfl⟩ := mem_freeOf hx
        have := t1.bounds.2.2 b hb
        simp only
        omega
      · intro x hx
        simp only [List.mem_append, List.mem_singleton, List.mem_cons, List.not_mem_nil, or_false]
        constructor
        · rintro (h | rfl | rfl)
          · exact Or.inl h
          · exact Or.inr rfl
          · rw [hf] at hx; cases hx
        · rintro (h | rfl)
          · exact Or.inl h
          · exact Or.inr (Or.inl rfl)


/-! ## The invariant is preserved by `sfree` -/

theorem Inv.free {R : Int} {st : State} {T : List Blk} {outs : List Int}
    (inv : Inv R st T outs) {q : Int} (hq : q ∈ outs)
    {fuel : Nat} {st' : State} (h : sfree fuel (some q) st = some st') :
    ∃ T', Inv R st' T' (outs.erase q) := by
  obtain ⟨b, hbT, hbf, rfl⟩ := (inv.outs_iff q).mp hq
  obtain ⟨T1, T2, rfl⟩ := List.append_of_mem hbT
  obtain ⟨t1, t2, t3, t4⟩ := Tiled_split.mp inv.tiled
  obtain ⟨hsz, hal⟩ := inv.hdr b hbT hbf
  have uniq := inv.tiled.addr_inj
  have b1 := t1.bounds.2.2
  have s1 := t1.size_ok
  have b2 := t4.bounds.2.2
  have hR := t4.bounds.1
  have h0 := t1.bounds.1
  obtain ⟨ch1, ch2⟩ := (chain_used_mid T1 T2 hbf).mp inv.coalesced
  have ok : FreeListOK R st (freeOf T1 ++ freeOf T2) := by
    have := inv.fl
    rwa [freeOf_append, freeOf_cons_used hbf] at this
  have h1 : ∀ x ∈ freeOf T1, x.1 + x.2 ≤ b.addr := by
    intro x hx
    obtain ⟨y, hy, _, rfl⟩ := mem_freeOf hx
    exact (b1 y hy).2.1
  have h2 : ∀ y ∈ freeOf T2, b.addr + (st.mem b.addr).size ≤ y.1 := by
    intro x hx
    obtain ⟨y, hy, _, rfl⟩ := mem_freeOf hx
    rw [hsz]
    exact (b2 y hy).1
  obtain ⟨st2, hs2, ok2, fa, fs⟩ := sfree_ok ok
    (by rw [hsz]; exact ⟨h0, by omega, by omega⟩) h1 h2
    (show (freeOf T1 ++ freeOf T2).length < (freeOf T1 ++ freeOf T2).length + (fuel + 1) by omega)
  have h' := sfree_mono h (show fuel ≤ (freeOf T1 ++ freeOf T2).length + (fuel + 1) by omega)
  rw [hs2] at h'
  simp only [Option.some.injEq] at h'
  subst h'
  rw [hsz] at ok2
  -- the tiling afterwards
  obtain ⟨s', T2', n24, n8, nt, nch, nhd, nmerge, nmem⟩ := tiling_mergeNext t2 t3 t4 ch2
  obtain ⟨T1', pt, pch, pfree, pmem⟩ :=
    @tiling_snocMerge 0 ⟨b.addr, s', true⟩ T1 n24 n8 rfl t1 ch1
  have hlastfree : freeOf (T1' ++ T2') = freeInto (freeOf T1) (b.addr, b.size) (freeOf T2) := by
    rw [freeOf_append, pfree]
    unfold freeInto
    rw [nmerge]
  have hused : ∀ x, x.free = false → (x ∈ T1' ++ T2' ↔ x ∈ T1 ∨ x ∈ T2) := by
    intro x hx
    rw [List.mem_append, pmem x hx, nmem x hx]
  refine ⟨T1' ++ T2', ?_, ?_, ?_, ?_, ?_, ?_⟩
  · exact (Tiled_append _ _ _ _).mpr ⟨_, pt, nt⟩
  · intro x hx hxf
    have hx' := (hused x hxf).mp hx
    have hxT : x ∈ T1 ++ b :: T2 := by
      rcases hx' with h | h
      · simp [h]
      · simp [h]
    have hne : x.addr ≠ b.addr := by
      rcases hx' with h | h
      · have := b1 x h; have := s1 x h; omega
      · have := b2 x h; omega
    obtain ⟨hs, ha⟩ := inv.hdr x hxT hxf
    rw [fa, if_neg hne, fs x.addr hne ?_]
    · exact ⟨hs, ha⟩
    · intro y hy e
      obtain ⟨z, hz, hzf, rfl⟩ := mem_freeOf hy
      have := uniq x hxT z (by simp [hz]) e
      subst this
      rw [hxf] at hzf; cases hzf
  · rw [hlastfree]; exact ok2
  · refine List.chain'_append.mpr ⟨pch, nch, ?_⟩
    intro x _ y hy hxy
    have := nhd y hy
    rw [this] at hxy
    exact absurd hxy.2 (by simp)
  · exact inv.outs_nodup.erase _
  · intro q'
    rw [inv.outs_nodup.mem_erase_iff, inv.outs_iff]
    constructor
    · rintro ⟨hne, x, hx, hxf, rfl⟩
      refine ⟨x, (hused x hxf).mpr ?_, hxf, rfl⟩
      rcases List.mem_append.mp hx with h | h
      · exact Or.inl h
      · rcases List.mem_cons.mp h with h | h
        · subst h; exact absurd rfl hne
        · exact Or.inr h
    · rintro ⟨x, hx, hxf, rfl⟩
      have hx' := (hused x hxf).mp hx
      refine ⟨?_, x, ?_, hxf, rfl⟩
      · rcases hx' with h | h
        · have := b1 x h; have := s1 x h; omega
        · have := b2 x h; omega
      · rcases hx' with h | h
        · simp [h]
        · simp [h]

/-! ## Reachable states -/

theorem sfree_null (fuel : Nat) (st : State) : sfree fuel none st = some st := rfl

/-- Every reachable state satisfies the allocator invariant. -/
theorem reach_inv {n : Int} {st : State} {outs : List Int} (h : Reach n st outs) :
    ∃ T, Inv (roundRegion n) st T outs := by
  induction h with
  | init h1 h2 hi => exact ⟨_, my_init_inv (by unfold INT_MIN; omega) h2 hi⟩
  | alloc _ hp hp2 hs ih =>
    obtain ⟨T, inv⟩ := ih
    exact inv.alloc hp hp2 hs
  | alloc_fail _ hp hp2 hs ih =>
    obtain ⟨T, inv⟩ := ih
    obtain ⟨e, _, _⟩ := inv.alloc_fail hp hp2 hs
    subst e
    exact ⟨T, inv⟩
  | free_null _ hs ih =>
    rw [sfree_null] at hs
    simp only [Option.some.injEq] at hs
    subst hs
    exact ih
  | free _ hq hs ih =>
    obtain ⟨T, inv⟩ := ih
    exact inv.free hq hs

theorem reach_region {n : Int} {st : State} {outs : List Int} (h : Reach n st outs) :
    1 ≤ n ∧ n ≤ INT_MAX - 4095 ∧ roundRegion n = roundUpPage n := by
  induction h with
  | init h1 h2 hi =>
    obtain ⟨_, hpos, _, _⟩ := my_init_state hi
    obtain ⟨e, _, _, hn⟩ := roundRegion_ok h1 h2 hpos
    exact ⟨h1, hn, e⟩
  | alloc _ _ _ _ ih => exact ih
  | alloc_fail _ _ _ _ ih => exact ih
  | free_null _ _ ih => exact ih
  | free _ _ _ ih => exact ih


/-! ## Derived facts about the invariant -/

/-- In a coalesced tiling each free block ends strictly before the next free block starts. -/
theorem freeOf_apart {a e : Int} {T : List Blk} (t : Tiled a e T)
    (ch : T.Chain' (fun x y => ¬ (x.free = true ∧ y.free = true))) :
    (freeOf T).Chain' (fun x y => x.1 < y.1 ∧ x.1 + x.2 < y.1) := by
  induction T generalizing a with
  | nil => exact List.chain'_nil
  | cons b T ih =>
    obtain ⟨t1, t2, t3, t4⟩ := t
    by_cases hb : b.free = true
    · have chh := (chain_free_mid [] T hb).mp ch
      rw [freeOf_cons_free hb]
      refine List.chain'_cons'.mpr ⟨?_, ih t4 chh.2.1⟩
      intro y hy
      have hy' : y ∈ freeOf T := List.mem_of_mem_head? hy
      cases T with
      | nil => simp [freeOf] at hy'
      | cons u T' =>
        have hu : u.free = false := chh.2.2.2 u rfl
        rw [freeOf_cons_used hu] at hy'
        obtain ⟨z, hz, _, rfl⟩ := mem_freeOf hy'
        obtain ⟨u1, u2, u3, u4⟩ := t4
        have := u4.bounds.2.2 z hz
        simp only
        omega
    · have hb' : b.free = false := by simpa using hb
      have chh := (chain_used_mid [] T hb').mp ch
      rw [freeOf_cons_used hb']
      exact ih t4 chh.2

theorem Inv.size_at {R : Int} {st : State} {T : List Blk} {outs : List Int}
    (inv : Inv R st T outs) : ∀ b ∈ T, (st.mem b.addr).size = b.size := by
  intro b hb
  by_cases hf : b.free = true
  · have : (b.addr, b.size) ∈ freeOf T := by
      simp only [freeOf, List.mem_map, List.mem_filter]
      exact ⟨b, ⟨hb, hf⟩, rfl⟩
    exact inv.fl.size_eq _ this
  · exact (inv.hdr b hb (by simpa using hf)).1

theorem Tiled.blocksFrom {m : Int → Block} {a e : Int} {T : List Blk} (t : Tiled a e T)
    (hs : ∀ b ∈ T, (m b.addr).size = b.size) :
    blocksFrom m e (T.length + 1) a = some (T.map Blk.addr) ∧
      a + ((T.map Blk.addr).map (fun x => (m x).size)).sum = e := by
  induction T generalizing a with
  | nil =>
    have : a = e := t
    subst this
    simp [Smalloc.blocksFrom]
  | cons b T ih =>
    obtain ⟨t1, t2, t3, t4⟩ := t
    have hne : a ≠ e := by have := t4.bounds.1; omega
    have hb := hs b (by simp)
    obtain ⟨i1, i2⟩ := ih t4 (fun x hx => hs x (List.mem_cons_of_mem _ hx))
    subst t1
    refine ⟨?_, ?_⟩
    · show (if b.addr = e then some [] else
        (Smalloc.blocksFrom m e (T.length + 1) (b.addr + (m b.addr).size)).map
          (fun t => b.addr :: t)) = _
      rw [if_neg hne, hb, i1]
      rfl
    · simp only [List.map_cons, List.sum_cons, hb]
      omega


/-! ## The claims of the specification -/

/-- C1. Free-list ordering invariant: in every state reachable from a successful
`my_init n` with `n ≥ 1` by `smalloc` calls (payload size non-negative, block
size not overflowing) and `sfree` calls (on `NULL` or an outstanding pointer),
the free list read from `head` through `next` ends, its addresses are strictly
increasing, and no entry ends exactly where the following entry begins. -/
theorem free_list_ascending (n : Int) (st : State) (outs : List Int) (h : Reach n st outs) :
    ∃ F : List Int, walkNext st.mem (F.length + 1) st.head = some F ∧
      F.Chain' (fun a b => a < b ∧ a + (st.mem a).size ≠ b) := by
  obtain ⟨T, inv⟩ := reach_inv h
  refine ⟨(freeOf T).map Prod.fst, ?_, ?_⟩
  · rw [inv.fl.head_eq]
    exact inv.fl.linked.walkNext _ (by omega)
  · rw [List.chain'_map]
    refine (List.Chain'.iff_mem.mp (freeOf_apart inv.tiled inv.coalesced)).imp ?_
    rintro x y ⟨hx, _, h1, h2⟩
    rw [inv.fl.size_eq x hx]
    exact ⟨h1, by omega⟩

theorem reach_example :
    Reach 4096 (afterFree 24 (afterAlloc 16 (afterAlloc 16 freshPage))) [64] :=
  @Reach.free 4096 (afterAlloc 16 (afterAlloc 16 freshPage)) _ [64, 24] 16 24
    (@Reach.alloc 4096 (afterAlloc 16 freshPage) _ [24] 16 16 64 ⟨1, 64, 0⟩
      (@Reach.alloc 4096 freshPage _ [] 16 16 24 ⟨1, 24, 0⟩
        (@Reach.init 4096 ⟨zeroMem, none⟩ freshPage true (by decide) (by decide) rfl)
        (by decide) (by decide) rfl)
      (by decide) (by decide) rfl)
    (by decide) rfl

theorem free_list_ascending_witness :
    Reach 4096 (afterFree 24 (afterAlloc 16 (afterAlloc 16 freshPage))) [64] ∧
    walkNext (afterFree 24 (afterAlloc 16 (afterAlloc 16 freshPage))).mem 3
      (afterFree 24 (afterAlloc 16 (afterAlloc 16 freshPage))).head = some [0, 80] ∧
    ∃ F : List Int,
      walkNext (afterFree 24 (afterAlloc 16 (afterAlloc 16 freshPage))).mem (F.length + 1)
        (afterFree 24 (afterAlloc 16 (afterAlloc 16 freshPage))).head = some F ∧
      F.Chain' (fun a b => a < b ∧
        a + ((afterFree 24 (afterAlloc 16 (afterAlloc 16 freshPage))).mem a).size ≠ b) :=
  ⟨reach_example, by decide, free_list_ascending 4096 _ [64] reach_example⟩

/-- C2. Tiling and size conservation: in every reachable state, stepping from
region offset 0 by each block's size field reaches the rounded region size
exactly; every block met has a positive size, so the blocks neither overlap
nor leave a gap, and their sizes add up to the rounded region size, which is
the request rounded up to a whole number of pages. -/
theorem tiling_conserved (n : Int) (st : State) (outs : List Int) (h : Reach n st outs) :
    ∃ B : List Int, blocksFrom st.mem (roundRegion n) (B.length + 1) 0 = some B ∧
      (∀ a ∈ B, 0 < (st.mem a).size) ∧
      (B.map (fun a => (st.mem a).size)).sum = roundRegion n ∧
      roundRegion n = roundUpPage n := by
  obtain ⟨T, inv⟩ := reach_inv h
  obtain ⟨b1, b2⟩ := inv.tiled.blocksFrom inv.size_at
  refine ⟨T.map Blk.addr, ?_, ?_, by omega, (reach_region h).2.2⟩
  · rw [List.length_map]; exact b1
  · intro a ha
    obtain ⟨b, hb, rfl⟩ := List.mem_map.mp ha
    rw [inv.size_at b hb]
    have := (inv.tiled.size_ok b hb).1
    omega

theorem tiling_conserved_witness :
    blocksFrom (afterFree 24 (afterAlloc 16 (afterAlloc 16 freshPage))).mem 4096 4 0 =
      some [0, 40, 80] ∧
    ∃ B : List Int,
      blocksFrom (afterFree 24 (afterAlloc 16 (afterAlloc 16 freshPage))).mem
        (roundRegion 4096) (B.length + 1) 0 = some B ∧
      (∀ a ∈ B, 0 < ((afterFree 24 (afterAlloc 16 (afterAlloc 16 freshPage))).mem a).size) ∧
      (B.map (fun a =>
        ((afterFree 24 (afterAlloc 16 (afterAlloc 16 freshPage))).mem a).size)).sum =
          roundRegion 4096 ∧
      roundRegion 4096 = roundUpPage 4096 :=
  ⟨by decide, tiling_conserved 4096 _ [64] reach_example⟩


/-- C3. First fit: on a well-formed free list `F`, for a payload size `p ≥ 0`
whose block size `r = roundUp8 p + 24` does not overflow, if some entry has
size at least `r` then `smalloc` succeeds on the first such entry `c` in list
order: every entry before it is smaller than `r`, `hops` is the number of
entries before it, `success` is 1, the pointer returned and `payload_offset`
are `c`'s start plus 24, and `c` is marked allocated. -/
theorem smalloc_first_fit (R : Int) (st : State) (F : List (Int × Int)) (p : Int) (fuel : Nat)
    (ok : FreeListOK R st F) (hp : 0 ≤ p) (hp2 : p ≤ INT_MAX - 31)
    (hfit : ∃ x ∈ F, roundUp8 p + 24 ≤ x.2) (hf : F.length < fuel) :
    blockSize p (padOf p) = roundUp8 p + 24 ∧
    ∃ l1 c l2 st', F = l1 ++ c :: l2 ∧ (∀ x ∈ l1, x.2 < roundUp8 p + 24) ∧
      roundUp8 p + 24 ≤ c.2 ∧
      smalloc fuel p st = some (some (c.1 + 24), ⟨1, c.1 + 24, l1.length⟩, st') ∧
      (st'.mem c.1).allocated = 1 := by
  refine ⟨blockSize_eq hp hp2, ?_⟩
  obtain ⟨l1, c, l2, hF, hs, hc⟩ := exists_first_fit _ _ hfit
  subst hF
  have hlen : l1.length < fuel := by
    simp only [List.length_append, List.length_cons] at hf
    omega
  by_cases hsplit : roundUp8 p + 24 + 24 ≤ c.2
  · obtain ⟨st', h1, _, _, h2, _⟩ := smalloc_split_ok ok hp hp2 hs hsplit hlen
    exact ⟨l1, c, l2, st', rfl, hs, hc, h1, h2⟩
  · obtain ⟨st', h1, _, _, h2, _⟩ := smalloc_whole_ok ok hp hp2 hs hc (by omega) hlen
    exact ⟨l1, c, l2, st', rfl, hs, hc, h1, h2⟩

theorem threeFree_ok : FreeListOK 4096 threeFree [(0, 16), (40, 64), (128, 32)] :=
  ⟨by decide, by decide, by decide, by decide, by decide, by decide, by decide⟩

theorem smalloc_first_fit_witness :
    roundUp8 16 + 24 = 40 ∧
    (smalloc 4 16 threeFree).map (fun r => (r.1, r.2.1)) = some (some 64, ⟨1, 64, 1⟩) ∧
    (blockSize 16 (padOf 16) = roundUp8 16 + 24 ∧
    ∃ l1 c l2 st', [(0, 16), (40, 64), (128, 32)] = l1 ++ c :: l2 ∧
      (∀ x ∈ l1, x.2 < roundUp8 16 + 24) ∧ roundUp8 16 + 24 ≤ c.2 ∧
      smalloc 4 16 threeFree = some (some (c.1 + 24), ⟨1, c.1 + 24, l1.length⟩, st') ∧
      (st'.mem c.1).allocated = 1) :=
  ⟨by decide, by decide,
    smalloc_first_fit 4096 threeFree [(0, 16), (40, 64), (128, 32)] 16 4 threeFree_ok
      (by decide) (by decide) ⟨(40, 64), by decide, by decide⟩ (by decide)⟩

/-- C4 (the code on the failing input). On a fresh one-page region, whose only
free block has 4096 bytes, the request `smalloc(INT_MAX)` exceeds every free
block, yet with 32-bit wrap-around the block size comes out negative and the
call reports success with payload offset 24. -/
theorem smalloc_overflow_accepts :
    FreeListOK 4096 freshPage [(0, 4096)] ∧
    (∀ x ∈ [((0 : Int), (4096 : Int))], x.2 < roundUp8 INT_MAX + 24) ∧
    blockSize INT_MAX (padOf INT_MAX) = -2147483624 ∧
    (smalloc 2 INT_MAX freshPage).map (fun r => (r.1, r.2.1)) =
      some (some 24, ⟨1, 24, 0⟩) :=
  ⟨⟨by decide, by decide, by decide, by decide, by decide, by decide, by decide⟩,
    by decide, by decide, by decide⟩


theorem FreeListOK.head_first {R : Int} {st : State} {l1 l2 : List (Int × Int)} {c : Int × Int}
    (ok : FreeListOK R st (l1 ++ c :: l2)) : st.head = some c.1 ↔ l1 = [] := by
  have hh := ok.head_eq
  constructor
  · intro h
    cases l1 with
    | nil => rfl
    | cons x t =>
      rw [h] at hh
      have e : x.1 = c.1 := by
        simp only [List.cons_append, List.map_cons, hdOr, Option.some.injEq] at hh
        exact hh.symm
      have := ok.at_entry.2.2.2.2.1 x (by simp)
      have := ok.inside x (by simp)
      omega
  · rintro rfl
    exact hh

theorem FreeListOK.join {R : Int} {st : State} {l1 l2 : List (Int × Int)}
    (ok : FreeListOK R st (l1 ++ l2)) :
    (∀ x, lastOr (l1.map Prod.fst) none = some x → (st.mem x).next = hdOr (l2.map Prod.fst) none) ∧
    (∀ y, hdOr (l2.map Prod.fst) none = some y → (st.mem y).prev = lastOr (l1.map Prod.fst) none) := by
  have hl := ok.linked
  rw [List.map_append, Linked_append] at hl
  exact ⟨fun x hx => hl.1.last_next hx, fun y hy => hl.2.first_prev hy⟩

/-- C5. Split policy: when the chosen free block `c` of size `s` leaves at least
24 bytes beyond the required size `r`, `smalloc` succeeds, `c` becomes an
allocated block of size exactly `r` at the same address, a new free block of
size `s - r` appears at `c + r`, the two sizes add up to `s`, the new block has
`c`'s former `prev` and `next` and becomes `head` exactly when `c` was `head`,
and the free list is the old one with `c` replaced by the new block. -/
theorem smalloc_split (R : Int) (st : State) (l1 l2 : List (Int × Int)) (c : Int × Int)
    (p : Int) (fuel : Nat)
    (ok : FreeListOK R st (l1 ++ c :: l2)) (hp : 0 ≤ p) (hp2 : p ≤ INT_MAX - 31)
    (hs : ∀ x ∈ l1, x.2 < roundUp8 p + 24) (hc : c.2 - (roundUp8 p + 24) ≥ 24)
    (hf : l1.length < fuel) :
    ∃ st', smalloc fuel p st = some (some (c.1 + 24), ⟨1, c.1 + 24, l1.length⟩, st') ∧
      (st'.mem c.1).size = roundUp8 p + 24 ∧ (st'.mem c.1).allocated = 1 ∧
      (st'.mem (c.1 + (roundUp8 p + 24))).size = c.2 - (roundUp8 p + 24) ∧
      (st'.mem (c.1 + (roundUp8 p + 24))).allocated = 0 ∧
      (st'.mem c.1).size + (st'.mem (c.1 + (roundUp8 p + 24))).size = c.2 ∧
      (st'.mem (c.1 + (roundUp8 p + 24))).prev = (st.mem c.1).prev ∧
      (st'.mem (c.1 + (roundUp8 p + 24))).next = (st.mem c.1).next ∧
      (st.head = some c.1 → st'.head = some (c.1 + (roundUp8 p + 24))) ∧
      (st.head ≠ some c.1 → st'.head = st.head) ∧
      FreeListOK R st' (l1 ++ (c.1 + (roundUp8 p + 24), c.2 - (roundUp8 p + 24)) :: l2) := by
  obtain ⟨st', h1, ok', hsz, hal, _⟩ := smalloc_split_ok ok hp hp2 hs (by omega) hf
  have hnsz := ok'.size_eq (c.1 + (roundUp8 p + 24), c.2 - (roundUp8 p + 24)) (by simp)
  have hnal := ok'.free (c.1 + (roundUp8 p + 24), c.2 - (roundUp8 p + 24)) (by simp)
  obtain ⟨hp', hn', _⟩ := ok'.at_entry
  obtain ⟨hpc, hnc, _⟩ := ok.at_entry
  simp only at hnsz hnal hp' hn'
  refine ⟨st', h1, hsz, hal, hnsz, hnal, by rw [hsz, hnsz]; omega, by rw [hp', hpc],
    by rw [hn', hnc], ?_, ?_, ok'⟩
  · intro hh
    exact ok'.head_first.mpr (ok.head_first.mp hh)
  · intro hh
    have hne : l1 ≠ [] := fun e => hh (ok.head_first.mpr e)
    rw [ok'.head_eq, ok.head_eq, List.map_append, List.map_append, hdOr_append, hdOr_append]
    cases l1 with
    | nil => exact absurd rfl hne
    | cons x t => rfl

theorem freshPage_ok : FreeListOK 4096 freshPage [(0, 4096)] :=
  ⟨by decide, by decide, by decide, by decide, by decide, by decide, by decide⟩

theorem smalloc_split_witness :
    ∃ st', smalloc 2 16 freshPage = some (some (0 + 24), ⟨1, 0 + 24, 0⟩, st') ∧
      (st'.mem 0).size = roundUp8 16 + 24 ∧ (st'.mem 0).allocated = 1 ∧
      (st'.mem (0 + (roundUp8 16 + 24))).size = 4096 - (roundUp8 16 + 24) ∧
      (st'.mem (0 + (roundUp8 16 + 24))).allocated = 0 ∧
      (st'.mem 0).size + (st'.mem (0 + (roundUp8 16 + 24))).size = 4096 ∧
      (st'.mem (0 + (roundUp8 16 + 24))).prev = (freshPage.mem 0).prev ∧
      (st'.mem (0 + (roundUp8 16 + 24))).next = (freshPage.mem 0).next ∧
      (freshPage.head = some 0 → st'.head = some (0 + (roundUp8 16 + 24))) ∧
      (freshPage.head ≠ some 0 → st'.head = freshPage.head) ∧
      FreeListOK 4096 st' ([] ++ (0 + (roundUp8 16 + 24), 4096 - (roundUp8 16 + 24)) :: []) :=
  smalloc_split 4096 freshPage [] [] (0, 4096) 16 2 freshPage_ok (by decide) (by decide)
    (by decide) (by decide) (by decide)

/-- C6. No-split padding: when the chosen free block `c` of size `s` leaves less
than 24 bytes beyond the required size `r`, `smalloc` succeeds, the allocated
block keeps the full size `s`, and the free list afterwards is the previous
list with `c` removed: `head` becomes `c`'s successor when `c` was first and is
unchanged otherwise, and `c`'s predecessor and successor point at each other. -/
theorem smalloc_no_split (R : Int) (st : State) (l1 l2 : List (Int × Int)) (c : Int × Int)
    (p : Int) (fuel : Nat)
    (ok : FreeListOK R st (l1 ++ c :: l2)) (hp : 0 ≤ p) (hp2 : p ≤ INT_MAX - 31)
    (hs : ∀ x ∈ l1, x.2 < roundUp8 p + 24) (hc : 0 ≤ c.2 - (roundUp8 p + 24))
    (hno : c.2 - (roundUp8 p + 24) < 24) (hf : l1.length < fuel) :
    ∃ st', smalloc fuel p st = some (some (c.1 + 24), ⟨1, c.1 + 24, l1.length⟩, st') ∧
      (st'.mem c.1).size = c.2 ∧ (st'.mem c.1).allocated = 1 ∧
      FreeListOK R st' (l1 ++ l2) ∧
      (st.head = some c.1 → st'.head = (st.mem c.1).next) ∧
      (st.head ≠ some c.1 → st'.head = st.head) ∧
      (∀ x, (st.mem c.1).prev = some x → (st'.mem x).next = (st.mem c.1).next) ∧
      (∀ y, (st.mem c.1).next = some y → (st'.mem y).prev = (st.mem c.1).prev) := by
  obtain ⟨st', h1, ok', hsz, hal, _⟩ := smalloc_whole_ok ok hp hp2 hs (by omega) (by omega) hf
  obtain ⟨hpc, hnc, _⟩ := ok.at_entry
  obtain ⟨j1, j2⟩ := ok'.join
  refine ⟨st', h1, hsz, hal, ok', ?_, ?_, ?_, ?_⟩
  · intro hh
    have e := ok.head_first.mp hh
    subst e
    rw [ok'.head_eq, hnc]
    rfl
  · intro hh
    have hne : l1 ≠ [] := fun e => hh (ok.head_first.mpr e)
    rw [ok'.head_eq, ok.head_eq, List.map_append, List.map_append, hdOr_append, hdOr_append]
    cases l1 with
    | nil => exact absurd rfl hne
    | cons x t => rfl
  · intro x hx
    rw [hnc]
    exact j1 x (by rw [← hpc]; exact hx)
  · intro y hy
    rw [hpc]
    exact j2 y (by rw [← hnc]; exact hy)

theorem smalloc_no_split_witness :
    (smalloc 4 40 threeFree).map (fun r => (r.1, r.2.1)) = some (some 64, ⟨1, 64, 1⟩) ∧
    ∃ st', smalloc 4 40 threeFree = some (some (40 + 24), ⟨1, 40 + 24, 1⟩, st') ∧
      (st'.mem 40).size = 64 ∧ (st'.mem 40).allocated = 1 ∧
      FreeListOK 4096 st' ([(0, 16)] ++ [(128, 32)]) ∧
      (threeFree.head = some 40 → st'.head = (threeFree.mem 40).next) ∧
      (threeFree.head ≠ some 40 → st'.head = threeFree.head) ∧
      (∀ x, (threeFree.mem 40).prev = some x → (st'.mem x).next = (threeFree.mem 40).next) ∧
      (∀ y, (threeFree.mem 40).next = some y → (st'.mem y).prev = (threeFree.mem 40).prev) :=
  ⟨by decide,
    smalloc_no_split 4096 threeFree [(0, 16)] [(128, 32)] (40, 64) 40 4 threeFree_ok
      (by decide) (by decide) (by decide) (by decide) (by decide) (by decide)⟩


/-- Freeing a block `b` between the consecutive entries `L`, which ends at `b`,
and `Rt`, which begins at `b`'s end. -/
theorem free_hemmed (R : Int) (st : State) (l1 l2 : List (Int × Int)) (L Rt : Int × Int)
    (b : Int) (fuel : Nat)
    (ok : FreeListOK R st (l1 ++ L :: Rt :: l2))
    (hs : 0 < (st.mem b).size)
    (hL : L.1 + L.2 = b) (hR : Rt.1 = b + (st.mem b).size)
    (hf : (l1 ++ L :: Rt :: l2).length < fuel) :
    ∃ st', sfree fuel (some (b + 24)) st = some st' ∧
      FreeListOK R st' (l1 ++ (L.1, L.2 + (st.mem b).size + Rt.2) :: l2) ∧
      (st'.mem L.1).size = L.2 + (st.mem b).size + Rt.2 ∧
      (st'.mem L.1).allocated = 0 ∧
      (st'.mem L.1).prev = (st.mem L.1).prev ∧
      (st'.mem L.1).next = (st.mem Rt.1).next ∧
      (l1 ++ (L.1, L.2 + (st.mem b).size + Rt.2) :: l2).length + 1 =
        (l1 ++ L :: Rt :: l2).length := by
  have ok0 : FreeListOK R st ((l1 ++ [L]) ++ Rt :: l2) := by simpa using ok
  have hinL := ok.inside L (by simp)
  have hinR := ok.inside Rt (by simp)
  obtain ⟨_, _, _, _, h1, h2, _⟩ := ok0.at_entry
  obtain ⟨st', hs', ok', _, _⟩ := @sfree_ok R st (l1 ++ [L]) (Rt :: l2) b ok0
    ⟨by omega, hs, by omega⟩
    (by
      intro x hx
      rcases List.mem_append.mp hx with h | h
      · have := h1 x (by simp [h])
        have := ok.inside x (by simp [h])
        have : x.1 + x.2 ≤ L.1 := ok.at_entry.2.2.2.2.1 x h
        omega
      · simp only [List.mem_singleton] at h
        subst h; omega)
    (by
      intro y hy
      rcases List.mem_cons.mp hy with h | h
      · subst h; omega
      · have := h2 y h
        have := ok.inside Rt (by simp)
        omega)
    fuel (by simpa using hf)
  have e : freeInto (l1 ++ [L]) (b, (st.mem b).size) (Rt :: l2) =
      l1 ++ (L.1, L.2 + (st.mem b).size + Rt.2) :: l2 := by
    unfold freeInto
    simp only [mergeNext, hR, if_true]
    rw [snocMerge_snoc]
    simp only [hL, if_true, List.append_assoc, List.singleton_append]
    congr 3
    omega
  rw [e] at ok'
  obtain ⟨hp', hn', _⟩ := ok'.at_entry
  obtain ⟨hpL, _, _⟩ := ok.at_entry
  have ok1 : FreeListOK R st ((l1 ++ [L]) ++ Rt :: l2) := ok0
  obtain ⟨_, hnR, _⟩ := ok1.at_entry
  simp only at hp' hn'
  refine ⟨st', hs', ok', ok'.size_eq (L.1, L.2 + (st.mem b).size + Rt.2) (by simp),
    ok'.free (L.1, L.2 + (st.mem b).size + Rt.2) (by simp), ?_, ?_, by simp; omega⟩
  · rw [hp', hpL]
  · rw [hn', hnR]

theorem hemmedIn_ok : FreeListOK 4096 hemmedIn [(0, 40), (80, 4016)] :=
  ⟨by decide, by decide, by decide, by decide, by decide, by decide, by decide⟩

/-- Freeing a block `b` between the entries `l1` below it and `l2` above it,
none of which touches it. -/
theorem free_between (R : Int) (st : State) (l1 l2 : List (Int × Int)) (b : Int) (fuel : Nat)
    (ok : FreeListOK R st (l1 ++ l2))
    (hb : 0 ≤ b ∧ 0 < (st.mem b).size ∧ b + (st.mem b).size ≤ R)
    (h1 : ∀ x ∈ l1, x.1 + x.2 ≤ b) (h2 : ∀ y ∈ l2, b + (st.mem b).size ≤ y.1)
    (hno1 : ∀ x ∈ l1 ++ l2, x.1 + x.2 ≠ b) (hno2 : ∀ x ∈ l1 ++ l2, x.1 ≠ b + (st.mem b).size)
    (hf : (l1 ++ l2).length < fuel) :
    ∃ st', sfree fuel (some (b + 24)) st = some st' ∧
      FreeListOK R st' (l1 ++ (b, (st.mem b).size) :: l2) ∧
      (st'.mem b).size = (st.mem b).size ∧ (st'.mem b).allocated = 0 ∧
      (l1 = [] → st'.head = some b) ∧ (l1 ≠ [] → st'.head = st.head) ∧
      (l2 = [] → (st'.mem b).next = none) ∧
      (l1 ++ (b, (st.mem b).size) :: l2).length = (l1 ++ l2).length + 1 := by
  obtain ⟨st', hs', ok', _, _⟩ := sfree_ok ok hb h1 h2 hf
  have e : freeInto l1 (b, (st.mem b).size) l2 = l1 ++ (b, (st.mem b).size) :: l2 := by
    unfold freeInto
    rw [mergeNext_of_ne (fun x hx => hno2 x (by simp [hx]))]
    simp only
    rw [snocMerge_of_ne (fun x hx => (hno1 x (by simp [hx])).symm)]
    simp
  rw [e] at ok'
  refine ⟨st', hs', ok', ok'.size_eq (b, (st.mem b).size) (by simp),
    ok'.free (b, (st.mem b).size) (by simp), ?_, ?_, ?_, by simp; omega⟩
  · rintro rfl
    exact ok'.head_eq
  · intro hne
    rw [ok'.head_eq, ok.head_eq, List.map_append, List.map_append, hdOr_append, hdOr_append]
    cases l1 with
    | nil => exact absurd rfl hne
    | cons x t => rfl
  · rintro rfl
    exact ok'.at_entry.2.1

theorem standsApart_ok : FreeListOK 4096 standsApart [(0, 40), (160, 3936)] :=
  ⟨by decide, by decide, by decide, by decide, by decide, by decide, by decide⟩

/-- An address-ordered list splits into the entries below `b` and those at or above it. -/
theorem split_at_addr (b : Int) : ∀ (F : List (Int × Int)),
    F.Pairwise (fun x y => x.1 + x.2 ≤ y.1) → (∀ x ∈ F, 0 < x.2) →
    ∃ l1 l2, F = l1 ++ l2 ∧ (∀ x ∈ l1, x.1 < b) ∧ (∀ y ∈ l2, b ≤ y.1)
  | [], _, _ => ⟨[], [], rfl, by simp, by simp⟩
  | x :: t, ho, hpos => by
    have ho' := List.pairwise_cons.mp ho
    by_cases hx : x.1 < b
    · obtain ⟨l1, l2, e, h1, h2⟩ := split_at_addr b t ho'.2
        (fun y hy => hpos y (List.mem_cons_of_mem _ hy))
      refine ⟨x :: l1, l2, by rw [e]; rfl, ?_, h2⟩
      intro y hy
      rcases List.mem_cons.mp hy with h | h
      · rw [h]; exact hx
      · exact h1 y h
    · refine ⟨[], x :: t, rfl, by simp, ?_⟩
      intro y hy
      rcases List.mem_cons.mp hy with h | h
      · rw [h]; omega
      · have := ho'.1 y h
        have := hpos x (by simp)
        omega

/-- Where a block that overlaps no entry sits in a well-formed free list. -/
theorem FreeListOK.around {R : Int} {st : State} {F : List (Int × Int)} (ok : FreeListOK R st F)
    {b s : Int} (hs : 0 < s) (hdisj : ∀ x ∈ F, x.1 + x.2 ≤ b ∨ b + s ≤ x.1) :
    ∃ l1 l2, F = l1 ++ l2 ∧ (∀ x ∈ l1, x.1 + x.2 ≤ b) ∧ (∀ y ∈ l2, b + s ≤ y.1) := by
  obtain ⟨l1, l2, e, h1, h2⟩ := split_at_addr b F ok.ordered (fun x hx => (ok.inside x hx).2.1)
  refine ⟨l1, l2, e, ?_, ?_⟩
  · intro x hx
    have := h1 x hx
    rcases hdisj x (by rw [e]; simp [hx]) with h | h
    · exact h
    · omega
  · intro y hy
    have := h2 y hy
    have := (ok.inside y (by rw [e]; simp [hy])).2.1
    rcases hdisj y (by rw [e]; simp [hy]) with h | h
    · omega
    · exact h

/-- C7. Three-way coalescing: in a well-formed state, let `b` be a block of
positive size that overlaps no free-list entry, `L` a free-list entry that ends
exactly at `b`'s start and `Rt` one that begins exactly at `b`'s end. Then `L`
and `Rt` are neighbours on the list, and `sfree` on `b`'s payload replaces `L`,
`b` and `Rt` by one free block at `L`'s address of size
`L.size + b.size + Rt.size`, in `L`'s list position (same `prev`) and followed
by `Rt`'s former successor; the other entries are unchanged and the list is one
entry shorter. -/
theorem sfree_merges_both (R : Int) (st : State) (F : List (Int × Int)) (L Rt : Int × Int)
    (b : Int) (fuel : Nat)
    (ok : FreeListOK R st F) (hLF : L ∈ F) (hRF : Rt ∈ F)
    (hs : 0 < (st.mem b).size)
    (hdisj : ∀ x ∈ F, x.1 + x.2 ≤ b ∨ b + (st.mem b).size ≤ x.1)
    (hL : L.1 + L.2 = b) (hR : Rt.1 = b + (st.mem b).size)
    (hf : F.length < fuel) :
    ∃ l1 l2 st', F = l1 ++ L :: Rt :: l2 ∧
      sfree fuel (some (b + 24)) st = some st' ∧
      FreeListOK R st' (l1 ++ (L.1, L.2 + (st.mem b).size + Rt.2) :: l2) ∧
      (st'.mem L.1).size = L.2 + (st.mem b).size + Rt.2 ∧
      (st'.mem L.1).allocated = 0 ∧
      (st'.mem L.1).prev = (st.mem L.1).prev ∧
      (st'.mem L.1).next = (st.mem Rt.1).next ∧
      (l1 ++ (L.1, L.2 + (st.mem b).size + Rt.2) :: l2).length + 1 = F.length := by
  obtain ⟨m1, m2, e, h1, h2⟩ := ok.around hs hdisj
  subst e
  have hin := ok.inside
  have ho := ok.ordered
  rw [List.pairwise_append] at ho
  obtain ⟨ho1, ho2, _⟩ := ho
  -- `L` is the last entry below `b`
  have hL1 : L ∈ m1 := by
    rcases List.mem_append.mp hLF with h | h
    · exact h
    · have := h2 L h; have := (hin L hLF).2.1; omega
  obtain ⟨l1, z, rfl⟩ := exists_snoc m1 (List.ne_nil_of_mem hL1)
  have hz : z = L := by
    rcases List.mem_append.mp hL1 with h | h
    · have hp := (List.pairwise_append.mp ho1).2.2 L h z (by simp)
      have := h1 z (by simp)
      have := (hin z (by simp)).2.1
      omega
    · exact (List.mem_singleton.mp h).symm
  subst hz
  -- `Rt` is the first entry above `b`
  have hR2 : Rt ∈ m2 := by
    rcases List.mem_append.mp hRF with h | h
    · have := h1 Rt h; have := (hin Rt hRF).2.1; omega
    · exact h
  obtain ⟨y, l2, rfl⟩ := List.exists_cons_of_ne_nil (List.ne_nil_of_mem hR2)
  have hy : y = Rt := by
    rcases List.mem_cons.mp hR2 with h | h
    · exact h.symm
    · have hp := (List.pairwise_cons.mp ho2).1 Rt h
      have := h2 y (by simp)
      have := (hin y (by simp)).2.1
      omega
  subst hy
  have ok' : FreeListOK R st (l1 ++ z :: y :: l2) := by simpa using ok
  obtain ⟨st', r1, r2, r3, r4, r5, r6, r7⟩ :=
    free_hemmed R st l1 l2 z y b fuel ok' hs hL hR (by simpa using hf)
  exact ⟨l1, l2, st', by simp, r1, r2, r3, r4, r5, r6, by simpa using r7⟩

theorem sfree_merges_both_witness :
    (hemmedIn.mem 40).allocated = 1 ∧
    ∃ l1 l2 st', [((0 : Int), (40 : Int)), (80, 4016)] = l1 ++ (0, 40) :: (80, 4016) :: l2 ∧
      sfree 3 (some (40 + 24)) hemmedIn = some st' ∧
      FreeListOK 4096 st' (l1 ++ (0, 40 + (hemmedIn.mem 40).size + 4016) :: l2) ∧
      (st'.mem 0).size = 40 + (hemmedIn.mem 40).size + 4016 ∧
      (st'.mem 0).allocated = 0 ∧
      (st'.mem 0).prev = (hemmedIn.mem 0).prev ∧
      (st'.mem 0).next = (hemmedIn.mem 80).next ∧
      (l1 ++ (0, 40 + (hemmedIn.mem 40).size + 4016) :: l2).length + 1 =
        [((0 : Int), (40 : Int)), (80, 4016)].length :=
  ⟨by decide,
    sfree_merges_both 4096 hemmedIn [(0, 40), (80, 4016)] (0, 40) (80, 4016) 40 3 hemmedIn_ok
      (by decide) (by decide) (by decide) (by decide) (by decide) (by decide) (by decide)⟩

/-- C8. Address-ordered insertion without merge: in a well-formed state, let `b`
be a block of positive size inside the region that overlaps no free-list
entry, with no entry ending at `b`'s start and none beginning at `b`'s end.
Then `sfree` on `b`'s payload yields the previous list with `b` (same address,
same size, `allocated = 0`) inserted after the entries `l1` below it and
before the entries `l2` above it, one entry longer, all other entries keeping
address and size; `b` becomes `head` when no entry lies below it (this covers
the empty list and `b` below the head), `head` is unchanged otherwise, and `b`
ends the list when no entry lies above it. -/
theorem sfree_inserts (R : Int) (st : State) (F : List (Int × Int)) (b : Int) (fuel : Nat)
    (ok : FreeListOK R st F)
    (hb : 0 ≤ b ∧ 0 < (st.mem b).size ∧ b + (st.mem b).size ≤ R)
    (hdisj : ∀ x ∈ F, x.1 + x.2 ≤ b ∨ b + (st.mem b).size ≤ x.1)
    (hno1 : ∀ x ∈ F, x.1 + x.2 ≠ b) (hno2 : ∀ x ∈ F, x.1 ≠ b + (st.mem b).size)
    (hf : F.length < fuel) :
    ∃ l1 l2 st', F = l1 ++ l2 ∧ (∀ x ∈ l1, x.1 < b) ∧ (∀ y ∈ l2, b < y.1) ∧
      sfree fuel (some (b + 24)) st = some st' ∧
      FreeListOK R st' (l1 ++ (b, (st.mem b).size) :: l2) ∧
      (st'.mem b).size = (st.mem b).size ∧ (st'.mem b).allocated = 0 ∧
      (l1 = [] → st'.head = some b) ∧ (l1 ≠ [] → st'.head = st.head) ∧
      (l2 = [] → (st'.mem b).next = none) ∧
      (l1 ++ (b, (st.mem b).size) :: l2).length = F.length + 1 := by
  obtain ⟨l1, l2, e, h1, h2⟩ := ok.around hb.2.1 hdisj
  subst e
  obtain ⟨st', r1, r2, r3, r4, r5, r6, r7, r8⟩ :=
    free_between R st l1 l2 b fuel ok hb h1 h2 hno1 hno2 hf
  refine ⟨l1, l2, st', rfl, ?_, ?_, r1, r2, r3, r4, r5, r6, r7, r8⟩
  · intro x hx
    have := h1 x hx
    have := (ok.inside x (by simp [hx])).2.1
    omega
  · intro y hy
    have := h2 y hy
    omega

theorem sfree_inserts_witness :
    (standsApart.mem 80).allocated = 1 ∧
    ∃ l1 l2 st', [((0 : Int), (40 : Int)), (160, 3936)] = l1 ++ l2 ∧
      (∀ x ∈ l1, x.1 < 80) ∧ (∀ y ∈ l2, 80 < y.1) ∧
      sfree 3 (some (80 + 24)) standsApart = some st' ∧
      FreeListOK 4096 st' (l1 ++ (80, (standsApart.mem 80).size) :: l2) ∧
      (st'.mem 80).size = (standsApart.mem 80).size ∧ (st'.mem 80).allocated = 0 ∧
      (l1 = [] → st'.head = some 80) ∧ (l1 ≠ [] → st'.head = standsApart.head) ∧
      (l2 = [] → (st'.mem 80).next = none) ∧
      (l1 ++ (80, (standsApart.mem 80).size) :: l2).length =
        [((0 : Int), (40 : Int)), (160, 3936)].length + 1 :=
  ⟨by decide,
    sfree_inserts 4096 standsApart [(0, 40), (160, 3936)] 80 3 standsApart_ok
      (by decide) (by decide) (by decide) (by decide) (by decide)⟩

theorem single_block {R : Int} {s : State} (ok : FreeListOK R s [(0, R)]) :
    s.head = some 0 ∧ s.mem 0 = ⟨R, 0, none, none⟩ ∧ walkNext s.mem 2 s.head = some [0] := by
  have h1 := ok.size_eq (0, R) (by simp)
  have h2 := ok.free (0, R) (by simp)
  have h3 : (s.mem 0).prev = none := ok.linked.1
  have h4 : (s.mem 0).next = none := ok.linked.2.1
  have h5 : s.head = some 0 := ok.head_eq
  simp only at h1 h2
  refine ⟨h5, ?_, ?_⟩
  · cases hm : s.mem 0 with
    | mk sz al nx pv =>
      rw [hm] at h1 h2 h3 h4
      simp only at h1 h2 h3 h4
      rw [h1, h2, h3, h4]
  · rw [h5]
    show (Smalloc.walkNext s.mem 1 (s.mem 0).next).map (fun t => 0 :: t) = some [0]
    rw [h4]
    rfl

/-- C9. Round trip on a fresh region: from the state left by a successful
`my_init n`, for every payload size `p ≥ 0` whose block size does not
overflow, `smalloc(p)` followed at once by `sfree` of the pointer it returned
(`NULL` when the allocation failed) leaves the free list as one block at
offset 0 of the rounded region size, free and without neighbours, as it was
right after initialisation. -/
theorem fresh_round_trip (n : Int) (g : Bool) (st0 st : State) (p : Int) (fuel : Nat)
    (hn1 : INT_MIN ≤ n) (hn2 : n ≤ INT_MAX) (hinit : my_init n g st0 = (0, st))
    (hp : 0 ≤ p) (hp2 : p ≤ INT_MAX - 31) (hf : 2 ≤ fuel) :
    ∃ q status st1 st2, smalloc fuel p st = some (q, status, st1) ∧
      sfree fuel q st1 = some st2 ∧
      st2.head = some 0 ∧ st2.mem 0 = ⟨roundRegion n, 0, none, none⟩ ∧
      walkNext st2.mem 2 st2.head = some [0] ∧
      st2.head = st.head ∧ st2.mem 0 = st.mem 0 := by
  have inv := my_init_inv hn1 hn2 hinit
  have ok : FreeListOK (roundRegion n) st ([] ++ (0, roundRegion n) :: []) := inv.fl
  obtain ⟨i1, i2, _⟩ := single_block inv.fl
  have hr := roundUp8_ge hp
  have hin := ok.inside (0, roundRegion n) (by simp)
  simp only at hin
  suffices h : ∃ q status st1 st2, smalloc fuel p st = some (q, status, st1) ∧
      sfree fuel q st1 = some st2 ∧ FreeListOK (roundRegion n) st2 [(0, roundRegion n)] by
    obtain ⟨q, status, st1, st2, h1, h2, ok2⟩ := h
    obtain ⟨j1, j2, j3⟩ := single_block ok2
    exact ⟨q, status, st1, st2, h1, h2, j1, j2, j3, by rw [j1, i1], by rw [j2, i2]⟩
  by_cases hfit : roundUp8 p + 24 ≤ roundRegion n
  · by_cases hsplit : roundUp8 p + 24 + 24 ≤ roundRegion n
    · obtain ⟨st1, h1, ok1, hsz, _, _⟩ :=
        smalloc_split_ok ok hp hp2 (by simp) hsplit (show ([] : List (Int × Int)).length < fuel by
          simp; omega)
      simp only at h1 ok1 hsz
      have ok1' : FreeListOK (roundRegion n) st1
          ([] ++ [(0 + (roundUp8 p + 24), roundRegion n - (roundUp8 p + 24))]) := ok1
      obtain ⟨st2, h2, ok2, _, _⟩ := @sfree_ok _ st1 [] _ 0 ok1'
        (by rw [hsz]; omega) (by simp) (by simp [hsz]) fuel (by simp; omega)
      refine ⟨_, _, st1, st2, h1, h2, ?_⟩
      have e : freeInto [] (0, (st1.mem 0).size)
          [(0 + (roundUp8 p + 24), roundRegion n - (roundUp8 p + 24))] = [(0, roundRegion n)] := by
        rw [hsz]
        simp only [freeInto, mergeNext, if_true, snocMerge, List.append_nil, List.cons.injEq,
          Prod.mk.injEq, true_and, and_true]
        omega
      rw [e] at ok2
      exact ok2
    · obtain ⟨st1, h1, ok1, hsz, _, _⟩ :=
        smalloc_whole_ok ok hp hp2 (by simp) hfit (by simp only; omega)
          (show ([] : List (Int × Int)).length < fuel by simp; omega)
      simp only at h1 ok1 hsz
      obtain ⟨st2, h2, ok2, _, _⟩ := @sfree_ok _ st1 [] [] 0 ok1
        (by rw [hsz]; omega) (by simp) (by simp) fuel (by simp; omega)
      refine ⟨_, _, st1, st2, h1, h2, ?_⟩
      rw [hsz] at ok2
      exact ok2
  · have h1 := smalloc_none_ok inv.fl hp hp2 (by
      intro x hx
      simp only [freeOf, List.filter_cons, List.filter_nil, List.map_cons, List.map_nil,
        if_true, List.mem_singleton] at hx
      subst hx
      simp only
      omega) (show (freeOf [⟨0, roundRegion n, true⟩]).length < fuel by simp [freeOf]; omega)
    exact ⟨none, _, st, st, h1, rfl, inv.fl⟩

theorem fresh_round_trip_witness :
    ∃ q status st1 st2, smalloc 2 16 freshPage = some (q, status, st1) ∧
      sfree 2 q st1 = some st2 ∧
      st2.head = some 0 ∧ st2.mem 0 = ⟨roundRegion 4096, 0, none, none⟩ ∧
      walkNext st2.mem 2 st2.head = some [0] ∧
      st2.head = freshPage.head ∧ st2.mem 0 = freshPage.mem 0 :=
  fresh_round_trip 4096 true ⟨zeroMem, none⟩ freshPage 16 2 (by decide) (by decide) rfl
    (by decide) (by decide) (by decide)


/-- C10. Initialisation: for a request `n` with `1 ≤ n ≤ INT_MAX - 4095` the
region size used is `n` rounded up to a multiple of 4096, the least multiple
of 4096 that is at least `n` (`n` itself when it is one); the mapping succeeds
exactly when the operating system grants it; when it succeeds `my_init`
returns 0 and leaves `head` at offset 0 on a block of the rounded size with
`allocated = 0`, `next = NULL` and `prev = NULL`, so that the free list has
exactly that one entry; when it fails `my_init` returns -1. -/
theorem my_init_spec (n : Int) (g : Bool) (st0 : State) (h1 : 1 ≤ n) (h2 : n ≤ INT_MAX - 4095) :
    roundRegion n = roundUpPage n ∧ n ≤ roundUpPage n ∧ roundUpPage n % 4096 = 0 ∧
    (∀ k, n ≤ k → k % 4096 = 0 → roundUpPage n ≤ k) ∧
    (n % 4096 = 0 → roundUpPage n = n) ∧
    mmapOk (roundRegion n) g = g ∧
    (mmapOk (roundRegion n) g = true →
      (my_init n g st0).1 = 0 ∧ (my_init n g st0).2.head = some 0 ∧
      (my_init n g st0).2.mem 0 = ⟨roundUpPage n, 0, none, none⟩ ∧
      walkNext (my_init n g st0).2.mem 2 (my_init n g st0).2.head = some [0]) ∧
    (mmapOk (roundRegion n) g = false → (my_init n g st0).1 = -1) := by
  have hR : roundRegion n = roundUpPage n := by
    unfold INT_MAX at h2
    unfold roundRegion PAGE_SIZE roundUpPage
    rw [Int.tmod_eq_emod (by omega) (by decide)]
    split
    · have e1 : wrap32 (4096 - n % 4096) = 4096 - n % 4096 :=
        wrap32_of_range (by omega) (by omega)
      rw [e1, wrap32_of_range (by omega) (by omega)]
      omega
    · omega
  have hpos : 0 < roundUpPage n := by unfold roundUpPage; omega
  refine ⟨hR, by unfold roundUpPage; omega, by unfold roundUpPage; omega,
    fun k hk hk' => by unfold roundUpPage; omega, fun h => by unfold roundUpPage; omega, ?_, ?_, ?_⟩
  · rw [hR]
    simp [mmapOk, hpos]
  · intro hm
    have hne : ¬ (mmapOk (roundRegion n) g = false) := by rw [hm]; simp
    have e : my_init n g st0 = (0, { mem := setPrev (setNext (setAllocated
        (setSize zeroMem 0 (roundRegion n)) 0 0) 0 none) 0 none, head := some 0 }) := by
      unfold my_init
      simp only [hm, Bool.true_eq_false, if_false]
    rw [e]
    refine ⟨rfl, rfl, ?_, ?_⟩
    · simp [hR, setPrev, setNext, setAllocated, setSize, zeroMem]
    · simp [Smalloc.walkNext]
  · intro hm
    unfold my_init
    simp only [hm, if_true]

theorem my_init_spec_witness :
    (my_init 100 true ⟨zeroMem, none⟩).1 = 0 ∧ roundRegion 100 = 4096 ∧
    (my_init 100 false ⟨zeroMem, none⟩).1 = -1 ∧
    (roundRegion 100 = roundUpPage 100 ∧ 100 ≤ roundUpPage 100 ∧ roundUpPage 100 % 4096 = 0 ∧
    (∀ k, 100 ≤ k → k % 4096 = 0 → roundUpPage 100 ≤ k) ∧
    ((100 : Int) % 4096 = 0 → roundUpPage 100 = 100) ∧
    mmapOk (roundRegion 100) true = true ∧
    (mmapOk (roundRegion 100) true = true →
      (my_init 100 true ⟨zeroMem, none⟩).1 = 0 ∧
      (my_init 100 true ⟨zeroMem, none⟩).2.head = some 0 ∧
      (my_init 100 true ⟨zeroMem, none⟩).2.mem 0 = ⟨roundUpPage 100, 0, none, none⟩ ∧
      walkNext (my_init 100 true ⟨zeroMem, none⟩).2.mem 2
        (my_init 100 true ⟨zeroMem, none⟩).2.head = some [0]) ∧
    (mmapOk (roundRegion 100) true = false → (my_init 100 true ⟨zeroMem, none⟩).1 = -1)) :=
  ⟨by decide, by decide, by decide,
    my_init_spec 100 true ⟨zeroMem, none⟩ (by decide) (by decide)⟩


/-! ## Further invariants of reachable states -/

theorem mem_freeOf_iff {T : List Blk} {x : Int × Int} :
    x ∈ freeOf T ↔ ∃ b ∈ T, b.free = true ∧ x = (b.addr, b.size) := by
  constructor
  · exact mem_freeOf
  · rintro ⟨b, hb, hf, rfl⟩
    simp only [freeOf, List.mem_map, List.mem_filter]
    exact ⟨b, ⟨hb, hf⟩, rfl⟩

/-- The allocated flag of every block of the tiling. -/
theorem Inv.flag_at {R : Int} {st : State} {T : List Blk} {outs : List Int}
    (inv : Inv R st T outs) :
    ∀ b ∈ T, (st.mem b.addr).allocated = if b.free then 0 else 1 := by
  intro b hb
  by_cases hf : b.free = true
  · rw [if_pos hf]
    exact inv.fl.free (b.addr, b.size) (mem_freeOf_iff.mpr ⟨b, hb, hf, rfl⟩)
  · rw [if_neg hf]
    exact (inv.hdr b hb (by simpa using hf)).2

/-- C11. Free-list membership invariant: in every reachable state the blocks on
the free list (read from `head` through `next`) are exactly the blocks of the
region tiling whose `allocated` flag is 0; a block whose payload pointer is
outstanding is a block of the tiling, has `allocated = 1` and is not on the
free list. -/
theorem free_list_membership (n : Int) (st : State) (outs : List Int) (h : Reach n st outs) :
    ∃ B F : List Int,
      blocksFrom st.mem (roundRegion n) (B.length + 1) 0 = some B ∧
      walkNext st.mem (F.length + 1) st.head = some F ∧
      (∀ a, a ∈ F ↔ a ∈ B ∧ (st.mem a).allocated = 0) ∧
      (∀ q ∈ outs, q - 24 ∈ B ∧ (st.mem (q - 24)).allocated = 1 ∧ q - 24 ∉ F) := by
  obtain ⟨T, inv⟩ := reach_inv h
  obtain ⟨b1, _⟩ := inv.tiled.blocksFrom inv.size_at
  have hF : ∀ a, a ∈ (freeOf T).map Prod.fst ↔ a ∈ T.map Blk.addr ∧ (st.mem a).allocated = 0 := by
    intro a
    constructor
    · intro ha
      obtain ⟨x, hx, rfl⟩ := List.mem_map.mp ha
      obtain ⟨b, hb, hf, rfl⟩ := mem_freeOf hx
      exact ⟨List.mem_map_of_mem _ hb, by rw [inv.flag_at b hb, if_pos hf]⟩
    · rintro ⟨ha, hz⟩
      obtain ⟨b, hb, rfl⟩ := List.mem_map.mp ha
      have hf : b.free = true := by
        by_contra hc
        rw [inv.flag_at b hb, if_neg hc] at hz
        exact absurd hz (by decide)
      exact List.mem_map.mpr ⟨(b.addr, b.size), mem_freeOf_iff.mpr ⟨b, hb, hf, rfl⟩, rfl⟩
  refine ⟨T.map Blk.addr, (freeOf T).map Prod.fst, ?_, ?_, hF, ?_⟩
  · rw [List.length_map]; exact b1
  · rw [inv.fl.head_eq]
    exact inv.fl.linked.walkNext _ (by omega)
  · intro q hq
    obtain ⟨b, hb, hf, rfl⟩ := (inv.outs_iff q).mp hq
    have e : b.addr + 24 - 24 = b.addr := by omega
    rw [e]
    have hal : (st.mem b.addr).allocated = 1 := (inv.hdr b hb hf).2
    refine ⟨List.mem_map_of_mem _ hb, hal, ?_⟩
    intro hmem
    have := ((hF b.addr).mp hmem).2
    rw [hal] at this
    exact absurd this (by decide)

/-- C12. Block-size invariant: in every reachable state every block of the
tiling, free or allocated, has a size field that is a multiple of 8 and at
least 24. -/
theorem block_sizes (n : Int) (st : State) (outs : List Int) (h : Reach n st outs) :
    ∃ B : List Int, blocksFrom st.mem (roundRegion n) (B.length + 1) 0 = some B ∧
      ∀ a ∈ B, (st.mem a).size % 8 = 0 ∧ 24 ≤ (st.mem a).size := by
  obtain ⟨T, inv⟩ := reach_inv h
  obtain ⟨b1, _⟩ := inv.tiled.blocksFrom inv.size_at
  refine ⟨T.map Blk.addr, by rw [List.length_map]; exact b1, ?_⟩
  intro a ha
  obtain ⟨b, hb, rfl⟩ := List.mem_map.mp ha
  rw [inv.size_at b hb]
  exact ⟨(inv.tiled.size_ok b hb).2, (inv.tiled.size_ok b hb).1⟩

/-- C14. Freeing `NULL` is a no-op: for every state, `sfree` on a null pointer
returns and leaves `head` and every block header as they were. -/
theorem free_of_null_is_noop (fuel : Nat) (st : State) :
    ∃ st', sfree fuel none st = some st' ∧ st'.head = st.head ∧ ∀ a, st'.mem a = st.mem a :=
  ⟨st, rfl, rfl, fun _ => rfl⟩

/-- C18. Failure atomicity of `smalloc`: for every state and every payload size,
when `smalloc` returns `NULL` the globals are unchanged, `head` and every
block header alike; the status record reads `success = 0`,
`payload_offset = -1`, `hops = -1`. -/
theorem smalloc_failure_atomic (fuel : Nat) (p : Int) (st st' : State) (status : Malloc_Status)
    (h : smalloc fuel p st = some (none, status, st')) :
    st' = st ∧ st'.head = st.head ∧ (∀ a, st'.mem a = st.mem a) ∧ status = ⟨0, -1, -1⟩ := by
  unfold smalloc at h
  simp only at h
  split at h
  · cases h
  · simp only [Option.some.injEq, Prod.mk.injEq, true_and] at h
    obtain ⟨h1, h2⟩ := h
    subst h2
    exact ⟨rfl, rfl, fun _ => rfl, h1.symm⟩
  · simp [takeBlock] at h

theorem free_list_membership_witness :
    walkNext (afterFree 24 (afterAlloc 16 (afterAlloc 16 freshPage))).mem 3
      (afterFree 24 (afterAlloc 16 (afterAlloc 16 freshPage))).head = some [0, 80] ∧
    ((afterFree 24 (afterAlloc 16 (afterAlloc 16 freshPage))).mem 40).allocated = 1 ∧
    ∃ B F : List Int,
      blocksFrom (afterFree 24 (afterAlloc 16 (afterAlloc 16 freshPage))).mem (roundRegion 4096)
        (B.length + 1) 0 = some B ∧
      walkNext (afterFree 24 (afterAlloc 16 (afterAlloc 16 freshPage))).mem (F.length + 1)
        (afterFree 24 (afterAlloc 16 (afterAlloc 16 freshPage))).head = some F ∧
      (∀ a, a ∈ F ↔ a ∈ B ∧
        ((afterFree 24 (afterAlloc 16 (afterAlloc 16 freshPage))).mem a).allocated = 0) ∧
      (∀ q ∈ [(64 : Int)], q - 24 ∈ B ∧
        ((afterFree 24 (afterAlloc 16 (afterAlloc 16 freshPage))).mem (q - 24)).allocated = 1 ∧
        q - 24 ∉ F) :=
  ⟨by decide, by decide, free_list_membership 4096 _ [64] reach_example⟩

theorem block_sizes_witness :
    (([0, 40, 80] : List Int).map
      (fun a => ((afterFree 24 (afterAlloc 16 (afterAlloc 16 freshPage))).mem a).size)) =
        [40, 40, 4016] ∧
    ∃ B : List Int,
      blocksFrom (afterFree 24 (afterAlloc 16 (afterAlloc 16 freshPage))).mem (roundRegion 4096)
        (B.length + 1) 0 = some B ∧
      ∀ a ∈ B, ((afterFree 24 (afterAlloc 16 (afterAlloc 16 freshPage))).mem a).size % 8 = 0 ∧
        24 ≤ ((afterFree 24 (afterAlloc 16 (afterAlloc 16 freshPage))).mem a).size :=
  ⟨by decide, block_sizes 4096 _ [64] reach_example⟩

theorem smalloc_failure_atomic_witness :
    smalloc 2 5000 freshPage = some (none, ⟨0, -1, -1⟩, freshPage) ∧
    (freshPage = freshPage ∧ freshPage.head = freshPage.head ∧
      (∀ a, freshPage.mem a = freshPage.mem a) ∧
      (⟨0, -1, -1⟩ : Malloc_Status) = ⟨0, -1, -1⟩) :=
  ⟨rfl, smalloc_failure_atomic 2 5000 freshPage freshPage ⟨0, -1, -1⟩ rfl⟩

theorem reach_all_freed :
    Reach 4096 (afterFree 64 (afterFree 24 (afterAlloc 16 (afterAlloc 16 freshPage)))) [] :=
  @Reach.free 4096 (afterFree 24 (afterAlloc 16 (afterAlloc 16 freshPage))) _ [64] 16 64
    reach_example (by decide) rfl

/-- With nothing outstanding the tiling is the single free block spanning the region. -/
theorem Inv.all_free {R : Int} {st : State} {T : List Blk} (inv : Inv R st T []) (hR : 0 < R) :
    T = [⟨0, R, true⟩] := by
  have hfree : ∀ b ∈ T, b.free = true := by
    intro b hb
    by_contra hc
    have := (inv.outs_iff (b.addr + 24)).mpr ⟨b, hb, by simpa using hc, rfl⟩
    simp at this
  cases T with
  | nil =>
    have : (0 : Int) = R := inv.tiled
    omega
  | cons b t =>
    cases t with
    | nil =>
      obtain ⟨t1, _, _, t4⟩ := inv.tiled
      have t4' : 0 + b.size = R := t4
      have hf := hfree b (by simp)
      obtain ⟨ba, bs, bf⟩ := b
      simp only at t1 t4' hf
      subst t1 hf
      have : bs = R := by omega
      subst this
      rfl
    | cons c t' =>
      have := (List.chain'_cons.mp inv.coalesced).1
      exact absurd ⟨hfree b (by simp), hfree c (by simp)⟩ this

/-- C16. Full coalescing after all frees: in every reachable state in which no
allocation is outstanding, the free list consists of exactly one block, at
region offset 0, whose size is the rounded region size; it is free and has no
neighbours. -/
theorem all_freed_one_block (n : Int) (st : State) (h : Reach n st []) :
    st.head = some 0 ∧ walkNext st.mem 2 st.head = some [0] ∧
      st.mem 0 = ⟨roundRegion n, 0, none, none⟩ ∧ roundRegion n = roundUpPage n := by
  obtain ⟨T, inv⟩ := reach_inv h
  obtain ⟨h1, h2, hR⟩ := reach_region h
  have hpos : 0 < roundRegion n := by rw [hR]; unfold roundUpPage; omega
  have hT := inv.all_free hpos
  subst hT
  obtain ⟨j1, j2, j3⟩ := single_block inv.fl
  exact ⟨j1, j3, j2, hR⟩

theorem all_freed_one_block_witness :
    (afterFree 64 (afterFree 24 (afterAlloc 16 (afterAlloc 16 freshPage)))).head = some 0 ∧
    walkNext (afterFree 64 (afterFree 24 (afterAlloc 16 (afterAlloc 16 freshPage)))).mem 2
      (afterFree 64 (afterFree 24 (afterAlloc 16 (afterAlloc 16 freshPage)))).head = some [0] ∧
    (afterFree 64 (afterFree 24 (afterAlloc 16 (afterAlloc 16 freshPage)))).mem 0 =
      ⟨roundRegion 4096, 0, none, none⟩ ∧
    roundRegion 4096 = roundUpPage 4096 :=
  all_freed_one_block 4096 _ reach_all_freed


theorem lastOr_eq_getLast (l : List Int) : lastOr l none = l.getLast? := by
  by_cases hl : l = []
  · subst hl; rfl
  · obtain ⟨t, z, rfl⟩ := exists_snoc l hl
    rw [lastOr_concat]
    simp

theorem Linked.walkPrev {m : Int → Block} {l : List Int} {n : Option Int}
    (h : Linked m none l n) :
    walkPrev m (l.length + 1) (lastOr l none) = some l.reverse := by
  induction l using List.reverseRecOn generalizing n with
  | nil => rfl
  | append_singleton t z ih =>
    rw [Linked_append] at h
    obtain ⟨h1, h2⟩ := h
    have hp : (m z).prev = lastOr t none := h2.1
    rw [lastOr_concat]
    have e : (t ++ [z]).length + 1 = (t.length + 1) + 1 := by simp
    rw [e]
    show (Smalloc.walkPrev m (t.length + 1) (m z).prev).map (fun r => z :: r) = _
    rw [hp, ih h1]
    simp

theorem Linked.next_prev {m : Int → Block} {l : List Int} {p : Option Int}
    (h : Linked m p l none) :
    ∀ x ∈ l, ∀ y, (m x).next = some y → y ∈ l ∧ (m y).prev = some x := by
  induction l generalizing p with
  | nil => simp
  | cons a t ih =>
    obtain ⟨_, h2, h3⟩ := h
    intro x hx y hy
    rcases List.mem_cons.mp hx with e | hx'
    · subst e
      rw [h2] at hy
      rcases hdOr_eq_some hy with hh | hh
      · cases hh.2
      · exact ⟨List.mem_cons_of_mem _ hh, h3.first_prev hy⟩
    · obtain ⟨i1, i2⟩ := ih h3 x hx' y hy
      exact ⟨List.mem_cons_of_mem _ i1, i2⟩

/-- C19. Doubly-linked consistency: in every reachable state the walk from
`head` through `next` ends and visits no block twice, `head` (when non-null)
has `prev = NULL`, the last entry has `next = NULL`, every entry `x` with
`x.next = y` has `y` on the list with `y.prev = x`, and the walk through
`prev` from the last entry visits exactly the reverse of the forward walk. -/
theorem doubly_linked (n : Int) (st : State) (outs : List Int) (h : Reach n st outs) :
    ∃ F : List Int, walkNext st.mem (F.length + 1) st.head = some F ∧ F.Nodup ∧
      (∀ a, st.head = some a → (st.mem a).prev = none) ∧
      (∀ a, F.getLast? = some a → (st.mem a).next = none) ∧
      (∀ x ∈ F, ∀ y, (st.mem x).next = some y → y ∈ F ∧ (st.mem y).prev = some x) ∧
      walkPrev st.mem (F.length + 1) F.getLast? = some F.reverse := by
  obtain ⟨T, inv⟩ := reach_inv h
  have hl := inv.fl.linked
  refine ⟨(freeOf T).map Prod.fst, ?_, inv.fl.nodup, ?_, ?_, hl.next_prev, ?_⟩
  · rw [inv.fl.head_eq]
    exact hl.walkNext _ (by omega)
  · intro a ha
    rw [inv.fl.head_eq] at ha
    exact hl.first_prev ha
  · intro a ha
    rw [← lastOr_eq_getLast] at ha
    exact hl.last_next ha
  · rw [← lastOr_eq_getLast]
    exact hl.walkPrev

theorem doubly_linked_witness :
    walkPrev (afterFree 24 (afterAlloc 16 (afterAlloc 16 freshPage))).mem 3 (some 80) =
      some [80, 0] ∧
    ∃ F : List Int,
      walkNext (afterFree 24 (afterAlloc 16 (afterAlloc 16 freshPage))).mem (F.length + 1)
        (afterFree 24 (afterAlloc 16 (afterAlloc 16 freshPage))).head = some F ∧ F.Nodup ∧
      (∀ a, (afterFree 24 (afterAlloc 16 (afterAlloc 16 freshPage))).head = some a →
        ((afterFree 24 (afterAlloc 16 (afterAlloc 16 freshPage))).mem a).prev = none) ∧
      (∀ a, F.getLast? = some a →
        ((afterFree 24 (afterAlloc 16 (afterAlloc 16 freshPage))).mem a).next = none) ∧
      (∀ x ∈ F, ∀ y,
        ((afterFree 24 (afterAlloc 16 (afterAlloc 16 freshPage))).mem x).next = some y →
        y ∈ F ∧ ((afterFree 24 (afterAlloc 16 (afterAlloc 16 freshPage))).mem y).prev = some x) ∧
      walkPrev (afterFree 24 (afterAlloc 16 (afterAlloc 16 freshPage))).mem (F.length + 1)
        F.getLast? = some F.reverse :=
  ⟨by decide, doubly_linked 4096 _ [64] reach_example⟩


/-- Whatever the required size, the block the search stops at is on the free list. -/
theorem firstFit_mem {m : Int → Block} {r : Int} {l : List Int} {p : Option Int}
    (h : Linked m p l none) {fuel : Nat} {hops hops' : Int} {c : Int}
    (hr : firstFit m r fuel (hdOr l none) hops = some (some c, hops')) : c ∈ l := by
  induction l generalizing p fuel hops with
  | nil =>
    cases fuel with
    | zero => cases hr
    | succ k => simp [hdOr, firstFit] at hr
  | cons a t ih =>
    cases fuel with
    | zero => cases hr
    | succ k =>
      obtain ⟨_, h2, h3⟩ := h
      simp only [hdOr, firstFit] at hr
      split at hr
      · rw [h2] at hr
        exact List.mem_cons_of_mem _ (ih h3 hr)
      · simp only [Option.some.injEq, Prod.mk.injEq] at hr
        rw [← hr.1]
        exact List.mem_cons_self _ _

/-- A successful `smalloc`, for any payload size, returns the payload of a free-list entry. -/
theorem smalloc_some_entry {R : Int} {st : State} {F : List (Int × Int)} (ok : FreeListOK R st F)
    {fuel : Nat} {p q : Int} {status : Malloc_Status} {st' : State}
    (h : smalloc fuel p st = some (some q, status, st')) :
    ∃ c ∈ F, q = c.1 + 24 ∧ status.success = 1 ∧
      status.payload_offset = wrap32 (c.1 + 24) := by
  unfold smalloc at h
  simp only at h
  split at h
  · cases h
  · simp at h
  · rename_i curr hops hff
    rw [ok.head_eq] at hff
    have hc := firstFit_mem ok.linked hff
    obtain ⟨c, hcF, rfl⟩ := List.mem_map.mp hc
    simp only [takeBlock, Option.some.injEq, Prod.mk.injEq, HEADER_SIZE] at h
    obtain ⟨h1, h2, _⟩ := h
    refine ⟨c, hcF, h1.symm, ?_, ?_⟩
    · rw [← h2]
    · rw [← h2]

/-- C20. Word alignment of payloads: in every reachable state every block of
the tiling starts at an offset that is a multiple of 8, and every successful
`smalloc`, whatever the payload size, returns the start of a block of the
tiling plus 24 and reports that pointer as `payload_offset`, a multiple of 8. -/
theorem payloads_word_aligned (n : Int) (st : State) (outs : List Int) (h : Reach n st outs) :
    ∃ B : List Int, blocksFrom st.mem (roundRegion n) (B.length + 1) 0 = some B ∧
      (∀ a ∈ B, a % 8 = 0) ∧
      ∀ (fuel : Nat) (p q : Int) (status : Malloc_Status) (st' : State),
        smalloc fuel p st = some (some q, status, st') →
        q - 24 ∈ B ∧ status.payload_offset = q ∧ status.payload_offset % 8 = 0 := by
  obtain ⟨T, inv⟩ := reach_inv h
  obtain ⟨b1, _⟩ := inv.tiled.blocksFrom inv.size_at
  have hal : ∀ b ∈ T, b.addr % 8 = 0 := by
    intro b hb
    have := (inv.tiled.bounds.2.2 b hb).2.2
    omega
  refine ⟨T.map Blk.addr, by rw [List.length_map]; exact b1, ?_, ?_⟩
  · intro a ha
    obtain ⟨b, hb, rfl⟩ := List.mem_map.mp ha
    exact hal b hb
  · intro fuel p q status st' hs
    obtain ⟨c, hc, hq, _, hoff⟩ := smalloc_some_entry inv.fl hs
    obtain ⟨b, hb, _, rfl⟩ := mem_freeOf hc
    have hbd := inv.tiled.bounds.2.2 b hb
    have hsz := inv.tiled.size_ok b hb
    have hR := inv.fl.bound
    unfold INT_MAX at hR
    have hw : wrap32 (b.addr + 24) = b.addr + 24 := wrap32_of_range (by omega) (by omega)
    have h8 := hal b hb
    simp only at hq hoff
    subst hq
    refine ⟨?_, by rw [hoff, hw], by rw [hoff, hw]; omega⟩
    have e : b.addr + 24 - 24 = b.addr := by omega
    rw [e]
    exact List.mem_map_of_mem _ hb

theorem payloads_word_aligned_witness :
    (smalloc 4 100 (afterFree 24 (afterAlloc 16 (afterAlloc 16 freshPage)))).map
      (fun r => (r.1, r.2.1)) = some (some 104, ⟨1, 104, 1⟩) ∧
    ∃ B : List Int,
      blocksFrom (afterFree 24 (afterAlloc 16 (afterAlloc 16 freshPage))).mem (roundRegion 4096)
        (B.length + 1) 0 = some B ∧
      (∀ a ∈ B, a % 8 = 0) ∧
      ∀ (fuel : Nat) (p q : Int) (status : Malloc_Status) (st' : State),
        smalloc fuel p (afterFree 24 (afterAlloc 16 (afterAlloc 16 freshPage))) =
          some (some q, status, st') →
        q - 24 ∈ B ∧ status.payload_offset = q ∧ status.payload_offset % 8 = 0 :=
  ⟨by decide, payloads_word_aligned 4096 _ [64] reach_example⟩


/-! ## The shape of a successful allocation in a reachable state -/

/-- In a state satisfying the invariant a successful `smalloc` takes the first
free block `c` of the tiling that fits. -/
theorem Inv.alloc_shape {R : Int} {st : State} {T : List Blk} {outs : List Int}
    (inv : Inv R st T outs) {p : Int} (hp : 0 ≤ p) (hp2 : p ≤ INT_MAX - 31)
    {fuel : Nat} {q : Int} {status : Malloc_Status} {st' : State}
    (h : smalloc fuel p st = some (some q, status, st')) :
    ∃ (T1 T2 : List Blk) (c : Int × Int), T = T1 ++ ⟨c.1, c.2, true⟩ :: T2 ∧
      (∀ x ∈ freeOf T1, x.2 < roundUp8 p + 24) ∧ roundUp8 p + 24 ≤ c.2 ∧
      q = c.1 + 24 ∧ status = ⟨1, c.1 + 24, (freeOf T1).length⟩ ∧
      st' = (takeBlock st p (padOf p) (roundUp8 p + 24) c.1 (freeOf T1).length).2.2 := by
  have h' := smalloc_mono h (Nat.le_add_right fuel ((freeOf T).length + 1))
  by_cases hfit : ∃ x ∈ freeOf T, roundUp8 p + 24 ≤ x.2
  swap
  · have hs : ∀ x ∈ freeOf T, x.2 < roundUp8 p + 24 := by
      intro x hx
      by_contra hcon
      exact hfit ⟨x, hx, by omega⟩
    rw [smalloc_none_ok inv.fl hp hp2 hs (by omega)] at h'
    simp at h'
  obtain ⟨l1, c, l2, hF, hs, hc⟩ := exists_first_fit _ _ hfit
  obtain ⟨T1, T2, hT, e1, e2⟩ := freeOf_split T l1 l2 c hF
  subst hT e1 e2
  have ok : FreeListOK R st (freeOf T1 ++ c :: freeOf T2) := hF ▸ inv.fl
  rw [smalloc_takes ok hp hp2 hs hc (by rw [hF]; simp; omega)] at h'
  simp only [Option.some.injEq, Prod.mk.injEq] at h'
  exact ⟨T1, T2, c, rfl, hs, hc, h'.1.symm, h'.2.1.symm, h'.2.2.symm⟩

/-- The state after `takeBlock` on the first fit, in either case. -/
theorem takeBlock_sizes {R : Int} {st : State} {l1 l2 : List (Int × Int)} {c : Int × Int}
    (ok : FreeListOK R st (l1 ++ c :: l2)) {p : Int} (hp : 0 ≤ p) (hp2 : p ≤ INT_MAX - 31)
    (hc : roundUp8 p + 24 ≤ c.2) (hops : Int) :
    roundUp8 p + 24 ≤ ((takeBlock st p (padOf p) (roundUp8 p + 24) c.1 hops).2.2.mem c.1).size ∧
    ((takeBlock st p (padOf p) (roundUp8 p + 24) c.1 hops).2.2.mem c.1).size ≤ c.2 ∧
    ((takeBlock st p (padOf p) (roundUp8 p + 24) c.1 hops).2.2.mem c.1).allocated = 1 ∧
    (∀ a, a + 24 ≤ c.1 ∨ c.1 + c.2 ≤ a →
      ((takeBlock st p (padOf p) (roundUp8 p + 24) c.1 hops).2.2.mem a).size = (st.mem a).size ∧
      ((takeBlock st p (padOf p) (roundUp8 p + 24) c.1 hops).2.2.mem a).allocated =
        (st.mem a).allocated) := by
  have hr := roundUp8_ge hp
  obtain ⟨hpad, hpad0, hpad8⟩ := padOf_eq hp
  have hin := ok.inside c (by simp)
  have hb := ok.bound
  unfold INT_MAX at hb hp2
  by_cases hsplit : roundUp8 p + 24 + 24 ≤ c.2
  · obtain ⟨_, hsz, hal, hfr⟩ := takeBlock_split ok (by omega) hsplit p (padOf p) hops
    refine ⟨by rw [hsz], by rw [hsz]; omega, hal, fun a ha => hfr a (by omega) (by omega)⟩
  · have hsz : blockSize p (wrap32 (padOf p + (c.2 - (roundUp8 p + 24)))) = c.2 := by
      have e1 : wrap32 (padOf p + (c.2 - (roundUp8 p + 24))) =
          padOf p + (c.2 - (roundUp8 p + 24)) := wrap32_of_range (by omega) (by omega)
      unfold blockSize HEADER_SIZE
      rw [e1]
      have e2 : wrap32 (p + (padOf p + (c.2 - (roundUp8 p + 24)))) = c.2 - 24 := by
        rw [wrap32_of_range (by omega) (by omega)]; omega
      rw [e2, wrap32_of_range (by omega) (by omega)]
      omega
    obtain ⟨_, hsz', hal, hfr⟩ := takeBlock_whole ok hc (by omega) p (padOf p) hops hsz
    refine ⟨by rw [hsz']; exact hc, by rw [hsz'], hal, fun a ha => hfr a (by omega)⟩

/-- C15. Returned payloads are in bounds and disjoint: in every reachable state
a successful `smalloc p` with `0 ≤ p ≤ INT_MAX - 31` reports the returned
pointer `q` as `payload_offset`, with `q ≥ 24` and `q + p` at most the rounded
region size; the block it allocates, at `q - 24`, has size at least `p + 24`
and ends inside the region; and for every block that was already allocated and
not yet freed, whose size the call leaves as it was, the two extents
`[start, start + size)` do not intersect. -/
theorem payload_in_bounds (n : Int) (st : State) (outs : List Int) (h : Reach n st outs)
    (fuel : Nat) (p q : Int) (status : Malloc_Status) (st' : State)
    (hp : 0 ≤ p) (hp2 : p ≤ INT_MAX - 31)
    (hs : smalloc fuel p st = some (some q, status, st')) :
    status.success = 1 ∧ status.payload_offset = q ∧ 24 ≤ q ∧ q + p ≤ roundRegion n ∧
      p + 24 ≤ (st'.mem (q - 24)).size ∧
      (q - 24) + (st'.mem (q - 24)).size ≤ roundRegion n ∧
      ∀ q' ∈ outs, (st'.mem (q' - 24)).size = (st.mem (q' - 24)).size ∧
        ((q' - 24) + (st.mem (q' - 24)).size ≤ q - 24 ∨
          (q - 24) + (st'.mem (q - 24)).size ≤ q' - 24) := by
  obtain ⟨T, inv⟩ := reach_inv h
  obtain ⟨T1, T2, c, hT, hsm, hc, hq, hst, hst'⟩ := inv.alloc_shape hp hp2 hs
  subst hT hq hst hst'
  have ok : FreeListOK (roundRegion n) st (freeOf T1 ++ c :: freeOf T2) := by
    have := inv.fl
    rwa [freeOf_append, freeOf_cons_free rfl] at this
  obtain ⟨z1, z2, _, zfr⟩ := takeBlock_sizes ok hp hp2 hc ((freeOf T1).length)
  obtain ⟨t1, t2, t3, t4⟩ := Tiled_split.mp inv.tiled
  simp only at t1 t2 t3 t4
  have b1 := t1.bounds
  have b2 := t4.bounds
  have hr := roundUp8_ge hp
  have e : c.1 + 24 - 24 = c.1 := by omega
  rw [e]
  refine ⟨rfl, rfl, by omega, by omega, by omega, by omega, ?_⟩
  intro q' hq'
  obtain ⟨b, hb, hbf, rfl⟩ := (inv.outs_iff q').mp hq'
  have e' : b.addr + 24 - 24 = b.addr := by omega
  rw [e']
  have hsz := (inv.hdr b hb hbf).1
  rcases List.mem_append.mp hb with hb' | hb'
  · have hbb := b1.2.2 b hb'
    have h24 := (t1.size_ok b hb').1
    refine ⟨(zfr b.addr (Or.inl (by omega))).1, Or.inl (by rw [hsz]; omega)⟩
  · rcases List.mem_cons.mp hb' with hb'' | hb''
    · subst hb''; cases hbf
    · have hbb := b2.2.2 b hb''
      refine ⟨(zfr b.addr (Or.inr (by omega))).1, Or.inr (by omega)⟩

theorem payload_in_bounds_witness :
    (⟨1, 104, 1⟩ : Malloc_Status).success = 1 ∧ (⟨1, 104, 1⟩ : Malloc_Status).payload_offset = 104 ∧
      (24 : Int) ≤ 104 ∧ (104 : Int) + 100 ≤ roundRegion 4096 ∧
      100 + 24 ≤ ((afterAlloc 100 (afterFree 24 (afterAlloc 16 (afterAlloc 16 freshPage)))).mem
        (104 - 24)).size ∧
      (104 - 24) + ((afterAlloc 100 (afterFree 24 (afterAlloc 16 (afterAlloc 16 freshPage)))).mem
        (104 - 24)).size ≤ roundRegion 4096 ∧
      ∀ q' ∈ [(64 : Int)],
        ((afterAlloc 100 (afterFree 24 (afterAlloc 16 (afterAlloc 16 freshPage)))).mem
          (q' - 24)).size =
          ((afterFree 24 (afterAlloc 16 (afterAlloc 16 freshPage))).mem (q' - 24)).size ∧
        ((q' - 24) + ((afterFree 24 (afterAlloc 16 (afterAlloc 16 freshPage))).mem (q' - 24)).size
            ≤ 104 - 24 ∨
          (104 - 24) + ((afterAlloc 100 (afterFree 24 (afterAlloc 16 (afterAlloc 16
            freshPage)))).mem (104 - 24)).size ≤ q' - 24) :=
  payload_in_bounds 4096 (afterFree 24 (afterAlloc 16 (afterAlloc 16 freshPage))) [64]
    reach_example 16 100 104 ⟨1, 104, 1⟩
    (afterAlloc 100 (afterFree 24 (afterAlloc 16 (afterAlloc 16 freshPage))))
    (by decide) (by decide) rfl

/-! ## Allocation followed by release -/

theorem apart_below {a e : Int} {T1 : List Blk} (t : Tiled a e T1)
    (hl : ∀ x ∈ T1.getLast?, x.free = false) : ∀ x ∈ freeOf T1, x.1 + x.2 < e := by
  by_cases hne : T1 = []
  · subst hne; simp [freeOf]
  · obtain ⟨T1a, u, rfl⟩ := exists_snoc T1 hne
    have hu : u.free = false := hl u (by simp)
    obtain ⟨t1, t2, _, t4⟩ := Tiled_split.mp t
    have t4' : u.addr + u.size = e := t4
    intro x hx
    rw [freeOf_append, freeOf_cons_used hu] at hx
    simp only [freeOf, List.filter_nil, List.map_nil, List.append_nil] at hx
    obtain ⟨b, hb, _, rfl⟩ := mem_freeOf (by simpa [freeOf] using hx)
    have := t1.bounds.2.2 b hb
    simp only
    omega

theorem apart_above {a e : Int} {T2 : List Blk} (t : Tiled a e T2)
    (hh : ∀ y ∈ T2.head?, y.free = false) : ∀ y ∈ freeOf T2, a < y.1 := by
  cases T2 with
  | nil => simp [freeOf]
  | cons u T2b =>
    have hu : u.free = false := hh u (by simp)
    obtain ⟨_, t2, _, t4⟩ := t
    intro y hy
    rw [freeOf_cons_used hu] at hy
    obtain ⟨b, hb, _, rfl⟩ := mem_freeOf hy
    have := t4.bounds.2.2 b hb
    simp only
    omega

/-- C17. General allocate/free round trip: in every reachable state `S`, with
free list `F` as (address, size) entries, for every payload size `p ≥ 0` whose
block size does not overflow and for which `smalloc p` succeeds with pointer
`q`, calling `sfree q` immediately afterwards returns and leaves a free list
with the same sequence of (address, size) entries `F`, whether the allocation
split the chosen block or took it whole. -/
theorem alloc_free_round_trip (n : Int) (st : State) (outs : List Int) (h : Reach n st outs)
    (fuel : Nat) (p q : Int) (status : Malloc_Status) (st1 : State)
    (hp : 0 ≤ p) (hp2 : p ≤ INT_MAX - 31)
    (hs : smalloc fuel p st = some (some q, status, st1)) :
    ∃ F : List (Int × Int), FreeListOK (roundRegion n) st F ∧
      walkNext st.mem (F.length + 1) st.head = some (F.map Prod.fst) ∧
      ∀ fuel2 : Nat, F.length < fuel2 →
        ∃ st2, sfree fuel2 (some q) st1 = some st2 ∧ FreeListOK (roundRegion n) st2 F ∧
          walkNext st2.mem (F.length + 1) st2.head = some (F.map Prod.fst) ∧
          ∀ x ∈ F, (st2.mem x.1).size = x.2 ∧ (st.mem x.1).size = x.2 := by
  obtain ⟨T, inv⟩ := reach_inv h
  obtain ⟨T1, T2, c, hT, hsm, hc, hq, hst, hst'⟩ := inv.alloc_shape hp hp2 hs
  subst hT hq hst hst'
  have eF : freeOf (T1 ++ ⟨c.1, c.2, true⟩ :: T2) = freeOf T1 ++ c :: freeOf T2 := by
    rw [freeOf_append, freeOf_cons_free rfl]
  have ok : FreeListOK (roundRegion n) st (freeOf T1 ++ c :: freeOf T2) := eF ▸ inv.fl
  obtain ⟨t1, t2, t3, t4⟩ := Tiled_split.mp inv.tiled
  simp only at t1 t2 t3 t4
  obtain ⟨_, _, cl, chd⟩ := (chain_free_mid T1 T2 rfl).mp inv.coalesced
  have ab := apart_below t1 cl
  have aa := apart_above t4 chd
  obtain ⟨_, _, _, _, hlt1, hlt2, _⟩ := ok.at_entry
  have hr := roundUp8_ge hp
  have hin := ok.inside c (by simp)
  refine ⟨freeOf T1 ++ c :: freeOf T2, ok, ?_, ?_⟩
  · have := ok.linked.walkNext ((freeOf T1 ++ c :: freeOf T2).length + 1)
      (by rw [List.length_map]; omega)
    rw [← ok.head_eq] at this
    exact this
  intro fuel2 hf2
  suffices hsuf : ∃ st2, sfree fuel2 (some (c.1 + 24))
      (takeBlock st p (padOf p) (roundUp8 p + 24) c.1 (freeOf T1).length).2.2 = some st2 ∧
      FreeListOK (roundRegion n) st2 (freeOf T1 ++ c :: freeOf T2) by
    obtain ⟨st2, g1, ok2⟩ := hsuf
    refine ⟨st2, g1, ok2, ?_, fun x hx => ⟨ok2.size_eq x hx, ok.size_eq x hx⟩⟩
    have := ok2.linked.walkNext ((freeOf T1 ++ c :: freeOf T2).length + 1)
      (by rw [List.length_map]; omega)
    rw [← ok2.head_eq] at this
    exact this
  have hlen : (freeOf T1 ++ c :: freeOf T2).length = (freeOf T1).length + ((freeOf T2).length + 1) := by
    simp
  have hsn : snocMerge (freeOf T1) c = freeOf T1 ++ [c] :=
    snocMerge_of_ne (fun x hx => by have := ab x hx; omega)
  by_cases hsplit : roundUp8 p + 24 + 24 ≤ c.2
  · obtain ⟨ok1, hsz, _, _⟩ := takeBlock_split ok (by omega) hsplit p (padOf p) (freeOf T1).length
    obtain ⟨st2, g1, ok2, _, _⟩ := @sfree_ok _ _ (freeOf T1)
      ((c.1 + (roundUp8 p + 24), c.2 - (roundUp8 p + 24)) :: freeOf T2) c.1 ok1
      (by rw [hsz]; omega) hlt1
      (by
        intro y hy
        rw [hsz]
        rcases List.mem_cons.mp hy with e | e
        · subst e; simp
        · have := hlt2 y e; omega)
      fuel2 (by simp at hf2 ⊢; omega)
    refine ⟨st2, g1, ?_⟩
    have e : freeInto (freeOf T1) (c.1, ((takeBlock st p (padOf p) (roundUp8 p + 24) c.1
        (freeOf T1).length).2.2.mem c.1).size)
        ((c.1 + (roundUp8 p + 24), c.2 - (roundUp8 p + 24)) :: freeOf T2) =
        freeOf T1 ++ c :: freeOf T2 := by
      rw [hsz]
      unfold freeInto
      simp only [mergeNext, if_true]
      have ec : (c.1, roundUp8 p + 24 + (c.2 - (roundUp8 p + 24))) = c := by
        apply Prod.ext
        · rfl
        · simp only; omega
      rw [ec, hsn]
      simp
    rw [e] at ok2
    exact ok2
  · have hsz0 : blockSize p (wrap32 (padOf p + (c.2 - (roundUp8 p + 24)))) = c.2 := by
      obtain ⟨hpad, hpad0, hpad8⟩ := padOf_eq hp
      have hb := ok.bound
      unfold INT_MAX at hb hp2
      have e1 : wrap32 (padOf p + (c.2 - (roundUp8 p + 24))) =
          padOf p + (c.2 - (roundUp8 p + 24)) := wrap32_of_range (by omega) (by omega)
      unfold blockSize HEADER_SIZE
      rw [e1]
      have e2 : wrap32 (p + (padOf p + (c.2 - (roundUp8 p + 24)))) = c.2 - 24 := by
        rw [wrap32_of_range (by omega) (by omega)]; omega
      rw [e2, wrap32_of_range (by omega) (by omega)]
      omega
    obtain ⟨ok1, hsz, _, _⟩ :=
      takeBlock_whole ok hc (by omega) p (padOf p) (freeOf T1).length hsz0
    obtain ⟨st2, g1, ok2, _, _⟩ := @sfree_ok _ _ (freeOf T1) (freeOf T2) c.1 ok1
      (by rw [hsz]; omega) hlt1 (by rw [hsz]; exact hlt2)
      fuel2 (by simp at hf2 ⊢; omega)
    refine ⟨st2, g1, ?_⟩
    have e : freeInto (freeOf T1) (c.1, ((takeBlock st p (padOf p) (roundUp8 p + 24) c.1
        (freeOf T1).length).2.2.mem c.1).size) (freeOf T2) = freeOf T1 ++ c :: freeOf T2 := by
      rw [hsz]
      unfold freeInto
      rw [mergeNext_of_ne (fun y hy => by have := aa y hy; simp only; omega)]
      simp only
      have ec : (c.1, c.2) = c := rfl
      rw [ec, hsn]
      simp
    rw [e] at ok2
    exact ok2

theorem alloc_free_round_trip_witness :
    (smalloc 16 100 (afterFree 24 (afterAlloc 16 (afterAlloc 16 freshPage)))).map
      (fun r => (r.1, r.2.1)) = some (some 104, ⟨1, 104, 1⟩) ∧
    ∃ F : List (Int × Int),
      FreeListOK (roundRegion 4096) (afterFree 24 (afterAlloc 16 (afterAlloc 16 freshPage))) F ∧
      walkNext (afterFree 24 (afterAlloc 16 (afterAlloc 16 freshPage))).mem (F.length + 1)
        (afterFree 24 (afterAlloc 16 (afterAlloc 16 freshPage))).head = some (F.map Prod.fst) ∧
      ∀ fuel2 : Nat, F.length < fuel2 →
        ∃ st2, sfree fuel2 (some 104)
            (afterAlloc 100 (afterFree 24 (afterAlloc 16 (afterAlloc 16 freshPage)))) =
              some st2 ∧
          FreeListOK (roundRegion 4096) st2 F ∧
          walkNext st2.mem (F.length + 1) st2.head = some (F.map Prod.fst) ∧
          ∀ x ∈ F, (st2.mem x.1).size = x.2 ∧
            ((afterFree 24 (afterAlloc 16 (afterAlloc 16 freshPage))).mem x.1).size = x.2 :=
  ⟨by decide,
    alloc_free_round_trip 4096 (afterFree 24 (afterAlloc 16 (afterAlloc 16 freshPage))) [64]
      reach_example 16 100 104 ⟨1, 104, 1⟩
      (afterAlloc 100 (afterFree 24 (afterAlloc 16 (afterAlloc 16 freshPage))))
      (by decide) (by decide) rfl⟩


/-! ## A header that is not stored to keeps its contents -/

theorem setSize_ne {m : Int → Block} {b v a : Int} (h : a ≠ b) : setSize m b v a = m a := by
  unfold setSize; rw [if_neg h]

theorem setAllocated_ne {m : Int → Block} {b v a : Int} (h : a ≠ b) :
    setAllocated m b v a = m a := by
  unfold setAllocated; rw [if_neg h]

theorem setNext_ne {m : Int → Block} {b : Int} {v : Option Int} {a : Int} (h : a ≠ b) :
    setNext m b v a = m a := by
  unfold setNext; rw [if_neg h]

theorem setPrev_ne {m : Int → Block} {b : Int} {v : Option Int} {a : Int} (h : a ≠ b) :
    setPrev m b v a = m a := by
  unfold setPrev; rw [if_neg h]

theorem setNextIf_ne {m : Int → Block} {p v : Option Int} {a : Int} (h : a ∉ p.toList) :
    setNextIf m p v a = m a := by
  cases p with
  | none => rfl
  | some b => exact setNext_ne (by simpa using h)

theorem setPrevIf_ne {m : Int → Block} {p v : Option Int} {a : Int} (h : a ∉ p.toList) :
    setPrevIf m p v a = m a := by
  cases p with
  | none => rfl
  | some b => exact setPrev_ne (by simpa using h)

theorem splitBlock_untouched (m : Int → Block) (curr block_size leftover a : Int)
    (h : a ∉ splitBlockStores m curr block_size leftover) :
    splitBlock m curr block_size leftover a = m a := by
  unfold splitBlockStores at h
  simp only [List.mem_append, List.mem_cons, List.mem_singleton, List.not_mem_nil, or_false,
    or_self, not_or] at h
  obtain ⟨⟨⟨h1, h2⟩, h3⟩, h4⟩ := h
  unfold splitBlock
  rw [setNext_ne h4, setPrevIf_ne h3, setNextIf_ne h2, setPrev_ne h1, setNext_ne h1,
    setAllocated_ne h1, setSize_ne h1]

theorem takeBlock_untouched (st : State) (p pad bs curr hops a : Int)
    (h : a ∉ takeBlockStores st p pad bs curr) :
    (takeBlock st p pad bs curr hops).2.2.mem a = st.mem a := by
  unfold takeBlockStores at h
  simp only [List.mem_append, List.mem_cons, List.mem_singleton, List.not_mem_nil, or_false,
    or_self, not_or] at h
  obtain ⟨⟨⟨h1, h2⟩, h3⟩, h4⟩ := h
  unfold takeBlock
  simp only
  rw [setPrevIf_ne h4, setNextIf_ne h3, setAllocated_ne h2, setSize_ne h2]
  split
  · rename_i hge
    rw [if_pos hge] at h1
    exact splitBlock_untouched _ _ _ _ _ h1
  · rfl

/-- What `smalloc` does not store to is unchanged, in every state. -/
theorem smalloc_untouched {fuel : Nat} {p : Int} {st st' : State} {r : Option Int}
    {status : Malloc_Status} (h : smalloc fuel p st = some (r, status, st')) :
    ∃ W, smallocStores fuel p st = some W ∧ ∀ a, a ∉ W → st'.mem a = st.mem a := by
  unfold smalloc at h
  unfold smallocStores
  simp only at h ⊢
  split at h
  · cases h
  · rename_i hops hff
    simp only [Option.some.injEq, Prod.mk.injEq] at h
    obtain ⟨_, _, h3⟩ := h
    subst h3
    exact ⟨[], rfl, fun _ _ => rfl⟩
  · rename_i curr hops hff
    simp only [Option.some.injEq] at h
    refine ⟨_, rfl, fun a ha => ?_⟩
    have := takeBlock_untouched st p (padOf p) (blockSize p (padOf p)) curr hops a ha
    rw [h] at this
    exact this

theorem linkIn_untouched {st st' : State} {new curr : Int}
    (h : linkIn st new curr = some st') :
    ∀ a, a ∉ linkInStores st new curr → st'.mem a = st.mem a := by
  intro a ha
  unfold linkIn at h
  unfold linkInStores at ha
  simp only at h ha
  split at h
  · rename_i hc
    rw [if_pos hc] at ha
    simp only [List.mem_cons, List.mem_singleton, List.not_mem_nil, or_false, or_self,
      not_or] at ha
    simp only [Option.some.injEq] at h
    subst h
    simp only
    rw [setPrev_ne ha.2, setNext_ne ha.2, setNext_ne ha.1]
  · rename_i hc
    rw [if_neg hc] at ha
    split at h
    · rename_i hc2
      rw [if_pos hc2] at ha
      simp only [List.mem_cons, List.mem_singleton, List.not_mem_nil, or_false, or_self,
        not_or] at ha
      simp only [Option.some.injEq] at h
      subst h
      simp only
      rw [setPrev_ne ha.2.2, setNext_ne ha.1, setPrev_ne ha.1]
    · rename_i hc2
      rw [if_neg hc2] at ha
      split at h
      · cases h
      · rename_i p hp
        rw [hp] at ha
        simp only [List.mem_cons, List.mem_singleton, List.not_mem_nil, or_false, not_or] at ha
        simp only [Option.some.injEq] at h
        subst h
        simp only
        rw [setPrev_ne ha.2.2.2, setPrev_ne ha.1, setNext_ne ha.2.1, setNext_ne ha.1]

theorem coalesceNext_untouched (m : Int → Block) (new a : Int)
    (h : a ∉ coalesceNextStores m new) : coalesceNext m new a = m a := by
  unfold coalesceNextStores at h
  unfold coalesceNext
  cases hn : (m new).next with
  | none => rfl
  | some n =>
    simp only [hn] at h ⊢
    split
    · rename_i hc
      rw [if_pos hc] at h
      simp only [List.mem_append, List.mem_cons, List.mem_singleton, List.not_mem_nil, or_false,
        not_or] at h
      rw [setNext_ne h.2, setPrevIf_ne h.1.2, setSize_ne h.2]
    · rfl

theorem coalescePrev_untouched (m : Int → Block) (new a : Int)
    (h : a ∉ coalescePrevStores m new) : coalescePrev m new a = m a := by
  unfold coalescePrevStores at h
  unfold coalescePrev
  cases hn : (m new).prev with
  | none => rfl
  | some p =>
    simp only [hn] at h ⊢
    split
    · rename_i hc
      rw [if_pos hc] at h
      simp only [List.mem_append, List.mem_cons, List.mem_singleton, List.not_mem_nil, or_false,
        or_self, not_or] at h
      rw [setPrevIf_ne h.2, setNext_ne h.1, setSize_ne h.1]
    · rfl

/-- What `sfree` does not store to is unchanged, in every state. -/
theorem sfree_untouched {fuel : Nat} {ptr : Option Int} {st st' : State}
    (h : sfree fuel ptr st = some st') :
    ∃ W, sfreeStores fuel ptr st = some W ∧ ∀ a, a ∉ W → st'.mem a = st.mem a := by
  unfold sfree at h
  unfold sfreeStores
  cases ptr with
  | none =>
    simp only [Option.some.injEq] at h
    subst h
    exact ⟨[], rfl, fun _ _ => rfl⟩
  | some q =>
    simp only at h ⊢
    cases hh : st.head with
    | none =>
      simp only [hh, Option.some.injEq] at h
      subst h
      refine ⟨_, rfl, fun a ha => ?_⟩
      simp only [List.mem_cons, List.mem_singleton, List.not_mem_nil, or_false, or_self] at ha
      simp only
      rw [setNext_ne ha, setPrev_ne ha, setAllocated_ne ha]
    | some c =>
      simp only [hh] at h ⊢
      cases hfs : findSpot (setAllocated st.mem (q - HEADER_SIZE) 0) (q - HEADER_SIZE) fuel c with
      | none => simp [hfs] at h
      | some curr =>
        simp only [hfs] at h ⊢
        cases hl : linkIn { mem := setAllocated st.mem (q - HEADER_SIZE) 0, head := some c }
            (q - HEADER_SIZE) curr with
        | none => simp [hl] at h
        | some st1 =>
          simp only [hl, Option.some.injEq] at h ⊢
          subst h
          refine ⟨_, rfl, fun a ha => ?_⟩
          simp only [List.mem_append, List.mem_cons, List.mem_singleton, List.not_mem_nil,
            or_false, not_or] at ha
          obtain ⟨⟨⟨h1, h2⟩, h3⟩, h4⟩ := ha
          simp only
          rw [coalescePrev_untouched _ _ _ h4, coalesceNext_untouched _ _ _ h3,
            linkIn_untouched hl a h2]
          exact setAllocated_ne h1


/-! ## Where the stores of a call go -/

theorem takeBlockStores_split (st : State) (p pad r c lf : Int) (P N : Option Int)
    (hprev : (st.mem c).prev = P) (hnext : (st.mem c).next = N)
    (hlf : wrap32 ((st.mem c).size - r) = lf) (h24 : 24 ≤ lf) (hr : 0 < r)
    (hPc : P ≠ some c) (hNc : N ≠ some c) :
    ∀ a ∈ takeBlockStores st p pad r c, a = c ∨ a = c + r ∨ P = some a ∨ N = some a := by
  have hcn : c ≠ c + r := by omega
  have hcn' : c + r ≠ c := by omega
  intro a ha
  simp only [takeBlockStores, splitBlockStores, splitBlock, hlf, HEADER_SIZE, ge_iff_le, h24,
    if_true] at ha
  simp [hprev, hnext, hcn, hcn', hPc, hNc] at ha
  rcases ha with h | h | h | h | h | h | h <;> simp_all

theorem takeBlockStores_whole (st : State) (p pad r c lf : Int) (P N : Option Int)
    (hprev : (st.mem c).prev = P) (hnext : (st.mem c).next = N)
    (hlf : wrap32 ((st.mem c).size - r) = lf) (h24 : lf < 24)
    (hPc : P ≠ some c) :
    ∀ a ∈ takeBlockStores st p pad r c, a = c ∨ P = some a ∨ N = some a := by
  have h24' : ¬ (24 ≤ lf) := by omega
  intro a ha
  simp only [takeBlockStores, hlf, HEADER_SIZE, ge_iff_le, h24', if_false] at ha
  simp [hprev, hnext, hPc] at ha
  rcases ha with h | h | h <;> simp_all

/-- On a well-formed free list the stores of an allocation go to the chosen
block, to the remainder inside it, or to headers of its list neighbours. The
required size `r` is at least a header, or it has wrapped around to the bottom
of the `int` range. -/
theorem takeBlock_stores_ok {R : Int} {st : State} {l1 l2 : List (Int × Int)} {c : Int × Int}
    (ok : FreeListOK R st (l1 ++ c :: l2)) {r : Int} (hr : r ≤ c.2) (h24 : 24 ≤ c.2)
    (hr0 : INT_MIN ≤ r) (hr2 : 24 ≤ r ∨ r ≤ INT_MIN + 24) (p pad : Int) :
    ∀ a ∈ takeBlockStores st p pad r c.1,
      (c.1 ≤ a ∧ a + 24 ≤ c.1 + c.2) ∨ a ∈ (l1 ++ l2).map Prod.fst := by
  obtain ⟨hprev, hnext, _, _, hlt1, hlt2, _⟩ := ok.at_entry
  have hin := ok.inside
  have hinc := hin c (by simp)
  have hb := ok.bound
  unfold INT_MAX at hb
  unfold INT_MIN at hr0 hr2
  have hsz := ok.size_eq c (by simp)
  have hP : ∀ a, lastOr (l1.map Prod.fst) none = some a → a ∈ l1.map Prod.fst := by
    intro a ha
    rcases lastOr_eq_some ha with h | h
    · cases h.2
    · exact h
  have hN : ∀ a, hdOr (l2.map Prod.fst) none = some a → a ∈ l2.map Prod.fst := by
    intro a ha
    rcases hdOr_eq_some ha with h | h
    · cases h.2
    · exact h
  have hPc : lastOr (l1.map Prod.fst) none ≠ some c.1 := by
    intro e
    obtain ⟨x, hx, ex⟩ := List.mem_map.mp (hP _ e)
    have := hlt1 x hx; have := hin x (by simp [hx]); omega
  have hNc : hdOr (l2.map Prod.fst) none ≠ some c.1 := by
    intro e
    obtain ⟨x, hx, ex⟩ := List.mem_map.mp (hN _ e)
    have := hlt2 x hx; omega
  have whole : ∀ lf, wrap32 ((st.mem c.1).size - r) = lf → lf < 24 →
      ∀ a ∈ takeBlockStores st p pad r c.1,
        (c.1 ≤ a ∧ a + 24 ≤ c.1 + c.2) ∨ a ∈ (l1 ++ l2).map Prod.fst := by
    intro lf hlf hlt a ha
    rcases takeBlockStores_whole st p pad r c.1 lf _ _ hprev hnext hlf hlt hPc a ha with h | h | h
    · exact Or.inl ⟨by omega, by omega⟩
    · exact Or.inr (by rw [List.map_append]; exact List.mem_append_left _ (hP a h))
    · exact Or.inr (by rw [List.map_append]; exact List.mem_append_right _ (hN a h))
  rcases hr2 with hr2 | hr2
  · have hleft : wrap32 ((st.mem c.1).size - r) = c.2 - r := by
      rw [hsz]; exact wrap32_of_range (by omega) (by omega)
    by_cases hsplit : 24 ≤ c.2 - r
    · intro a ha
      rcases takeBlockStores_split st p pad r c.1 _ _ _ hprev hnext hleft hsplit
        (by omega) hPc hNc a ha with h | h | h | h
      · exact Or.inl ⟨by omega, by omega⟩
      · exact Or.inl ⟨by omega, by omega⟩
      · exact Or.inr (by rw [List.map_append]; exact List.mem_append_left _ (hP a h))
      · exact Or.inr (by rw [List.map_append]; exact List.mem_append_right _ (hN a h))
    · exact whole _ hleft (by omega)
  · have hleft : wrap32 ((st.mem c.1).size - r) = c.2 - r - 4294967296 := by
      rw [hsz]; unfold wrap32; omega
    exact whole _ hleft (by omega)

theorem smallocStores_of_some {fuel : Nat} {p q : Int} {st st' : State} {status : Malloc_Status}
    (h : smalloc fuel p st = some (some q, status, st')) :
    smallocStores fuel p st =
      some (takeBlockStores st p (padOf p) (blockSize p (padOf p)) (q - 24)) := by
  unfold smalloc at h
  unfold smallocStores
  simp only at h ⊢
  split at h
  · cases h
  · simp at h
  · rename_i curr hops hff
    simp only [takeBlock, Option.some.injEq, Prod.mk.injEq, HEADER_SIZE] at h
    have e : q - 24 = curr := by omega
    rw [e]

theorem smallocStores_of_none {fuel : Nat} {p : Int} {st st' : State} {status : Malloc_Status}
    (h : smalloc fuel p st = some (none, status, st')) : smallocStores fuel p st = some [] := by
  unfold smalloc at h
  unfold smallocStores
  simp only at h ⊢
  split at h
  · cases h
  · rfl
  · simp [takeBlock] at h

theorem Linked.prev_mem {m : Int → Block} {l : List Int} {p n : Option Int}
    (h : Linked m p l n) :
    ∀ x ∈ l, ∀ y, (m x).prev = some y → y ∈ l ∨ p = some y := by
  induction l generalizing p with
  | nil => simp
  | cons a t ih =>
    obtain ⟨h1, _, h3⟩ := h
    intro x hx y hy
    rcases List.mem_cons.mp hx with e | hx'
    · subst e
      rw [h1] at hy
      exact Or.inr hy
    · rcases ih h3 x hx' y hy with i | i
      · exact Or.inl (List.mem_cons_of_mem _ i)
      · simp only [Option.some.injEq] at i
        subst i
        exact Or.inl (List.mem_cons_self _ _)

theorem findSpot_mem {m : Int → Block} {l : List Int} {p : Option Int} (h : Linked m p l none)
    {b : Int} {fuel : Nat} {cur res : Int} (hc : cur ∈ l)
    (hr : findSpot m b fuel cur = some res) : res ∈ l := by
  induction fuel generalizing cur with
  | zero => cases hr
  | succ k ih =>
    simp only [findSpot] at hr
    cases hn : (m cur).next with
    | none =>
      simp only [hn, Option.some.injEq] at hr
      subst hr; exact hc
    | some nx =>
      simp only [hn] at hr
      split at hr
      · exact ih (h.next_prev cur hc nx hn).1 hr
      · simp only [Option.some.injEq] at hr
        subst hr; exact hc

theorem linkInStores_sub (st : State) (new curr : Int) :
    ∀ a ∈ linkInStores st new curr, a = new ∨ a = curr ∨ (st.mem curr).prev = some a := by
  intro a ha
  unfold linkInStores at ha
  simp only at ha
  split at ha
  · simp only [List.mem_cons, List.mem_singleton, List.not_mem_nil, or_false] at ha
    rcases ha with h | h | h <;> simp [h]
  · split at ha
    · simp only [List.mem_cons, List.mem_singleton, List.not_mem_nil, or_false] at ha
      rcases ha with h | h | h <;> simp [h]
    · split at ha
      · simp only [List.mem_singleton] at ha
        exact Or.inl ha
      · rename_i pp hpp
        simp only [setNext_prev] at hpp
        simp only [List.mem_cons, List.mem_singleton, List.not_mem_nil, or_false] at ha
        rcases ha with h | h | h | h
        · exact Or.inl h
        · exact Or.inr (Or.inr (by rw [hpp, h]))
        · exact Or.inl h
        · exact Or.inr (Or.inl h)

theorem coalesceNextStores_sub (m : Int → Block) (new : Int) :
    ∀ a ∈ coalesceNextStores m new,
      a = new ∨ ∃ n, (m new).next = some n ∧ (m n).next = some a := by
  intro a ha
  unfold coalesceNextStores at ha
  cases hn : (m new).next with
  | none => simp [hn] at ha
  | some n =>
    simp only [hn] at ha
    split at ha
    · simp only [setSize_next, List.mem_append, List.mem_cons, List.mem_singleton,
        List.not_mem_nil, or_false, Option.mem_toList, Option.mem_def] at ha
      rcases ha with (h | h) | h
      · exact Or.inl h
      · exact Or.inr ⟨n, rfl, h⟩
      · exact Or.inl h
    · simp at ha

theorem coalescePrevStores_sub (m : Int → Block) (new : Int) :
    ∀ a ∈ coalescePrevStores m new, (m new).prev = some a ∨ (m new).next = some a := by
  intro a ha
  unfold coalescePrevStores at ha
  cases hn : (m new).prev with
  | none => simp [hn] at ha
  | some p =>
    simp only [hn] at ha
    split at ha
    · simp only [setNext_next, setSize_next, List.mem_append, List.mem_cons, List.mem_singleton,
        List.not_mem_nil, or_false, or_self, Option.mem_toList, Option.mem_def] at ha
      rcases ha with h | h
      · exact Or.inl (by rw [h])
      · right
        split at h
        · exact h
        · exact h
    · simp at ha

theorem mergeNext_sub (e : Int × Int) (l2 : List (Int × Int)) :
    ∀ y ∈ (mergeNext e l2).2, y ∈ l2 := by
  cases l2 with
  | nil => simp [mergeNext]
  | cons y t =>
    simp only [mergeNext]
    split
    · intro z hz; exact List.mem_cons_of_mem _ hz
    · intro z hz; exact hz

/-- On a well-formed free list the stores of `sfree` go to the header of the
freed block or to headers of free-list entries. -/
theorem sfree_stores_ok {R : Int} {st : State} {l1 l2 : List (Int × Int)} {b : Int}
    (ok : FreeListOK R st (l1 ++ l2))
    (hb : 0 ≤ b ∧ 0 < (st.mem b).size ∧ b + (st.mem b).size ≤ R)
    (h1 : ∀ x ∈ l1, x.1 + x.2 ≤ b) (h2 : ∀ y ∈ l2, b + (st.mem b).size ≤ y.1)
    {fuel : Nat} (hf : (l1 ++ l2).length < fuel) :
    ∃ W, sfreeStores fuel (some (b + 24)) st = some W ∧
      ∀ a ∈ W, a = b ∨ a ∈ (l1 ++ l2).map Prod.fst := by
  have hbb : b + 24 - HEADER_SIZE = b := by unfold HEADER_SIZE; omega
  have m1 : ∀ x ∈ l1, x.1 < b := fun x hx => by
    have := h1 x hx; have := ok.inside x (by simp [hx]); omega
  have m2 : ∀ y ∈ l2, b < y.1 := fun y hy => by
    have := h2 y hy; omega
  by_cases hne : l1 ++ l2 = []
  · have hh : st.head = none := by
      have := ok.head_eq
      rw [hne] at this
      exact this
    refine ⟨[b, b, b], ?_, fun a ha => ?_⟩
    · unfold sfreeStores
      simp only [hbb, hh]
    · simp only [List.mem_cons, List.mem_singleton, List.not_mem_nil, or_false, or_self] at ha
      exact Or.inl ha
  · obtain ⟨h0, curr, hh0, hfind, stA, hlink, fh, fn, fp, fs, fa⟩ := link_fields ok hne m1 m2 hf
    have okA : FreeListOK R stA (l1 ++ (b, (st.mem b).size) :: l2) :=
      insert_ok ok hb h1 h2 fh fn fp (fun a => by
        rw [fs]; split_ifs <;> first | rfl | (subst_vars; rfl)) fa
    obtain ⟨okB, _, _⟩ := coalesceNext_ok okA
    rw [mergeNext_fst] at okB
    have hlink' := hlink
    rw [hh0] at hlink'
    have hl0 : Linked (setAllocated st.mem b 0) none ((l1 ++ l2).map Prod.fst) none :=
      ok.linked.frame (fun a _ => by simp) (fun a _ => by simp)
    have hh0m : h0 ∈ (l1 ++ l2).map Prod.fst := by
      have := ok.head_eq
      rw [hh0] at this
      rcases hdOr_eq_some this.symm with h | h
      · cases h.2
      · exact h
    have hcm : curr ∈ (l1 ++ l2).map Prod.fst := findSpot_mem hl0 hh0m hfind
    have hmemA : ∀ a, a ∈ (l1 ++ (b, (st.mem b).size) :: l2).map Prod.fst →
        a = b ∨ a ∈ (l1 ++ l2).map Prod.fst := by
      intro a ha
      simp only [List.map_append, List.map_cons, List.mem_append, List.mem_cons] at ha ⊢
      tauto
    refine ⟨[b] ++ linkInStores { mem := setAllocated st.mem b 0, head := some h0 } b curr ++
      coalesceNextStores stA.mem b ++ coalescePrevStores (coalesceNext stA.mem b) b,
      ?_, fun a ha => ?_⟩
    · unfold sfreeStores
      simp only [hbb, hh0, hfind, hlink']
    · simp only [List.mem_append, List.mem_singleton] at ha
      rcases ha with ((ha | ha) | ha) | ha
      · exact Or.inl ha
      · rcases linkInStores_sub _ b curr a ha with h | h | h
        · exact Or.inl h
        · exact Or.inr (h ▸ hcm)
        · rcases hl0.prev_mem curr hcm a h with i | i
          · exact Or.inr i
          · cases i
      · rcases coalesceNextStores_sub _ b a ha with h | ⟨n, hn1, hn2⟩
        · exact Or.inl h
        · have hn := (okA.linked.next_prev b (by simp) n hn1).1
          exact hmemA a (okA.linked.next_prev n hn a hn2).1
      · obtain ⟨hpB, hnB, _⟩ := okB.at_entry
        simp only at hpB hnB
        rcases coalescePrevStores_sub _ b a ha with h | h
        · rw [hpB] at h
          rcases lastOr_eq_some h with i | i
          · cases i.2
          · exact Or.inr (by rw [List.map_append]; exact List.mem_append_left _ i)
        · rw [hnB] at h
          rcases hdOr_eq_some h with i | i
          · cases i.2
          · obtain ⟨y, hy, ey⟩ := List.mem_map.mp i
            have := mergeNext_sub _ _ y hy
            exact Or.inr (by
              rw [List.map_append]
              exact List.mem_append_right _ (List.mem_map.mpr ⟨y, this, ey⟩))

theorem firstFit_fits {m : Int → Block} {r : Int} {fuel : Nat} {start : Option Int}
    {hops hops' : Int} {c : Int}
    (h : firstFit m r fuel start hops = some (some c, hops')) : ¬ (m c).size < r := by
  induction fuel generalizing start hops with
  | zero => cases h
  | succ k ih =>
    cases start with
    | none => simp [firstFit] at h
    | some a =>
      simp only [firstFit] at h
      split at h
      · exact ih h
      · rename_i hn
        simp only [Option.some.injEq, Prod.mk.injEq] at h
        rw [← h.1]; exact hn

/-- The block a successful `smalloc` takes is large enough for the required
size as the code computed it. -/
theorem smalloc_fit {fuel : Nat} {p q : Int} {st st' : State} {status : Malloc_Status}
    (h : smalloc fuel p st = some (some q, status, st')) :
    ¬ (st.mem (q - 24)).size < blockSize p (padOf p) := by
  unfold smalloc at h
  simp only at h
  split at h
  · cases h
  · simp at h
  · rename_i curr hops hff
    simp only [takeBlock, Option.some.injEq, Prod.mk.injEq, HEADER_SIZE] at h
    have e : q - 24 = curr := by omega
    rw [e]
    exact firstFit_fits hff

/-- The required block size of a non-negative `int` payload size: at least a
header, or wrapped around to the bottom of the `int` range. -/
theorem blockSize_cases {p : Int} (h0 : 0 ≤ p) (h1 : p ≤ INT_MAX) :
    INT_MIN ≤ blockSize p (padOf p) ∧
      (24 ≤ blockSize p (padOf p) ∨ blockSize p (padOf p) ≤ INT_MIN + 24) := by
  obtain ⟨h, _, _⟩ := padOf_eq h0
  unfold INT_MAX at h1
  unfold blockSize HEADER_SIZE INT_MIN
  rw [h]
  have : roundUp8 p ≤ p + 7 := by unfold roundUp8; omega
  have : p ≤ roundUp8 p := by unfold roundUp8; omega
  have : roundUp8 p % 8 = 0 := by unfold roundUp8; omega
  unfold wrap32
  omega

/-- Distinct blocks of a tiling do not overlap. -/
theorem Tiled.disjoint {a e : Int} {T : List Blk} (h : Tiled a e T) :
    ∀ x ∈ T, ∀ y ∈ T, x ≠ y → x.addr + x.size ≤ y.addr ∨ y.addr + y.size ≤ x.addr := by
  induction T generalizing a with
  | nil => simp
  | cons b t ih =>
    obtain ⟨h1, h2, h3, h4⟩ := h
    have bd := h4.bounds.2.2
    intro x hx y hy hxy
    rcases List.mem_cons.mp hx with ex | hx' <;> rcases List.mem_cons.mp hy with ey | hy'
    · exact absurd (ex.trans ey.symm) hxy
    · have := bd y hy'; rw [ex]; left; omega
    · have := bd x hx'; rw [ey]; right; omega
    · exact ih h4 x hx' y hy' hxy

/-- A header that lies inside a free block lies outside every allocated block. -/
theorem Inv.free_apart {R : Int} {st : State} {T : List Blk} {outs : List Int}
    (inv : Inv R st T outs) {c : Int × Int} (hc : c ∈ freeOf T) {q' : Int} (hq' : q' ∈ outs)
    {a : Int} (h1 : c.1 ≤ a) (h2 : a + 24 ≤ c.1 + c.2) :
    a + 24 ≤ q' - 24 ∨ (q' - 24) + (st.mem (q' - 24)).size ≤ a := by
  obtain ⟨b, hb, hf, rfl⟩ := mem_freeOf hc
  obtain ⟨b', hb', hf', rfl⟩ := (inv.outs_iff q').mp hq'
  have hne : b ≠ b' := by
    intro e; rw [e, hf'] at hf; cases hf
  have e : b'.addr + 24 - 24 = b'.addr := by omega
  rw [e, (inv.hdr b' hb' hf').1]
  simp only at h1 h2
  rcases inv.tiled.disjoint b hb b' hb' hne with d | d
  · left; omega
  · right; omega

/-- The header of one allocated block lies outside every other allocated block. -/
theorem Inv.used_apart {R : Int} {st : State} {T : List Blk} {outs : List Int}
    (inv : Inv R st T outs) {q q' : Int} (hq : q ∈ outs) (hq' : q' ∈ outs) (hne : q ≠ q') :
    (q - 24) + 24 ≤ q' - 24 ∨ (q' - 24) + (st.mem (q' - 24)).size ≤ q - 24 := by
  obtain ⟨b, hb, hf, rfl⟩ := (inv.outs_iff q).mp hq
  obtain ⟨b', hb', hf', rfl⟩ := (inv.outs_iff q').mp hq'
  have hbb : b ≠ b' := by
    intro e; rw [e] at hne; exact hne rfl
  have e : b'.addr + 24 - 24 = b'.addr := by omega
  rw [e, (inv.hdr b' hb' hf').1]
  have := (inv.tiled.size_ok b hb).1
  rcases inv.tiled.disjoint b hb b' hb' hbb with d | d
  · left; omega
  · right; omega

theorem sfreeStores_mono {f : Nat} {ptr : Option Int} {st : State} {W : List Int}
    (hr : sfreeStores f ptr st = some W) {f' : Nat} (hf : f ≤ f') :
    sfreeStores f' ptr st = some W := by
  unfold sfreeStores at hr ⊢
  cases ptr with
  | none => exact hr
  | some q =>
    cases hh : st.head with
    | none => simpa [hh] using hr
    | some c =>
      simp only [hh] at hr ⊢
      cases hfs : findSpot (setAllocated st.mem (q - HEADER_SIZE) 0) (q - HEADER_SIZE) f c with
      | none => simp [hfs] at hr
      | some v => simpa [findSpot_mono hfs hf, hfs] using hr

/-- In a state satisfying the invariant the stores of `sfree(q)` go to the
header of the freed block or to headers of free blocks. -/
theorem Inv.free_stores {R : Int} {st : State} {T : List Blk} {outs : List Int}
    (inv : Inv R st T outs) {q : Int} (hq : q ∈ outs)
    {fuel : Nat} {W : List Int} (h : sfreeStores fuel (some q) st = some W) :
    ∀ a ∈ W, a = q - 24 ∨ a ∈ (freeOf T).map Prod.fst := by
  obtain ⟨b, hbT, hbf, rfl⟩ := (inv.outs_iff q).mp hq
  obtain ⟨T1, T2, rfl⟩ := List.append_of_mem hbT
  obtain ⟨t1, t2, t3, t4⟩ := Tiled_split.mp inv.tiled
  obtain ⟨hsz, hal⟩ := inv.hdr b hbT hbf
  have b1 := t1.bounds.2.2
  have b2 := t4.bounds.2.2
  have hR := t4.bounds.1
  have h0 := t1.bounds.1
  have ok : FreeListOK R st (freeOf T1 ++ freeOf T2) := by
    have := inv.fl
    rwa [freeOf_append, freeOf_cons_used hbf] at this
  have h1 : ∀ x ∈ freeOf T1, x.1 + x.2 ≤ b.addr := by
    intro x hx
    obtain ⟨y, hy, _, rfl⟩ := mem_freeOf hx
    exact (b1 y hy).2.1
  have h2 : ∀ y ∈ freeOf T2, b.addr + (st.mem b.addr).size ≤ y.1 := by
    intro x hx
    obtain ⟨y, hy, _, rfl⟩ := mem_freeOf hx
    rw [hsz]
    exact (b2 y hy).1
  obtain ⟨W2, hW2, hloc⟩ := sfree_stores_ok ok
    (by rw [hsz]; exact ⟨h0, by omega, by omega⟩) h1 h2
    (show (freeOf T1 ++ freeOf T2).length < (freeOf T1 ++ freeOf T2).length + (fuel + 1) by omega)
  have h' := sfreeStores_mono h
    (show fuel ≤ (freeOf T1 ++ freeOf T2).length + (fuel + 1) by omega)
  rw [hW2] at h'
  simp only [Option.some.injEq] at h'
  subst h'
  intro a ha
  rcases hloc a ha with e | e
  · exact Or.inl (by omega)
  · right
    rw [freeOf_append, freeOf_cons_used hbf]
    exact e

/-- In a state satisfying the invariant the stores of a successful `smalloc`
go to headers inside the chosen free block or to headers of free blocks. -/
theorem Inv.alloc_stores {R : Int} {st : State} {T : List Blk} {outs : List Int}
    (inv : Inv R st T outs) {p : Int} (hp : 0 ≤ p) (hp2 : p ≤ INT_MAX)
    {fuel : Nat} {q : Int} {status : Malloc_Status} {st' : State}
    (h : smalloc fuel p st = some (some q, status, st')) :
    ∃ c ∈ freeOf T, q = c.1 + 24 ∧
      ∀ a ∈ takeBlockStores st p (padOf p) (blockSize p (padOf p)) (q - 24),
        (c.1 ≤ a ∧ a + 24 ≤ c.1 + c.2) ∨ a ∈ (freeOf T).map Prod.fst := by
  obtain ⟨c, hc, hq, _, _⟩ := smalloc_some_entry inv.fl h
  obtain ⟨l1, l2, hF⟩ := List.append_of_mem hc
  have ok : FreeListOK R st (l1 ++ c :: l2) := hF ▸ inv.fl
  have hfit := smalloc_fit h
  have e : q - 24 = c.1 := by omega
  rw [e, ok.size_eq c (by simp)] at hfit
  obtain ⟨b, hb, _, hcb⟩ := mem_freeOf hc
  have h24 : 24 ≤ c.2 := by
    rw [hcb]; exact (inv.tiled.size_ok b hb).1
  obtain ⟨r0, r2⟩ := blockSize_cases hp hp2
  refine ⟨c, hc, hq, fun a ha => ?_⟩
  rw [e] at ha
  rcases takeBlock_stores_ok ok (by omega) h24 r0 r2 p (padOf p) a ha with i | i
  · exact Or.inl i
  · right
    rw [hF]
    simp only [List.map_append, List.map_cons, List.mem_append, List.mem_cons] at i ⊢
    tauto

/-- The header of an outstanding block carries a size of at least a header and
the flag 1. -/
theorem Inv.out_header {R : Int} {st : State} {T : List Blk} {outs : List Int}
    (inv : Inv R st T outs) {q' : Int} (hq' : q' ∈ outs) :
    24 ≤ (st.mem (q' - 24)).size ∧ (st.mem (q' - 24)).allocated = 1 := by
  obtain ⟨b', hb', hf', rfl⟩ := (inv.outs_iff q').mp hq'
  have e : b'.addr + 24 - 24 = b'.addr := by omega
  rw [e, (inv.hdr b' hb' hf').1, (inv.hdr b' hb' hf').2]
  exact ⟨(inv.tiled.size_ok b' hb').1, rfl⟩

/-- The header of a free-list entry lies outside every allocated block. -/
theorem Inv.entry_apart {R : Int} {st : State} {T : List Blk} {outs : List Int}
    (inv : Inv R st T outs) {a : Int} (ha : a ∈ (freeOf T).map Prod.fst)
    {q' : Int} (hq' : q' ∈ outs) :
    a + 24 ≤ q' - 24 ∨ (q' - 24) + (st.mem (q' - 24)).size ≤ a := by
  obtain ⟨x, hx, rfl⟩ := List.mem_map.mp ha
  obtain ⟨b, hb, _, hxb⟩ := mem_freeOf hx
  have h24 : 24 ≤ x.2 := by
    rw [hxb]; exact (inv.tiled.size_ok b hb).1
  exact inv.free_apart hx hq' (le_refl _) (by omega)

/-- The header stores of a call. In every reachable state, with `F` the free
list: a `smalloc` call with a non-negative `int` payload size leaves every
header it does not store to as it was, each of its header stores goes to the
header of a free-list entry or to a header inside the extent of the chosen free
block (the header of the block being allocated among them), and an `sfree` call
on `NULL` or an outstanding pointer stores only to headers of free-list entries
and to the header of the block being freed. For every block that is outstanding
before and after the call, the header is unchanged and every stored header lies
wholly outside the block's extent. -/
theorem header_frame (n : Int) (st : State) (outs : List Int) (h : Reach n st outs) :
    ∃ F : List Int, walkNext st.mem (F.length + 1) st.head = some F ∧
      (∀ (fuel : Nat) (p : Int) (r : Option Int) (status : Malloc_Status) (st' : State),
        0 ≤ p → p ≤ INT_MAX → smalloc fuel p st = some (r, status, st') →
        ∃ W, smallocStores fuel p st = some W ∧
          (∀ a, a ∉ W → st'.mem a = st.mem a) ∧
          (∀ a ∈ W, a ∈ F ∨ ∃ q, r = some q ∧ q - 24 ∈ F ∧
            q - 24 ≤ a ∧ a + 24 ≤ (q - 24) + (st.mem (q - 24)).size) ∧
          (∀ q' ∈ outs, (st.mem (q' - 24)).allocated = 1 ∧
            st'.mem (q' - 24) = st.mem (q' - 24) ∧
            ∀ a ∈ W, a + 24 ≤ q' - 24 ∨ (q' - 24) + (st.mem (q' - 24)).size ≤ a)) ∧
      (∀ (fuel : Nat) (ptr : Option Int) (st' : State),
        (ptr = none ∨ ∃ q ∈ outs, ptr = some q) → sfree fuel ptr st = some st' →
        ∃ W, sfreeStores fuel ptr st = some W ∧
          (∀ a, a ∉ W → st'.mem a = st.mem a) ∧
          (∀ a ∈ W, a ∈ F ∨ ptr = some (a + 24)) ∧
          (∀ q' ∈ outs, ptr ≠ some q' → (st.mem (q' - 24)).allocated = 1 ∧
            st'.mem (q' - 24) = st.mem (q' - 24) ∧
            ∀ a ∈ W, a + 24 ≤ q' - 24 ∨ (q' - 24) + (st.mem (q' - 24)).size ≤ a)) := by
  obtain ⟨T, inv⟩ := reach_inv h
  have keep : ∀ (W : List Int) (st' : State) (q' : Int), q' ∈ outs →
      (∀ a, a ∉ W → st'.mem a = st.mem a) →
      (∀ a ∈ W, a + 24 ≤ q' - 24 ∨ (q' - 24) + (st.mem (q' - 24)).size ≤ a) →
      (st.mem (q' - 24)).allocated = 1 ∧ st'.mem (q' - 24) = st.mem (q' - 24) ∧
        ∀ a ∈ W, a + 24 ≤ q' - 24 ∨ (q' - 24) + (st.mem (q' - 24)).size ≤ a := by
    intro W st' q' hq' hun hap
    obtain ⟨s24, hal⟩ := inv.out_header hq'
    refine ⟨hal, hun _ (fun hmem => ?_), hap⟩
    have := hap _ hmem
    omega
  refine ⟨(freeOf T).map Prod.fst, ?_, ?_, ?_⟩
  · rw [inv.fl.head_eq]
    exact inv.fl.linked.walkNext _ (by omega)
  · intro fuel p r status st' hp hp2 hs
    obtain ⟨W, hW, hun⟩ := smalloc_untouched hs
    refine ⟨W, hW, hun, ?_⟩
    cases r with
    | none =>
      have e := smallocStores_of_none hs
      rw [hW] at e
      simp only [Option.some.injEq] at e
      subst e
      exact ⟨fun a ha => absurd ha (List.not_mem_nil a),
        fun q' hq' => keep [] st' q' hq' hun (fun a ha => absurd ha (List.not_mem_nil a))⟩
    | some q =>
      have e := smallocStores_of_some hs
      rw [hW] at e
      simp only [Option.some.injEq] at e
      subst e
      obtain ⟨c, hc, hq, hloc⟩ := inv.alloc_stores hp hp2 hs
      have eq : q - 24 = c.1 := by omega
      have hsz : (st.mem (q - 24)).size = c.2 := by
        rw [eq]; exact inv.fl.size_eq c hc
      refine ⟨fun a ha => ?_, fun q' hq' => keep _ st' q' hq' hun (fun a ha => ?_)⟩
      · rcases hloc a ha with i | i
        · right
          exact ⟨q, rfl, by rw [eq]; exact List.mem_map_of_mem _ hc, by omega, by omega⟩
        · exact Or.inl i
      · rcases hloc a ha with i | i
        · exact inv.free_apart hc hq' i.1 i.2
        · exact inv.entry_apart i hq'
  · intro fuel ptr st' hptr hs
    obtain ⟨W, hW, hun⟩ := sfree_untouched hs
    refine ⟨W, hW, hun, ?_⟩
    rcases hptr with rfl | ⟨q, hq, rfl⟩
    · have e : sfreeStores fuel none st = some [] := rfl
      rw [hW] at e
      simp only [Option.some.injEq] at e
      subst e
      exact ⟨fun a ha => absurd ha (List.not_mem_nil a),
        fun q' hq' _ => keep [] st' q' hq' hun (fun a ha => absurd ha (List.not_mem_nil a))⟩
    · have hloc := inv.free_stores hq hW
      refine ⟨fun a ha => ?_, fun q' hq' hne => keep _ st' q' hq' hun (fun a ha => ?_)⟩
      · rcases hloc a ha with i | i
        · right
          rw [i]
          exact congrArg some (by omega)
        · exact Or.inl i
      · rcases hloc a ha with i | i
        · have hqq : q ≠ q' := fun e => hne (by rw [e])
          have := inv.used_apart hq hq' hqq
          rw [i]
          exact this
        · exact inv.entry_apart i hq'


/-! ## The stores through `status` -/

theorem wrap32_idem (x : Int) : wrap32 (wrap32 x) = wrap32 x := by
  unfold wrap32; omega

theorem storeInt_outside (d : Int → Int) (a v x : Int) (h : x < a ∨ a + 4 ≤ x) :
    storeInt d a v x = d x := by
  unfold storeInt
  rw [if_neg (by omega)]

/-- Loading the `int` just stored gives it back, reduced to 32 bits. -/
theorem loadInt_storeInt (d : Int → Int) (a v : Int) :
    loadInt (storeInt d a v) a = wrap32 v := by
  have e0 : storeInt d a v a = v % 4294967296 % 256 := by
    unfold storeInt byteOf
    rw [if_pos (by omega), if_pos (by omega)]
  have e1 : storeInt d a v (a + 1) = v % 4294967296 / 256 % 256 := by
    unfold storeInt byteOf
    rw [if_pos (by omega), if_neg (by omega), if_pos (by omega)]
  have e2 : storeInt d a v (a + 2) = v % 4294967296 / 65536 % 256 := by
    unfold storeInt byteOf
    rw [if_pos (by omega), if_neg (by omega), if_neg (by omega), if_pos (by omega)]
  have e3 : storeInt d a v (a + 3) = v % 4294967296 / 16777216 % 256 := by
    unfold storeInt byteOf
    rw [if_pos (by omega), if_neg (by omega), if_neg (by omega), if_neg (by omega)]
  unfold loadInt
  rw [e0, e1, e2, e3]
  unfold wrap32
  omega

/-- A store to four bytes leaves an `int` that does not overlap them as it was. -/
theorem loadInt_storeInt_ne (d : Int → Int) (a v b : Int) (h : b + 4 ≤ a ∨ a + 4 ≤ b) :
    loadInt (storeInt d a v) b = loadInt d b := by
  unfold loadInt
  rw [storeInt_outside d a v b (by omega), storeInt_outside d a v (b + 1) (by omega),
    storeInt_outside d a v (b + 2) (by omega), storeInt_outside d a v (b + 3) (by omega)]

/-- The loop with its store visits the blocks the loop of `firstFit` visits,
counts the hops in the `int` at `status + 8` and writes no other byte. -/
theorem firstFitAt_spec (m : Int → Block) (bs s : Int) :
    ∀ (fuel : Nat) (start : Option Int) (d : Int → Int),
      (firstFit m bs fuel start (loadInt d (s + 8)) = none ∧
        firstFitAt m bs s fuel start d = none) ∨
      ∃ c h' d', firstFit m bs fuel start (loadInt d (s + 8)) = some (c, h') ∧
        firstFitAt m bs s fuel start d = some (c, d') ∧ loadInt d' (s + 8) = h' ∧
        ∀ x, (x < s + 8 ∨ s + 12 ≤ x) → d' x = d x := by
  intro fuel
  induction fuel with
  | zero => intro start d; exact Or.inl ⟨rfl, rfl⟩
  | succ k ih =>
    intro start d
    cases start with
    | none => exact Or.inr ⟨none, _, d, rfl, rfl, rfl, fun _ _ => rfl⟩
    | some curr =>
      simp only [firstFit, firstFitAt]
      split
      · have e := loadInt_storeInt d (s + 8) (wrap32 (loadInt d (s + 8) + 1))
        rw [wrap32_idem] at e
        rcases ih (m curr).next
          (storeInt d (s + 8) (wrap32 (loadInt d (s + 8) + 1))) with ⟨h1, h2⟩ | ⟨c, h', d', h1, h2, h3, h4⟩
        · rw [e] at h1
          exact Or.inl ⟨h1, h2⟩
        · rw [e] at h1
          refine Or.inr ⟨c, h', d', h1, h2, h3, fun x hx => ?_⟩
          rw [h4 x hx, storeInt_outside _ _ _ _ (by omega)]
      · exact Or.inr ⟨some curr, _, d, rfl, rfl, rfl, fun _ _ => rfl⟩

/-- The store list of the loop stops at the block the loop of `firstFit` stops
at and holds stores to `status->hops` only. -/
theorem firstFitStores_spec (m : Int → Block) (bs s : Int) :
    ∀ (fuel : Nat) (start : Option Int) (h : Int),
      (firstFit m bs fuel start h = none ∧ firstFitStores m bs s fuel start = none) ∨
      ∃ c h' loop, firstFit m bs fuel start h = some (c, h') ∧
        firstFitStores m bs s fuel start = some (c, loop) ∧
        ∀ σ ∈ loop, σ = Store.word (s + 8) := by
  intro fuel
  induction fuel with
  | zero => intro start h; exact Or.inl ⟨rfl, rfl⟩
  | succ k ih =>
    intro start h
    cases start with
    | none => exact Or.inr ⟨none, _, [], rfl, rfl, fun _ hσ => absurd hσ (List.not_mem_nil _)⟩
    | some curr =>
      simp only [firstFit, firstFitStores]
      split
      · rcases ih (m curr).next (wrap32 (h + 1)) with ⟨h1, h2⟩ | ⟨c, h', loop, h1, h2, h3⟩
        · exact Or.inl ⟨h1, by rw [h2]; rfl⟩
        · refine Or.inr ⟨c, h', Store.word (s + 8) :: loop, h1, by rw [h2]; rfl, fun σ hσ => ?_⟩
          rcases List.mem_cons.mp hσ with e | e
          · exact e
          · exact h3 σ e
      · exact Or.inr ⟨some curr, _, [], rfl, rfl, fun _ hσ => absurd hσ (List.not_mem_nil _)⟩

/-- A call of `smalloc` that stores its report through `status` does to the
headers what `smalloc` does, leaves the three `int`s of the report in the status
record and changes `data` inside the record only; its stores are the header
stores of `smallocStores` and stores to the three `int`s of the record. -/
theorem smallocAt_spec {s : Int} {fuel : Nat} {p : Int} {st st' : State} {d d' : Int → Int}
    {r : Option Int} (h : smallocAt s fuel p st d = some (r, st', d')) :
    ∃ stat W L, smalloc fuel p st = some (r, stat, st') ∧
      smallocStores fuel p st = some W ∧ smallocAtStores s fuel p st = some L ∧
      (∀ a, Store.field a ∈ L ↔ a ∈ W) ∧
      (∀ a, Store.word a ∈ L ↔ (a = s ∨ a = s + 4 ∨ a = s + 8)) ∧
      (∀ x, (x < s ∨ s + 12 ≤ x) → d' x = d x) ∧
      loadInt d' s = stat.success ∧ loadInt d' (s + 4) = stat.payload_offset ∧
      loadInt d' (s + 8) = stat.hops := by
  have e0 : loadInt (storeInt d (s + 8) 0) (s + 8) = 0 := by
    rw [loadInt_storeInt]; rfl
  have hA := firstFitAt_spec st.mem (blockSize p (padOf p)) s fuel st.head (storeInt d (s + 8) 0)
  rw [e0] at hA
  have hS := firstFitStores_spec st.mem (blockSize p (padOf p)) s fuel st.head 0
  unfold smallocAt at h
  simp only at h
  rcases hA with ⟨_, hA2⟩ | ⟨c, h', d1, hA1, hA2, hA3, hA4⟩
  · rw [hA2] at h
    cases h
  rcases hS with ⟨hS1, _⟩ | ⟨c2, h2, loop, hS1, hS2, hS3⟩
  · rw [hS1] at hA1
    cases hA1
  rw [hA1] at hS1
  simp only [Option.some.injEq, Prod.mk.injEq] at hS1
  obtain ⟨ec, _⟩ := hS1
  subst ec
  rw [hA2] at h
  have hword : ∀ a, Store.word a ∈ loop → a = s + 8 := by
    intro a ha
    have := hS3 _ ha
    simp only [Store.word.injEq] at this
    exact this
  have hfield : ∀ a, Store.field a ∉ loop := by
    intro a ha
    have := hS3 _ ha
    cases this
  cases c with
  | none =>
    simp only [Option.some.injEq, Prod.mk.injEq] at h
    obtain ⟨hr, hst, hd⟩ := h
    subst hr hst hd
    refine ⟨⟨0, -1, -1⟩, [], [Store.word (s + 8)] ++ loop ++
      [Store.word s, Store.word (s + 4), Store.word (s + 8)], ?_, ?_, ?_, ?_, ?_, ?_, ?_, ?_, ?_⟩
    · unfold smalloc
      simp only [hA1]
    · unfold smallocStores
      simp only [hA1]
    · unfold smallocAtStores
      simp only [hS2]
    · intro a
      simp only [List.mem_append, List.mem_cons, List.mem_singleton, List.not_mem_nil,
        or_false, false_or, reduceCtorEq, iff_false]
      exact hfield a
    · intro a
      simp only [List.mem_append, List.mem_cons, List.mem_singleton, List.not_mem_nil,
        or_false, Store.word.injEq]
      constructor
      · rintro ((i | i) | i | i | i)
        · exact Or.inr (Or.inr i)
        · exact Or.inr (Or.inr (hword a i))
        · exact Or.inl i
        · exact Or.inr (Or.inl i)
        · exact Or.inr (Or.inr i)
      · rintro (i | i | i)
        · exact Or.inr (Or.inl i)
        · exact Or.inr (Or.inr (Or.inl i))
        · exact Or.inl (Or.inl i)
    · intro x hx
      rw [storeInt_outside _ _ _ _ (by omega), storeInt_outside _ _ _ _ (by omega),
        storeInt_outside _ _ _ _ (by omega), hA4 x (by omega),
        storeInt_outside _ _ _ _ (by omega)]
    · rw [loadInt_storeInt_ne _ _ _ _ (by omega), loadInt_storeInt_ne _ _ _ _ (by omega),
        loadInt_storeInt]
      rfl
    · rw [loadInt_storeInt_ne _ _ _ _ (by omega), loadInt_storeInt]
      rfl
    · rw [loadInt_storeInt]
      rfl
  | some curr =>
    simp only [Option.some.injEq, Prod.mk.injEq] at h
    obtain ⟨hr, hst, hd⟩ := h
    rw [hA3] at hr hst hd
    subst hr hst hd
    refine ⟨(takeBlock st p (padOf p) (blockSize p (padOf p)) curr h').2.1,
      takeBlockStores st p (padOf p) (blockSize p (padOf p)) curr,
      [Store.word (s + 8)] ++ loop ++
        (takeBlockStores st p (padOf p) (blockSize p (padOf p)) curr).map Store.field ++
        [Store.word s, Store.word (s + 4)],
      ?_, ?_, ?_, ?_, ?_, ?_, ?_, ?_, ?_⟩
    · unfold smalloc
      simp only [hA1]
    · unfold smallocStores
      simp only [hA1]
    · unfold smallocAtStores
      simp only [hS2]
    · intro a
      simp only [List.mem_append, List.mem_cons, List.mem_singleton, List.not_mem_nil,
        or_false, false_or, reduceCtorEq, List.mem_map, Store.field.injEq, exists_eq_right]
      constructor
      · rintro (i | i)
        · exact absurd i (hfield a)
        · exact i
      · intro i
        exact Or.inr i
    · intro a
      simp only [List.mem_append, List.mem_cons, List.mem_singleton, List.not_mem_nil,
        or_false, Store.word.injEq, List.mem_map, reduceCtorEq, and_false, exists_false]
      constructor
      · rintro ((i | i) | i | i)
        · exact Or.inr (Or.inr i)
        · exact Or.inr (Or.inr (hword a i))
        · exact Or.inl i
        · exact Or.inr (Or.inl i)
      · rintro (i | i | i)
        · exact Or.inr (Or.inl i)
        · exact Or.inr (Or.inr i)
        · exact Or.inl (Or.inl i)
    · intro x hx
      rw [storeInt_outside _ _ _ _ (by omega), storeInt_outside _ _ _ _ (by omega),
        hA4 x (by omega), storeInt_outside _ _ _ _ (by omega)]
    · rw [loadInt_storeInt_ne _ _ _ _ (by omega), loadInt_storeInt]
      rfl
    · rw [loadInt_storeInt]
      simp only [takeBlock]
      exact wrap32_idem _
    · rw [loadInt_storeInt_ne _ _ _ _ (by omega), loadInt_storeInt_ne _ _ _ _ (by omega), hA3]
      rfl

theorem smallocAt_returns {fuel : Nat} {p : Int} {st st' : State} {r : Option Int}
    {stat : Malloc_Status} (h : smalloc fuel p st = some (r, stat, st')) (s : Int)
    (d : Int → Int) : ∃ d', smallocAt s fuel p st d = some (r, st', d') := by
  have e0 : loadInt (storeInt d (s + 8) 0) (s + 8) = 0 := by
    rw [loadInt_storeInt]; rfl
  have hA := firstFitAt_spec st.mem (blockSize p (padOf p)) s fuel st.head (storeInt d (s + 8) 0)
  rw [e0] at hA
  unfold smalloc at h
  simp only at h
  unfold smallocAt
  simp only
  rcases hA with ⟨hA1, _⟩ | ⟨c, h', d1, hA1, hA2, hA3, _⟩
  · rw [hA1] at h
    cases h
  · rw [hA1] at h
    rw [hA2]
    cases c with
    | none =>
      simp only [Option.some.injEq, Prod.mk.injEq] at h
      obtain ⟨hr, _, hst⟩ := h
      subst hr hst
      exact ⟨_, rfl⟩
    | some curr =>
      simp only [Option.some.injEq] at h
      simp only [hA3, h]
      exact ⟨_, rfl⟩

/-- An outstanding block lies inside the region. -/
theorem Inv.out_inside {R : Int} {st : State} {T : List Blk} {outs : List Int}
    (inv : Inv R st T outs) {q' : Int} (hq' : q' ∈ outs) :
    0 ≤ q' - 24 ∧ (q' - 24) + (st.mem (q' - 24)).size ≤ R := by
  obtain ⟨b', hb', hf', rfl⟩ := (inv.outs_iff q').mp hq'
  have e : b'.addr + 24 - 24 = b'.addr := by omega
  rw [e, (inv.hdr b' hb' hf').1]
  have := inv.tiled.bounds.2.2 b' hb'
  exact ⟨this.1, this.2.1⟩

/-- C13. Frame of allocate and free, with the report of `smalloc` stored
through `status`. In every reachable state, with `F` the free list, consider a
`smalloc` call with a non-negative `int` payload size whose status record lies
in memory the caller owns (outside the region, or inside the payload of an
outstanding block), or an `sfree` call on `NULL` or an outstanding pointer;
`sfree` has no status argument and all its stores are header stores. Every
header the call does not store to is as before, and so is every byte that no
store of the `smalloc` call covers. Each store goes to the header of a
free-list entry, to a header inside the extent of the chosen free block (the
header of the block being allocated among them), to the header of the block
being freed, or to an `int` of the 12-byte status record. Every block that is
outstanding before and after the call keeps its header (size, allocated flag
1), no store covers a byte of its header, no header store covers a byte of its
payload, and when the status record does not overlap its payload no store
covers a byte of the payload and the payload bytes are as before. -/
theorem frame_with_status (n : Int) (st : State) (outs : List Int) (h : Reach n st outs) :
    ∃ F : List Int, walkNext st.mem (F.length + 1) st.head = some F ∧
      (∀ (status : Int) (fuel : Nat) (p : Int) (d : Int → Int) (r : Option Int) (st' : State)
          (d' : Int → Int),
        0 ≤ p → p ≤ INT_MAX →
        (status + 12 ≤ 0 ∨ roundRegion n ≤ status ∨
          ∃ q0 ∈ outs, q0 ≤ status ∧ status + 12 ≤ (q0 - 24) + (st.mem (q0 - 24)).size) →
        smallocAt status fuel p st d = some (r, st', d') →
        ∃ L, smallocAtStores status fuel p st = some L ∧
          (∀ a, Store.field a ∉ L → st'.mem a = st.mem a) ∧
          (∀ x, (∀ σ ∈ L, ¬ σ.covers x) → d' x = d x) ∧
          (∀ a, Store.field a ∈ L → a ∈ F ∨ ∃ q, r = some q ∧ q - 24 ∈ F ∧
            q - 24 ≤ a ∧ a + 24 ≤ (q - 24) + (st.mem (q - 24)).size) ∧
          (∀ a, Store.word a ∈ L → status ≤ a ∧ a + 4 ≤ status + 12) ∧
          (∀ q' ∈ outs, (st.mem (q' - 24)).allocated = 1 ∧
            st'.mem (q' - 24) = st.mem (q' - 24) ∧
            (∀ x, q' - 24 ≤ x → x < q' → ∀ σ ∈ L, ¬ σ.covers x) ∧
            (∀ x, q' ≤ x → x < (q' - 24) + (st.mem (q' - 24)).size →
              ∀ a, Store.field a ∈ L → ¬ (Store.field a).covers x) ∧
            ((status + 12 ≤ q' ∨ (q' - 24) + (st.mem (q' - 24)).size ≤ status) →
              ∀ x, q' ≤ x → x < (q' - 24) + (st.mem (q' - 24)).size →
                (∀ σ ∈ L, ¬ σ.covers x) ∧ d' x = d x))) ∧
      (∀ (fuel : Nat) (ptr : Option Int) (st' : State),
        (ptr = none ∨ ∃ q ∈ outs, ptr = some q) → sfree fuel ptr st = some st' →
        ∃ W, sfreeStores fuel ptr st = some W ∧
          (∀ a, a ∉ W → st'.mem a = st.mem a) ∧
          (∀ a ∈ W, a ∈ F ∨ ptr = some (a + 24)) ∧
          (∀ q' ∈ outs, ptr ≠ some q' → (st.mem (q' - 24)).allocated = 1 ∧
            st'.mem (q' - 24) = st.mem (q' - 24) ∧
            ∀ a ∈ W, ∀ x, q' - 24 ≤ x → x < (q' - 24) + (st.mem (q' - 24)).size →
              ¬ (Store.field a).covers x)) := by
  obtain ⟨T, inv⟩ := reach_inv h
  obtain ⟨F, hF, hA, hS⟩ := header_frame n st outs h
  refine ⟨F, hF, ?_, ?_⟩
  · intro s fuel p d r st' d' hp hp2 hown hs
    obtain ⟨stat, W, L, hsm, hW, hL, hfld, hwrd, hdata, _, _, _⟩ := smallocAt_spec hs
    obtain ⟨W2, hW2, hun, hloc, hout⟩ := hA fuel p r stat st' hp hp2 hsm
    rw [hW] at hW2
    simp only [Option.some.injEq] at hW2
    subst hW2
    have hcov : ∀ x, s ≤ x → x < s + 12 → ∃ σ ∈ L, σ.covers x := by
      intro x h1 h2
      by_cases c1 : x < s + 4
      · exact ⟨Store.word s, (hwrd s).mpr (Or.inl rfl), ⟨h1, c1⟩⟩
      · by_cases c2 : x < s + 8
        · exact ⟨Store.word (s + 4), (hwrd _).mpr (Or.inr (Or.inl rfl)), ⟨by omega, by omega⟩⟩
        · exact ⟨Store.word (s + 8), (hwrd _).mpr (Or.inr (Or.inr rfl)), ⟨by omega, by omega⟩⟩
    have hwin : ∀ a, Store.word a ∈ L → s ≤ a ∧ a + 4 ≤ s + 12 := by
      intro a ha
      rcases (hwrd a).mp ha with e | e | e <;> omega
    refine ⟨L, hL, fun a ha => hun a (fun hw => ha ((hfld a).mpr hw)), fun x hx => ?_,
      fun a ha => hloc a ((hfld a).mp ha), hwin, fun q' hq' => ?_⟩
    · apply hdata
      by_contra hcon
      obtain ⟨σ, hσ, hc⟩ := hcov x (by omega) (by omega)
      exact hx σ hσ hc
    · obtain ⟨hal, hsame, hap⟩ := hout q' hq'
      obtain ⟨s24, _⟩ := inv.out_header hq'
      obtain ⟨lo, hi⟩ := inv.out_inside hq'
      have hfa : ∀ x, q' - 24 ≤ x → x < (q' - 24) + (st.mem (q' - 24)).size →
          ∀ a, Store.field a ∈ L → ¬ (Store.field a).covers x := by
        intro x h1 h2 a ha hc
        have := hap a ((hfld a).mp ha)
        have hc' : a ≤ x ∧ x < a + 24 := hc
        omega
      have hhdr : s + 12 ≤ q' - 24 ∨ q' ≤ s := by
        rcases hown with o | o | ⟨q0, hq0, o1, o2⟩
        · left; omega
        · right; omega
        · by_cases e : q0 = q'
          · subst e; right; exact o1
          · have u1 := inv.used_apart hq0 hq' e
            have u2 := inv.used_apart hq' hq0 (fun e' => e e'.symm)
            obtain ⟨t24, _⟩ := inv.out_header hq0
            omega
      refine ⟨hal, hsame, fun x h1 h2 σ hσ hc => ?_, fun x h1 h2 => hfa x (by omega) h2,
        fun hdis x h1 h2 => ⟨fun σ hσ hc => ?_, hdata x (by omega)⟩⟩
      · cases σ with
        | field a => exact hfa x h1 (by omega) a hσ hc
        | word a =>
          have := hwin a hσ
          have hc' : a ≤ x ∧ x < a + 4 := hc
          omega
      · cases σ with
        | field a => exact hfa x (by omega) h2 a hσ hc
        | word a =>
          have := hwin a hσ
          have hc' : a ≤ x ∧ x < a + 4 := hc
          omega
  · intro fuel ptr st' hptr hs
    obtain ⟨W, hW, hun, hloc, hout⟩ := hS fuel ptr st' hptr hs
    refine ⟨W, hW, hun, hloc, fun q' hq' hne => ?_⟩
    obtain ⟨hal, hsame, hap⟩ := hout q' hq' hne
    refine ⟨hal, hsame, fun a ha x h1 h2 hc => ?_⟩
    have := hap a ha
    have hc' : a ≤ x ∧ x < a + 24 := hc
    omega

theorem frame_with_status_witness :
    smallocAtStores 24 16 100 twoOut =
      some [Store.word 32, Store.field 208, Store.field 208, Store.field 208, Store.field 208,
        Store.field 80, Store.field 80, Store.field 80, Store.field 208, Store.word 24,
        Store.word 28] ∧
    sfreeStores 16 (some 24) twoOut = some [0, 0, 0, 80] ∧
    ∃ F : List Int, walkNext twoOut.mem (F.length + 1) twoOut.head = some F ∧
      (∀ (status : Int) (fuel : Nat) (p : Int) (d : Int → Int) (r : Option Int) (st' : State)
          (d' : Int → Int),
        0 ≤ p → p ≤ INT_MAX →
        (status + 12 ≤ 0 ∨ roundRegion 4096 ≤ status ∨
          ∃ q0 ∈ [(64 : Int), 24], q0 ≤ status ∧ status + 12 ≤ (q0 - 24) + (twoOut.mem (q0 - 24)).size) →
        smallocAt status fuel p twoOut d = some (r, st', d') →
        ∃ L, smallocAtStores status fuel p twoOut = some L ∧
          (∀ a, Store.field a ∉ L → st'.mem a = twoOut.mem a) ∧
          (∀ x, (∀ σ ∈ L, ¬ σ.covers x) → d' x = d x) ∧
          (∀ a, Store.field a ∈ L → a ∈ F ∨ ∃ q, r = some q ∧ q - 24 ∈ F ∧
            q - 24 ≤ a ∧ a + 24 ≤ (q - 24) + (twoOut.mem (q - 24)).size) ∧
          (∀ a, Store.word a ∈ L → status ≤ a ∧ a + 4 ≤ status + 12) ∧
          (∀ q' ∈ [(64 : Int), 24], (twoOut.mem (q' - 24)).allocated = 1 ∧
            st'.mem (q' - 24) = twoOut.mem (q' - 24) ∧
            (∀ x, q' - 24 ≤ x → x < q' → ∀ σ ∈ L, ¬ σ.covers x) ∧
            (∀ x, q' ≤ x → x < (q' - 24) + (twoOut.mem (q' - 24)).size →
              ∀ a, Store.field a ∈ L → ¬ (Store.field a).covers x) ∧
            ((status + 12 ≤ q' ∨ (q' - 24) + (twoOut.mem (q' - 24)).size ≤ status) →
              ∀ x, q' ≤ x → x < (q' - 24) + (twoOut.mem (q' - 24)).size →
                (∀ σ ∈ L, ¬ σ.covers x) ∧ d' x = d x))) ∧
      (∀ (fuel : Nat) (ptr : Option Int) (st' : State),
        (ptr = none ∨ ∃ q ∈ [(64 : Int), 24], ptr = some q) → sfree fuel ptr twoOut = some st' →
        ∃ W, sfreeStores fuel ptr twoOut = some W ∧
          (∀ a, a ∉ W → st'.mem a = twoOut.mem a) ∧
          (∀ a ∈ W, a ∈ F ∨ ptr = some (a + 24)) ∧
          (∀ q' ∈ [(64 : Int), 24], ptr ≠ some q' → (twoOut.mem (q' - 24)).allocated = 1 ∧
            st'.mem (q' - 24) = twoOut.mem (q' - 24) ∧
            ∀ a ∈ W, ∀ x, q' - 24 ≤ x → x < (q' - 24) + (twoOut.mem (q' - 24)).size →
              ¬ (Store.field a).covers x)) :=
  ⟨by decide, by decide, frame_with_status 4096 twoOut [64, 24]
    (@Reach.alloc 4096 (afterAlloc 16 freshPage) twoOut [24] 16 16 64 ⟨1, 64, 0⟩
      (@Reach.alloc 4096 freshPage _ [] 16 16 24 ⟨1, 24, 0⟩
        (@Reach.init 4096 ⟨zeroMem, none⟩ freshPage true (by decide) (by decide) rfl)
        (by decide) (by decide) rfl)
      (by decide) (by decide) rfl)⟩

/-- C13 as stated fails. On a fresh page the block at 0 (size 40, payload bytes
24 to 39) is outstanding and the free list is the one block at 40. The call
`smalloc(16, status)` with the status record at offset 24, inside that payload,
takes the block at 40 and returns 64; the block at 0 is outstanding before and
after with the same header, yet its payload byte 24, and the `int` at 24, is 0
before the call and 1 after it, and the store to the four bytes at 24 lies in no header of a free
block, outside the extent of the chosen block, which starts at 40, and in no
header of the block being allocated. -/
theorem status_in_payload_overwritten :
    Reach 4096 onePayload.1 [24] ∧
    (onePayload.1.mem 0).size = 40 ∧ (onePayload.1.mem 0).allocated = 1 ∧
    walkNext onePayload.1.mem 2 onePayload.1.head = some [40] ∧
    (onePayload.1.mem 40).size = 4056 ∧
    smallocAt 24 16 16 onePayload.1 onePayload.2 =
      some (some 64, (afterAllocAt 24 16 onePayload).1, (afterAllocAt 24 16 onePayload).2) ∧
    Reach 4096 (afterAllocAt 24 16 onePayload).1 [64, 24] ∧
    ((afterAllocAt 24 16 onePayload).1.mem 0).size = 40 ∧
    ((afterAllocAt 24 16 onePayload).1.mem 0).allocated = 1 ∧
    onePayload.2 24 = 0 ∧ (afterAllocAt 24 16 onePayload).2 24 = 1 ∧
    loadInt onePayload.2 24 = 0 ∧ loadInt (afterAllocAt 24 16 onePayload).2 24 = 1 ∧
    smallocAtStores 24 16 16 onePayload.1 =
      some [Store.word 32, Store.field 80, Store.field 80, Store.field 80, Store.field 80,
        Store.field 40, Store.field 40, Store.field 40, Store.field 80, Store.word 24,
        Store.word 28] ∧
    (Store.word 24).covers 24 :=
  ⟨@Reach.alloc 4096 freshPage onePayload.1 [] 16 12 24 ⟨1, 24, 0⟩
      (@Reach.init 4096 ⟨zeroMem, none⟩ freshPage true (by decide) (by decide) rfl)
      (by decide) (by decide) rfl,
    by decide, by decide, by decide, by decide, rfl,
    @Reach.alloc 4096 onePayload.1 (afterAllocAt 24 16 onePayload).1 [24] 16 16 64 ⟨1, 64, 0⟩
      (@Reach.alloc 4096 freshPage onePayload.1 [] 16 12 24 ⟨1, 24, 0⟩
        (@Reach.init 4096 ⟨zeroMem, none⟩ freshPage true (by decide) (by decide) rfl)
        (by decide) (by decide) rfl)
      (by decide) (by decide) rfl,
    by decide, by decide, by decide, by decide, by decide, by decide, by decide,
    ⟨by decide, by decide⟩⟩

end Smalloc
